import Mathlib

/-!
# Soft-Bisim distance: a verification development

A shallow embedding of `soft_bisim.go` (with `weights.go`).

Conventions of the embedding.

* A Go `string` is its sequence of bytes, `GoString = List Nat`; a `rune` is a `Nat`.
* `float64` costs are modelled by exact rationals `ℚ`: rounding, infinities and NaN are
  not represented.  Division agrees with the source only for a non-zero divisor.  Where
  rounding decides a property, `SoftBisimDistance` is also embedded with the `float64`
  operations as a parameter (`FloatOps`); `binary64` is the rounded arithmetic on finite
  values.
* A Go slice index that can panic is an `Option`-valued read or write; `none` is the panic.
* `for` loops are `forLoop`, an explicit iteration over the loop variable that threads
  the mutable state.
* The tables of Go's `unicode` package are a parameter, `UnicodeTables`.
* A `range` over a Go map visits the entries in an unspecified order: the two
  transliteration loops are embedded for an arbitrary order of visit and shown not to
  depend on it.
-/

namespace SoftBisim

/-- A Go string, as the sequence of its bytes. -/
abbrev GoString := List Nat

/-- The record `Weights` of `weights.go`. -/
structure Weights where
  Match : ℚ
  Replace : ℚ
  Insert : ℚ
  Delete : ℚ
  Transposition : ℚ
  Merge : ℚ
  Split : ℚ
  CaseChange : ℚ
  PhoneticChange : ℚ

/-- The loop `for i := lo; i < lo + n; i++ { s = body(i, s) }` over a state `s`;
a failing body aborts the loop. -/
def forLoop {σ : Type} (body : Nat → σ → Option σ) : Nat → Nat → σ → Option σ
  | _, 0, s => some s
  | i, n + 1, s => (body i s).bind (forLoop body (i + 1) n)

/-- The read `dist[i][j]` of a slice of slices. -/
def mget (d : List (List ℚ)) (i j : Nat) : Option ℚ :=
  d[i]?.bind (fun row => row[j]?)

/-- The write `dist[i][j] = v` of a slice of slices. -/
def mset (d : List (List ℚ)) (i j : Nat) (v : ℚ) : Option (List (List ℚ)) :=
  match d[i]? with
  | none => none
  | some row => if j < row.length then some (d.set i (row.set j v)) else none

/-- The body of the inner loop of `SoftBisimDistance` (lines 269-292): the update of
`dist[i][j]` from the bigram slices `A` (`bigrams1`) and `B` (`bigrams2`); `lower` is
`strings.ToLower`.  Sums and minima are exact; `cellStepF` is the same body with the
`float64` operations as a parameter. -/
def cellStep (lower : GoString → GoString) (w : Weights) (A B : List GoString)
    (i j : Nat) (d : List (List ℚ)) : Option (List (List ℚ)) := do
  let a ← A[i - 1]?
  let b ← B[j - 1]?
  if a = b then
    let diag ← mget d (i - 1) (j - 1)
    mset d i j (diag + w.Match)
  else
    let cost := if lower a = lower b then w.CaseChange else w.Replace
    let up ← mget d (i - 1) j
    let left ← mget d i (j - 1)
    let diag ← mget d (i - 1) (j - 1)
    let d1 ← mset d i j (min (min (up + w.Delete) (left + w.Insert)) (diag + cost))
    if 1 < i ∧ 1 < j then
      let b2 ← B[j - 2]?
      if a = b2 then
        let a2 ← A[i - 2]?
        if a2 = b then
          let cur ← mget d1 i j
          let dd ← mget d1 (i - 2) (j - 2)
          mset d1 i j (min cur (dd + w.Transposition))
        else some d1
      else some d1
    else some d1

/-- The distance matrix of `SoftBisimDistance` (lines 252-294): the allocation of
`len(bigrams1) + 1` rows of `len(bigrams2) + 1` zeros, the two loops of the base cases,
then the fill in row-major order. -/
def SoftBisimMatrix (lower : GoString → GoString) (w : Weights) (A B : List GoString) :
    Option (List (List ℚ)) := do
  let d0 := List.replicate (A.length + 1) (List.replicate (B.length + 1) (0 : ℚ))
  let d1 ← forLoop (fun i d => mset d i 0 ((i : ℚ) * w.Delete)) 0 (A.length + 1) d0
  let d2 ← forLoop (fun j d => mset d 0 j ((j : ℚ) * w.Insert)) 0 (B.length + 1) d1
  forLoop (fun i d => forLoop (fun j d' => cellStep lower w A B i j d') 1 B.length d)
    1 A.length d2

/-- The value `dist[len(bigrams1)][len(bigrams2)]` returned by `SoftBisimDistance`
(line 296), as a function of the two bigram slices. -/
def SoftBisimBigrams (lower : GoString → GoString) (w : Weights) (A B : List GoString) :
    Option ℚ :=
  (SoftBisimMatrix lower w A B).bind (fun d => mget d A.length B.length)

/-- The bigram `A[i]`, for an index in range. -/
def nth (A : List GoString) (i : Nat) : GoString := (A[i]?).getD []

/-- Closed form of the matrix entries: the recurrence that the loops of
`SoftBisimDistance` implement, `cell i j` being the entry `dist[i][j]`. -/
def cell (lower : GoString → GoString) (w : Weights) (A B : List GoString) :
    Nat → Nat → ℚ
  | 0, j => (j : ℚ) * w.Insert
  | i + 1, 0 => ((i + 1 : Nat) : ℚ) * w.Delete
  | i + 1, j + 1 =>
    if nth A i = nth B j then cell lower w A B i j + w.Match
    else
      let cost := if lower (nth A i) = lower (nth B j) then w.CaseChange
        else w.Replace
      let base := min (min (cell lower w A B i (j + 1) + w.Delete)
        (cell lower w A B (i + 1) j + w.Insert)) (cell lower w A B i j + cost)
      if 1 ≤ i ∧ 1 ≤ j ∧ nth A i = nth B (j - 1) ∧ nth A (i - 1) = nth B j
      then min base (cell lower w A B (i - 1) (j - 1) + w.Transposition)
      else base
termination_by i j => (i, j)

/-! ### Strings, runes and UTF-8 -/

/-- The tables of Go's `unicode` package that the program consults.  They belong to the
standard library, not to the repository, and are a parameter of the embedding. -/
structure UnicodeTables where
  /-- `unicode.ToLower`. -/
  toLower : Nat → Nat
  /-- `unicode.In(r, unicode.Cyrillic)`. -/
  isCyrillic : Nat → Bool
  /-- `unicode.In(r, unicode.Hebrew)`. -/
  isHebrew : Nat → Bool

/-- `utf8.RuneError`, U+FFFD. -/
def RuneError : Nat := 0xFFFD

/-- A UTF-8 continuation byte, `0x80..0xBF`. -/
def isCont (b : Nat) : Bool := decide (0x80 ≤ b) && decide (b ≤ 0xBF)

/-- `utf8.DecodeRuneInString`: the first rune of a string and its width in bytes.
Ill-formed input (overlong forms, surrogates, truncated sequences) decodes to
`(RuneError, 1)`, the empty string to `(RuneError, 0)`. -/
def decodeRune : GoString → Nat × Nat
  | [] => (RuneError, 0)
  | b0 :: rest =>
    if b0 < 0x80 then (b0, 1)
    else if 0xC2 ≤ b0 ∧ b0 ≤ 0xDF then
      match rest with
      | b1 :: _ => if isCont b1 then ((b0 % 32) * 64 + b1 % 64, 2) else (RuneError, 1)
      | _ => (RuneError, 1)
    else if 0xE0 ≤ b0 ∧ b0 ≤ 0xEF then
      match rest with
      | b1 :: b2 :: _ =>
        if (if b0 = 0xE0 then decide (0xA0 ≤ b1) && decide (b1 ≤ 0xBF)
            else if b0 = 0xED then decide (0x80 ≤ b1) && decide (b1 ≤ 0x9F)
            else isCont b1) && isCont b2
        then (((b0 % 16) * 64 + b1 % 64) * 64 + b2 % 64, 3) else (RuneError, 1)
      | _ => (RuneError, 1)
    else if 0xF0 ≤ b0 ∧ b0 ≤ 0xF4 then
      match rest with
      | b1 :: b2 :: b3 :: _ =>
        if (if b0 = 0xF0 then decide (0x90 ≤ b1) && decide (b1 ≤ 0xBF)
            else if b0 = 0xF4 then decide (0x80 ≤ b1) && decide (b1 ≤ 0x8F)
            else isCont b1) && isCont b2 && isCont b3
        then ((((b0 % 8) * 64 + b1 % 64) * 64 + b2 % 64) * 64 + b3 % 64, 4)
        else (RuneError, 1)
      | _ => (RuneError, 1)
    else (RuneError, 1)

/-- The loop behind `[]rune(s)` and `for _, r := range s`; `skip` counts the bytes of
the current rune still to be passed over. -/
def toRunesAux : GoString → Nat → List Nat
  | [], _ => []
  | _ :: rest, skip + 1 => toRunesAux rest skip
  | b :: rest, 0 =>
    (decodeRune (b :: rest)).1 :: toRunesAux rest ((decodeRune (b :: rest)).2 - 1)

/-- The conversion `[]rune(s)`; also the runes visited by `for _, r := range s`. -/
def toRunes (s : GoString) : List Nat := toRunesAux s 0

/-- The conversion `string(r)` of one rune (`utf8.AppendRune`): surrogates and values
above U+10FFFF are encoded as U+FFFD. -/
def encodeRune (r : Nat) : GoString :=
  if r ≤ 0x7F then [r]
  else if r ≤ 0x7FF then [0xC0 + r / 64, 0x80 + r % 64]
  else if 0x10FFFF < r ∨ (0xD800 ≤ r ∧ r ≤ 0xDFFF) then [0xEF, 0xBF, 0xBD]
  else if r ≤ 0xFFFF then [0xE0 + r / 4096, 0x80 + r / 64 % 64, 0x80 + r % 64]
  else [0xF0 + r / 262144, 0x80 + r / 4096 % 64, 0x80 + r / 64 % 64, 0x80 + r % 64]

/-- The conversion `string(runes)` of a rune slice. -/
def fromRunes (rs : List Nat) : GoString := rs.flatMap encodeRune

/-- A string literal of the source, as a Go string (the UTF-8 bytes of its text). -/
def lit (s : String) : GoString := fromRunes (s.toList.map Char.toNat)

/-- The slice expression `xs[lo:hi]`, which panics unless `lo ≤ hi ≤ len(xs)`. -/
def slice {α : Type} (xs : List α) (lo hi : Nat) : Option (List α) :=
  if lo ≤ hi ∧ hi ≤ xs.length then some ((xs.drop lo).take (hi - lo)) else none

/-- `ComputeBigrams` (lines 11-19).  The loop runs for `i < len(runes) - 1`, that is
`len(runes) - 1` times, and not at all on an empty slice. -/
def ComputeBigrams (s : GoString) : Option (List GoString) :=
  let runes := toRunes s
  forLoop (fun i bigrams => do
      let bigram ← slice runes i (i + 2)
      some (bigrams ++ [fromRunes bigram]))
    0 (runes.length - 1) []

/-- `strings.ToLower`: bytewise on an all-ASCII string, `strings.Map(unicode.ToLower, s)`
otherwise (which re-encodes every rune, an invalid byte becoming U+FFFD first). -/
def ToLower (U : UnicodeTables) (s : GoString) : GoString :=
  if s.all (fun c => decide (c < 0x80)) then
    s.map (fun c => if 0x41 ≤ c ∧ c ≤ 0x5A then c + 32 else c)
  else fromRunes ((toRunes s).map U.toLower)

/-- `strings.HasPrefix`. -/
def HasPrefix (s pre : GoString) : Bool := pre.isPrefixOf s

/-- `strings.HasSuffix`. -/
def HasSuffix (s suf : GoString) : Bool := suf.isSuffixOf s

/-- `strings.Contains`. -/
def Contains : GoString → GoString → Bool
  | [], sub => sub.isEmpty
  | b :: rest, sub => sub.isPrefixOf (b :: rest) || Contains rest sub

/-- The scan of `strings.NewReplacer(oldnew...).Replace(s)` (the generic replacer, which
is the one built for every table of the source): at each byte position the first pair, in
argument order, whose old string is a prefix of the remaining input is applied; without a
match the byte is copied.  `skip` counts the bytes of the last match still to be passed
over.  The old strings are non-empty, as in every table of the source. -/
def replaceScan (pairs : List (GoString × GoString)) : GoString → Nat → GoString
  | [], _ => []
  | _ :: rest, skip + 1 => replaceScan pairs rest skip
  | b :: rest, 0 =>
    match pairs.find? (fun p => p.1.isPrefixOf (b :: rest)) with
    | some p => p.2 ++ replaceScan pairs rest (p.1.length - 1)
    | none => b :: replaceScan pairs rest 0

/-- `strings.NewReplacer(oldnew...).Replace(s)`. -/
def Replace (pairs : List (GoString × GoString)) (s : GoString) : GoString :=
  replaceScan pairs s 0

/-- `strings.ReplaceAll(s, "", new)`: `new` is inserted after every rune; `skip` counts
the bytes of the current rune still to be copied. -/
def insertAfterRunes (new : GoString) : GoString → Nat → GoString
  | [], _ => []
  | b :: rest, skip =>
    if (if skip = 0 then (decodeRune (b :: rest)).2 - 1 else skip - 1) = 0
    then b :: (new ++ insertAfterRunes new rest 0)
    else b :: insertAfterRunes new rest
      (if skip = 0 then (decodeRune (b :: rest)).2 - 1 else skip - 1)

/-- `strings.ReplaceAll(s, old, new)`: the non-overlapping occurrences of `old`, leftmost
first, are replaced by `new`. -/
def ReplaceAll (s old new : GoString) : GoString :=
  if old = [] then new ++ insertAfterRunes new s 0 else replaceScan [(old, new)] s 0

/-- `containsCyrillic` (lines 44-51). -/
def containsCyrillic (U : UnicodeTables) (s : GoString) : Bool :=
  (toRunes s).any U.isCyrillic

/-- `containsHebrew` (lines 54-61). -/
def containsHebrew (U : UnicodeTables) (s : GoString) : Bool :=
  (toRunes s).any U.isHebrew

/-- `DetectLanguage` (lines 23-41). -/
def DetectLanguage (U : UnicodeTables) (name : GoString) : String :=
  let name := ToLower U name
  if Contains name (lit "sch") || HasSuffix name (lit "mann") then "german"
  else if Contains name (lit "cz") || Contains name (lit "sz") then "polish"
  else if HasPrefix name (lit "ch") || HasSuffix name (lit "ez") then "spanish"
  else if containsCyrillic U name then "russian"
  else if containsHebrew U name then "hebrew"
  else "generic"

/-- `GenericPhoneticTransform` (lines 85-117). -/
def GenericPhoneticTransform (U : UnicodeTables) (s : GoString) : GoString :=
  let s := ToLower U s
  let s := Replace [(lit "ph", lit "f"), (lit "ck", lit "k"), (lit "gh", lit "g"),
    (lit "sch", lit "sh"), (lit "ch", lit "k"), (lit "th", lit "t"), (lit "sh", lit "s"),
    (lit "cz", lit "c"), (lit "qu", lit "k"), (lit "gn", lit "n"), (lit "wr", lit "r"),
    (lit "kn", lit "n"), (lit "wh", lit "w"), (lit "dg", lit "g")] s
  let s := ReplaceAll s (lit "h") (lit "")
  [lit "tt", lit "ll", lit "ss", lit "pp", lit "rr", lit "mm"].foldl
    (fun s ch => ReplaceAll s ch (encodeRune (ch.headD 0))) s

/-- `ApplyGermanPhoneticRules` (lines 120-138). -/
def ApplyGermanPhoneticRules (U : UnicodeTables) (name : GoString) : GoString :=
  Replace [(lit "sch", lit "sh"), (lit "ch", lit "k"), (lit "tz", lit "ts"),
    (lit "z", lit "ts"), (lit "ss", lit "s"), (lit "eu", lit "oy"), (lit "ä", lit "ae"),
    (lit "ö", lit "oe"), (lit "ü", lit "ue"), (lit "ß", lit "ss")] (ToLower U name)

/-- `ApplyPolishPhoneticRules` (lines 141-159). -/
def ApplyPolishPhoneticRules (U : UnicodeTables) (name : GoString) : GoString :=
  Replace [(lit "cz", lit "ch"), (lit "sz", lit "sh"), (lit "w", lit "v"),
    (lit "ł", lit "l"), (lit "ń", lit "n"), (lit "ś", lit "s"), (lit "ź", lit "z"),
    (lit "ż", lit "z"), (lit "ą", lit "a"), (lit "ę", lit "e")] (ToLower U name)

/-- `ApplySpanishPhoneticRules` (lines 162-179). -/
def ApplySpanishPhoneticRules (U : UnicodeTables) (name : GoString) : GoString :=
  Replace [(lit "ll", lit "y"), (lit "ch", lit "k"), (lit "ñ", lit "n"),
    (lit "v", lit "b"), (lit "ce", lit "se"), (lit "ci", lit "si"), (lit "z", lit "s"),
    (lit "j", lit "h"), (lit "h", lit "")] (ToLower U name)

/-- The map `cyrillicToLatin` of `TransliterateRussianToLatin` (lines 183-193), in the
order of the source text. -/
def cyrillicToLatin : List (GoString × GoString) :=
  [(lit "ш", lit "sh"), (lit "ч", lit "ch"), (lit "ц", lit "ts"), (lit "ж", lit "zh"),
   (lit "ю", lit "yu"), (lit "я", lit "ya"), (lit "х", lit "kh"), (lit "й", lit "y"),
   (lit "ё", lit "yo"), (lit "э", lit "e"), (lit "ы", lit "i"), (lit "щ", lit "shch"),
   (lit "ъ", lit ""), (lit "ь", lit ""),
   (lit "а", lit "a"), (lit "б", lit "b"), (lit "в", lit "v"), (lit "г", lit "g"),
   (lit "д", lit "d"), (lit "е", lit "e"), (lit "з", lit "z"), (lit "и", lit "i"),
   (lit "к", lit "k"), (lit "л", lit "l"), (lit "м", lit "m"), (lit "н", lit "n"),
   (lit "о", lit "o"), (lit "п", lit "p"), (lit "р", lit "r"), (lit "с", lit "s"),
   (lit "т", lit "t"), (lit "у", lit "u"), (lit "ф", lit "f")]

/-- The map `hebrewToLatin` of `TransliterateHebrewToLatin` (lines 207-214), in the order
of the source text. -/
def hebrewToLatin : List (GoString × GoString) :=
  [(lit "א", lit "a"), (lit "ב", lit "b"), (lit "ג", lit "g"), (lit "ד", lit "d"),
   (lit "ה", lit "h"), (lit "ו", lit "v"), (lit "ז", lit "z"), (lit "ח", lit "ch"),
   (lit "ט", lit "t"), (lit "י", lit "y"), (lit "כ", lit "k"), (lit "ל", lit "l"),
   (lit "מ", lit "m"), (lit "נ", lit "n"), (lit "ס", lit "s"), (lit "ע", lit "a"),
   (lit "פ", lit "p"), (lit "צ", lit "tz"), (lit "ק", lit "k"), (lit "ר", lit "r"),
   (lit "ש", lit "sh"), (lit "ת", lit "t")]

/-- The loop `for old, new := range table { name = strings.ReplaceAll(name, old, new) }`
for one order `order` in which the entries of the map are visited. -/
def replaceEach (order : List (GoString × GoString)) (name : GoString) : GoString :=
  order.foldl (fun s kv => ReplaceAll s kv.1 kv.2) name

/-- `TransliterateRussianToLatin` (lines 182-203) when the map is visited in the order
`order`, a permutation of `cyrillicToLatin`. -/
def TransliterateRussianToLatinIn (order : List (GoString × GoString)) (U : UnicodeTables)
    (name : GoString) : GoString :=
  replaceEach order (ToLower U name)

/-- `TransliterateHebrewToLatin` (lines 206-221) when the map is visited in the order
`order`, a permutation of `hebrewToLatin`. -/
def TransliterateHebrewToLatinIn (order : List (GoString × GoString)) (name : GoString) :
    GoString :=
  replaceEach order name

/-- `TransliterateRussianToLatin` (lines 182-203); the map is visited in the order of the
source text, which is no loss of generality (`TransliterateRussianToLatinIn_perm`). -/
def TransliterateRussianToLatin (U : UnicodeTables) (name : GoString) : GoString :=
  TransliterateRussianToLatinIn cyrillicToLatin U name

/-- `TransliterateHebrewToLatin` (lines 206-221); the map is visited in the order of the
source text, which is no loss of generality (`TransliterateHebrewToLatinIn_perm`). -/
def TransliterateHebrewToLatin (name : GoString) : GoString :=
  TransliterateHebrewToLatinIn hebrewToLatin name

/-- `ApplyPhoneticTransform` (lines 64-82). -/
def ApplyPhoneticTransform (U : UnicodeTables) (name : GoString) : GoString :=
  let language := DetectLanguage U name
  if language = "german" then ApplyGermanPhoneticRules U name
  else if language = "polish" then ApplyPolishPhoneticRules U name
  else if language = "spanish" then ApplySpanishPhoneticRules U name
  else if language = "russian" then TransliterateRussianToLatin U name
  else if language = "hebrew" then TransliterateHebrewToLatin name
  else GenericPhoneticTransform U name

/-- `VowelReduction` (lines 224-237).  `len(s)` and `s[0]` are in bytes: the first byte
is converted to a string as a rune, the rest of the string is ranged over by runes. -/
def VowelReduction (s : GoString) : GoString :=
  match s with
  | [] => s
  | b0 :: rest =>
    if 1 < s.length then
      (toRunes rest).foldl
        (fun reduced char =>
          if char ∈ [0x61, 0x65, 0x69, 0x6F, 0x75] then reduced
          else reduced ++ encodeRune char)
        (encodeRune b0)
    else s

/-- `SoftBisimDistance` (lines 240-297). -/
def SoftBisimDistance (U : UnicodeTables) (s1 s2 : GoString) (weights : Weights) :
    Option ℚ := do
  let s1 := ApplyPhoneticTransform U s1
  let s2 := ApplyPhoneticTransform U s2
  let s1 := VowelReduction s1
  let s2 := VowelReduction s2
  let bigrams1 ← ComputeBigrams s1
  let bigrams2 ← ComputeBigrams s2
  SoftBisimBigrams (ToLower U) weights bigrams1 bigrams2

/-- The body of the loop of `FitnessFunction` (lines 303-313): the similarity of one pair
is added to `totalScore`.  The reads `pair[0]` and `pair[1]` panic on a pair with fewer
than two names.  The quotient is exact; for two empty names the divisor `maxLen` is zero
and the source computes `0/0`, a NaN, which the rationals do not represent. -/
def fitnessStep (U : UnicodeTables) (weights : Weights) (totalScore : ℚ)
    (pair : List GoString) : Option ℚ := do
  let name1 ← pair[0]?
  let name2 ← pair[1]?
  let distance ← SoftBisimDistance U name1 name2 weights
  let len1 := (toRunes name1).length
  let len2 := (toRunes name2).length
  let maxLen : ℚ := if len2 > len1 then (len2 : ℚ) else (len1 : ℚ)
  let similarity := 1 - distance / maxLen
  some (totalScore + similarity)

/-- `FitnessFunction` (lines 300-316).  The quotient is exact; for an empty `data` the
divisor is zero and the source computes `0/0`, a NaN, which the rationals do not
represent. -/
def FitnessFunction (U : UnicodeTables) (data : List (List GoString)) (weights : Weights) :
    Option ℚ := do
  let totalScore ← data.foldlM (fitnessStep U weights) 0
  some (totalScore / (data.length : ℚ))

/-- Unicode tables for evaluating examples.  They agree with Go's `unicode` package on
ASCII and on the Russian alphabet (U+0400..U+045F); elsewhere `toLower` is the identity
and the script tables hold the main Cyrillic (U+0400..U+052F, without U+0485 and U+0486)
and Hebrew (U+0591..U+05C7, U+05D0..U+05EA, U+05EF..U+05F4) ranges. -/
def sampleTables : UnicodeTables where
  toLower := fun r =>
    if 0x41 ≤ r ∧ r ≤ 0x5A then r + 32
    else if 0x410 ≤ r ∧ r ≤ 0x42F then r + 32
    else if 0x400 ≤ r ∧ r ≤ 0x40F then r + 80
    else r
  isCyrillic := fun r =>
    (decide (0x400 ≤ r) && decide (r ≤ 0x484)) || (decide (0x487 ≤ r) && decide (r ≤ 0x52F))
  isHebrew := fun r =>
    (decide (0x591 ≤ r) && decide (r ≤ 0x5C7)) || (decide (0x5D0 ≤ r) && decide (r ≤ 0x5EA))
      || (decide (0x5EF ≤ r) && decide (r ≤ 0x5F4))


/-- The weights with `Insert` and `Delete` exchanged. -/
def Weights.swapInsDel (w : Weights) : Weights :=
  { w with Insert := w.Delete, Delete := w.Insert }

/-- Every coefficient that the alignment reads is non-negative. -/
def Weights.NonNeg (w : Weights) : Prop :=
  0 ≤ w.Match ∧ 0 ≤ w.Replace ∧ 0 ≤ w.Insert ∧ 0 ≤ w.Delete ∧ 0 ≤ w.Transposition ∧
    0 ≤ w.Merge ∧ 0 ≤ w.Split ∧ 0 ≤ w.CaseChange ∧ 0 ≤ w.PhoneticChange

/-- Coefficient-wise order on weights. -/
def Weights.Le (w w' : Weights) : Prop :=
  w.Match ≤ w'.Match ∧ w.Replace ≤ w'.Replace ∧ w.Insert ≤ w'.Insert ∧
    w.Delete ≤ w'.Delete ∧ w.Transposition ≤ w'.Transposition ∧ w.Merge ≤ w'.Merge ∧
    w.Split ≤ w'.Split ∧ w.CaseChange ≤ w'.CaseChange ∧
    w.PhoneticChange ≤ w'.PhoneticChange

/-- Closed form of `ComputeBigrams` on the runes of a string: the windows
`runes[k:k+2]` for `k = 0, ..., len(runes) - 2`, each converted to a string. -/
def bigramsOf (runes : List Nat) : List GoString :=
  (List.range (runes.length - 1)).map (fun k => fromRunes ((runes.drop k).take 2))

/-- The normalized name of `SoftBisimDistance` (lines 242-247): `ApplyPhoneticTransform`
followed by `VowelReduction`. -/
def normalize (U : UnicodeTables) (s : GoString) : GoString :=
  VowelReduction (ApplyPhoneticTransform U s)

/-- The weights `w'` agree with `w` on every coefficient except one, in which `w'` is
larger. -/
def Weights.RaisedOne (w w' : Weights) : Prop :=
  (w' = { w with Match := w'.Match } ∧ w.Match < w'.Match) ∨
  (w' = { w with Replace := w'.Replace } ∧ w.Replace < w'.Replace) ∨
  (w' = { w with Insert := w'.Insert } ∧ w.Insert < w'.Insert) ∨
  (w' = { w with Delete := w'.Delete } ∧ w.Delete < w'.Delete) ∨
  (w' = { w with Transposition := w'.Transposition } ∧ w.Transposition < w'.Transposition) ∨
  (w' = { w with Merge := w'.Merge } ∧ w.Merge < w'.Merge) ∨
  (w' = { w with Split := w'.Split } ∧ w.Split < w'.Split) ∨
  (w' = { w with CaseChange := w'.CaseChange } ∧ w.CaseChange < w'.CaseChange) ∨
  (w' = { w with PhoneticChange := w'.PhoneticChange } ∧
    w.PhoneticChange < w'.PhoneticChange)

/-- A Unicode scalar value: at most U+10FFFF and not a surrogate. -/
def ValidRune (r : Nat) : Prop := r < 0x110000 ∧ ¬ (0xD800 ≤ r ∧ r ≤ 0xDFFF)

/-! ### Edit scripts -/

/-- The operations of an edit script, after the description of the alignment in the
specification: keep an equal bigram, substitute a differing bigram, insert a bigram of
`B`, delete a bigram of `A`, swap two adjacent bigrams. -/
inductive EditOp where
  | keep
  | substitute
  | insert
  | delete
  | swap
  deriving DecidableEq

/-- One operation of a script, applied when `i` bigrams of `A` have been consumed and `j`
bigrams of `B` produced: the new position and the cost of the operation, or `none` when
the operation does not apply there. -/
def applyOp (lower : GoString → GoString) (w : Weights) (A B : List GoString)
    (op : EditOp) (i j : Nat) : Option (Nat × Nat × ℚ) :=
  match op with
  | EditOp.keep =>
    match A[i]?, B[j]? with
    | some a, some b => if a = b then some (i + 1, j + 1, w.Match) else none
    | _, _ => none
  | EditOp.substitute =>
    match A[i]?, B[j]? with
    | some a, some b =>
      if a = b then none
      else some (i + 1, j + 1, if lower a = lower b then w.CaseChange else w.Replace)
    | _, _ => none
  | EditOp.insert =>
    match B[j]? with
    | some _ => some (i, j + 1, w.Insert)
    | none => none
  | EditOp.delete =>
    match A[i]? with
    | some _ => some (i + 1, j, w.Delete)
    | none => none
  | EditOp.swap =>
    match A[i]?, A[i + 1]?, B[j]?, B[j + 1]? with
    | some a, some a', some b, some b' =>
      if a = b' ∧ a' = b then some (i + 2, j + 2, w.Transposition) else none
    | _, _, _, _ => none

/-- A script run from left to right from the position `(i, j)`: the position reached and
the total cost, or `none` when some operation does not apply. -/
def runScript (lower : GoString → GoString) (w : Weights) (A B : List GoString) :
    List EditOp → Nat → Nat → Option (Nat × Nat × ℚ)
  | [], i, j => some (i, j, 0)
  | op :: ops, i, j =>
    match applyOp lower w A B op i j with
    | none => none
    | some (i', j', c) =>
      match runScript lower w A B ops i' j' with
      | none => none
      | some (i'', j'', c') => some (i'', j'', c + c')

/-- The script `ops` turns `A` into `B` at total cost `c`: run from `(0, 0)` it consumes
all of `A` and produces all of `B`. -/
def ScriptCost (lower : GoString → GoString) (w : Weights) (A B : List GoString)
    (ops : List EditOp) (c : ℚ) : Prop :=
  runScript lower w A B ops 0 0 = some (A.length, B.length, c)

/-! ### Replacement tables -/

/-- The value bound to the key `k` in a replacement table (the first entry with that
key). -/
def assoc (tbl : List (GoString × GoString)) (k : GoString) : Option GoString :=
  (tbl.find? (fun kv => decide (kv.1 = k))).map Prod.snd

/-- An entry of a transliteration table whose key is one two-byte rune and whose value
is ASCII. -/
def TwoByteEntry (kv : GoString × GoString) : Prop :=
  ∃ c, 0x80 ≤ c ∧ c ≤ 0x7FF ∧ kv.1 = encodeRune c ∧ ∀ b ∈ kv.2, b < 0x80

/-- The runes that replace the rune `r` under the table `tbl`. -/
def substRune (tbl : List (GoString × GoString)) (r : Nat) : List Nat :=
  match assoc tbl (encodeRune r) with
  | some v => v
  | none => [r]

/-- Decidable form of `TwoByteEntry`. -/
def twoByteCheck (kv : GoString × GoString) : Bool :=
  match kv.1 with
  | [b0, b1] => decide (0xC2 ≤ b0) && decide (b0 ≤ 0xDF) && decide (0x80 ≤ b1) &&
      decide (b1 ≤ 0xBF) && kv.2.all (fun b => decide (b < 0x80))
  | _ => false

/-- An entry of a transliteration table whose key is the lead byte `L` followed by one
continuation byte, and whose value is a non-empty ASCII string. -/
def LeadEntry (L : Nat) (kv : GoString × GoString) : Prop :=
  ∃ x, kv.1 = [L, x] ∧ 0x80 ≤ x ∧ x ≠ L ∧ kv.2 ≠ [] ∧ ∀ b ∈ kv.2, b < 0x80

/-- All entries of the table applied at once, in one scan from the left. -/
def simul (tbl : List (GoString × GoString)) : GoString → GoString
  | [] => []
  | [b] => [b]
  | b :: b1 :: rest =>
    match assoc tbl [b, b1] with
    | some v => v ++ simul tbl rest
    | none => b :: simul tbl (b1 :: rest)

/-- Decidable form of `LeadEntry`. -/
def leadCheck (L : Nat) (kv : GoString × GoString) : Bool :=
  match kv.1 with
  | [l, x] => decide (l = L) && decide (0x80 ≤ x) && decide (x ≠ L) && !kv.2.isEmpty &&
      kv.2.all (fun b => decide (b < 0x80))
  | _ => false

/-- One pass of the collapse loop of `GenericPhoneticTransform` for the letter `y`:
`strings.ReplaceAll(s, yy, y)`. -/
def collapsePass (y : Nat) (s : GoString) : GoString := replaceScan [([y, y], [y])] s 0

/-- The collapse loop over the letters `ys`. -/
def collapseAll (ys : List Nat) (s : GoString) : GoString :=
  ys.foldl (fun s y => collapsePass y s) s

/-- The value of `s` in `GenericPhoneticTransform` at line 109, after the removal of
`h` and before the loop of lines 112-114 that collapses doubled letters. -/
def genericBeforeCollapse (U : UnicodeTables) (s : GoString) : GoString :=
  let s := ToLower U s
  let s := Replace [(lit "ph", lit "f"), (lit "ck", lit "k"), (lit "gh", lit "g"),
    (lit "sch", lit "sh"), (lit "ch", lit "k"), (lit "th", lit "t"), (lit "sh", lit "s"),
    (lit "cz", lit "c"), (lit "qu", lit "k"), (lit "gn", lit "n"), (lit "wr", lit "r"),
    (lit "kn", lit "n"), (lit "wh", lit "w"), (lit "dg", lit "g")] s
  ReplaceAll s (lit "h") (lit "")

/-- `ApplyPhoneticTransform` (lines 64-82) when the two transliteration maps are visited
in the orders `russianOrder` and `hebrewOrder`. -/
def ApplyPhoneticTransformIn (russianOrder hebrewOrder : List (GoString × GoString))
    (U : UnicodeTables) (name : GoString) : GoString :=
  let language := DetectLanguage U name
  if language = "german" then ApplyGermanPhoneticRules U name
  else if language = "polish" then ApplyPolishPhoneticRules U name
  else if language = "spanish" then ApplySpanishPhoneticRules U name
  else if language = "russian" then TransliterateRussianToLatinIn russianOrder U name
  else if language = "hebrew" then TransliterateHebrewToLatinIn hebrewOrder name
  else GenericPhoneticTransform U name

/-- `SoftBisimDistance` (lines 240-297) when the transliteration maps are visited in the
orders `r1`, `h1` for the first name and `r2`, `h2` for the second. -/
def SoftBisimDistanceIn (r1 h1 r2 h2 : List (GoString × GoString)) (U : UnicodeTables)
    (s1 s2 : GoString) (weights : Weights) : Option ℚ := do
  let s1 := ApplyPhoneticTransformIn r1 h1 U s1
  let s2 := ApplyPhoneticTransformIn r2 h2 U s2
  let s1 := VowelReduction s1
  let s2 := VowelReduction s2
  let bigrams1 ← ComputeBigrams s1
  let bigrams2 ← ComputeBigrams s2
  SoftBisimBigrams (ToLower U) weights bigrams1 bigrams2

/-- The zero value of `Weights`, as allocated by `make([]Weights, n)`. -/
def zeroWeights : Weights := ⟨0, 0, 0, 0, 0, 0, 0, 0, 0⟩

/-- The composite literal `Weights{Match: rand.Float64(), ..., PhoneticChange:
rand.Float64()}` (lines 323-333, and the nine assignments of lines 351-359): nine
successive draws, `rnd k` being the `k`-th value returned by `rand.Float64()` and `next`
the number of draws made so far. -/
def randWeights (rnd : Nat → ℚ) (next : Nat) : Weights :=
  { Match := rnd next, Replace := rnd (next + 1), Insert := rnd (next + 2),
    Delete := rnd (next + 3), Transposition := rnd (next + 4), Merge := rnd (next + 5),
    Split := rnd (next + 6), CaseChange := rnd (next + 7), PhoneticChange := rnd (next + 8) }

/-- The variables of `GeneticAlgorithm` during the evolution loop, with the number `next`
of random draws made so far. -/
structure GAState where
  population : List Weights
  bestWeights : Weights
  bestScore : ℚ
  next : Nat

/-- The initialization of the population (lines 321-334): `make([]Weights,
populationSize)`, which panics on a negative size, then one random `Weights` per slot. -/
def initPopulation (rnd : Nat → ℚ) (populationSize : Int) : Option (List Weights × Nat) :=
  if populationSize < 0 then none
  else forLoop (fun i (st : List Weights × Nat) =>
      if i < st.1.length then some (st.1.set i (randWeights rnd st.2), st.2 + 9) else none)
    0 populationSize.toNat (List.replicate populationSize.toNat zeroWeights, 0)

/-- The state of `GeneticAlgorithm` before the evolution loop (lines 321-337); the read
`population[0]` panics on an empty population. -/
def gaInit (U : UnicodeTables) (rnd : Nat → ℚ) (data : List (List GoString))
    (populationSize : Int) : Option GAState := do
  let (population, next) ← initPopulation rnd populationSize
  let bestWeights ← population[0]?
  let bestScore ← FitnessFunction U data bestWeights
  some ⟨population, bestWeights, bestScore, next⟩

/-- The body of the inner loop of `GeneticAlgorithm` (lines 342-361): the evaluation of
the candidate `population[i]`, the update of the best score, and the mutation.  The
constant `0.1` is taken as the rational `1/10`. -/
def gaStep (U : UnicodeTables) (rnd : Nat → ℚ) (data : List (List GoString)) (i : Nat)
    (st : GAState) : Option GAState := do
  let weights ← st.population[i]?
  let score ← FitnessFunction U data weights
  let bestScore := if score > st.bestScore then score else st.bestScore
  let bestWeights := if score > st.bestScore then weights else st.bestWeights
  if rnd st.next < 1 / 10 then
    if i < st.population.length then
      some ⟨st.population.set i (randWeights rnd (st.next + 1)), bestWeights, bestScore,
        st.next + 10⟩
    else none
  else some ⟨st.population, bestWeights, bestScore, st.next + 1⟩

/-- One generation: the inner loop `for i := 0; i < populationSize; i++` (line 341). -/
def gaGeneration (U : UnicodeTables) (rnd : Nat → ℚ) (data : List (List GoString))
    (populationSize : Int) (st : GAState) : Option GAState :=
  forLoop (gaStep U rnd data) 0 populationSize.toNat st

/-- `GeneticAlgorithm` (lines 319-365). -/
def GeneticAlgorithm (U : UnicodeTables) (rnd : Nat → ℚ) (data : List (List GoString))
    (iterations populationSize : Int) : Option Weights := do
  let st0 ← gaInit U rnd data populationSize
  let st ← forLoop (fun _ st => gaGeneration U rnd data populationSize st) 0
    iterations.toNat st0
  some st.bestWeights

/-- The state of `GeneticAlgorithm` after `it` complete generations and the evaluation of
the first `i` candidates of the next one. -/
def gaAt (U : UnicodeTables) (rnd : Nat → ℚ) (data : List (List GoString))
    (populationSize : Int) (it i : Nat) : Option GAState := do
  let st0 ← gaInit U rnd data populationSize
  let st ← forLoop (fun _ st => gaGeneration U rnd data populationSize st) 0 it st0
  forLoop (gaStep U rnd data) 0 i st

/-- The invariant of the evolution loop: the population keeps its size and the recorded
best score is the fitness of the recorded best weights. -/
def GAInv (U : UnicodeTables) (data : List (List GoString)) (P : Nat) (st : GAState) : Prop :=
  st.population.length = P ∧ FitnessFunction U data st.bestWeights = some st.bestScore

/-- Every byte of the string is an ASCII character other than an uppercase letter
`A`..`Z`. -/
def LowerAscii (s : GoString) : Prop := ∀ c ∈ s, c < 0x80 ∧ ¬ (0x41 ≤ c ∧ c ≤ 0x5A)

/-- The conditions on the weights under which taking an exact match is never worse than
any other operation: a kept bigram costs no more than a substitution of either kind, no
more than a deletion followed by an insertion, and two kept bigrams cost no more than a
swap. -/
def Weights.MatchCheapest (w : Weights) : Prop :=
  w.Match ≤ w.Replace ∧ w.Match ≤ w.CaseChange ∧ w.Match ≤ w.Insert + w.Delete ∧
    2 * w.Match ≤ w.Transposition

/-- The `float64` arithmetic that `SoftBisimDistance` uses, on a type `F` of values.  It
belongs to the language, not to the repository, and is a parameter of the embedding:
nothing is assumed of the rounding, of infinities or of NaN. -/
structure FloatOps (F : Type) where
  /-- The zero value of a `float64`, with which `make` fills a slice. -/
  zero : F
  /-- The conversion `float64(i)` of a non-negative `int`. -/
  ofInt : Nat → F
  /-- The sum `x + y`. -/
  add : F → F → F
  /-- The product `x * y`. -/
  mul : F → F → F
  /-- `math.Min(x, y)`. -/
  min : F → F → F

/-- The record `Weights` of `weights.go`, its fields being values of `F`. -/
structure WeightsOf (F : Type) where
  Match : F
  Replace : F
  Insert : F
  Delete : F
  Transposition : F
  Merge : F
  Split : F
  CaseChange : F
  PhoneticChange : F

/-- The read `dist[i][j]` of a slice of slices. -/
def mgetF {F : Type} (d : List (List F)) (i j : Nat) : Option F :=
  d[i]?.bind (fun row => row[j]?)

/-- The write `dist[i][j] = v` of a slice of slices. -/
def msetF {F : Type} (d : List (List F)) (i j : Nat) (v : F) : Option (List (List F)) :=
  match d[i]? with
  | none => none
  | some row => if j < row.length then some (d.set i (row.set j v)) else none

/-- The body of the inner loop of `SoftBisimDistance` (lines 269-292), every `float64`
operation being taken from `ops`. -/
def cellStepF {F : Type} (ops : FloatOps F) (lower : GoString → GoString) (w : WeightsOf F)
    (A B : List GoString) (i j : Nat) (d : List (List F)) : Option (List (List F)) := do
  let a ← A[i - 1]?
  let b ← B[j - 1]?
  if a = b then
    let diag ← mgetF d (i - 1) (j - 1)
    msetF d i j (ops.add diag w.Match)
  else
    let cost := if lower a = lower b then w.CaseChange else w.Replace
    let up ← mgetF d (i - 1) j
    let left ← mgetF d i (j - 1)
    let diag ← mgetF d (i - 1) (j - 1)
    let d1 ← msetF d i j
      (ops.min (ops.min (ops.add up w.Delete) (ops.add left w.Insert)) (ops.add diag cost))
    if 1 < i ∧ 1 < j then
      let b2 ← B[j - 2]?
      if a = b2 then
        let a2 ← A[i - 2]?
        if a2 = b then
          let cur ← mgetF d1 i j
          let dd ← mgetF d1 (i - 2) (j - 2)
          msetF d1 i j (ops.min cur (ops.add dd w.Transposition))
        else some d1
      else some d1
    else some d1

/-- The distance matrix of `SoftBisimDistance` (lines 252-294) with the `float64`
operations of `ops`: the allocation, the two loops of the base cases, then the fill. -/
def SoftBisimMatrixF {F : Type} (ops : FloatOps F) (lower : GoString → GoString)
    (w : WeightsOf F) (A B : List GoString) : Option (List (List F)) := do
  let d0 := List.replicate (A.length + 1) (List.replicate (B.length + 1) ops.zero)
  let d1 ← forLoop (fun i d => msetF d i 0 (ops.mul (ops.ofInt i) w.Delete)) 0
    (A.length + 1) d0
  let d2 ← forLoop (fun j d => msetF d 0 j (ops.mul (ops.ofInt j) w.Insert)) 0
    (B.length + 1) d1
  forLoop (fun i d => forLoop (fun j d' => cellStepF ops lower w A B i j d') 1 B.length d)
    1 A.length d2

/-- The value `dist[len(bigrams1)][len(bigrams2)]` returned by `SoftBisimDistance`
(line 296), with the `float64` operations of `ops`. -/
def SoftBisimBigramsF {F : Type} (ops : FloatOps F) (lower : GoString → GoString)
    (w : WeightsOf F) (A B : List GoString) : Option F :=
  (SoftBisimMatrixF ops lower w A B).bind (fun d => mgetF d A.length B.length)

/-- `SoftBisimDistance` (lines 240-297) with the `float64` operations of `ops`. -/
def SoftBisimDistanceF {F : Type} (ops : FloatOps F) (U : UnicodeTables)
    (s1 s2 : GoString) (weights : WeightsOf F) : Option F := do
  let s1 := ApplyPhoneticTransform U s1
  let s2 := ApplyPhoneticTransform U s2
  let s1 := VowelReduction s1
  let s2 := VowelReduction s2
  let bigrams1 ← ComputeBigrams s1
  let bigrams2 ← ComputeBigrams s2
  SoftBisimBigramsF ops (ToLower U) weights bigrams1 bigrams2

/-- Closed form of the matrix entries for the operations of `ops`. -/
def cellF {F : Type} (ops : FloatOps F) (lower : GoString → GoString) (w : WeightsOf F)
    (A B : List GoString) : Nat → Nat → F
  | 0, j => ops.mul (ops.ofInt j) w.Insert
  | i + 1, 0 => ops.mul (ops.ofInt (i + 1)) w.Delete
  | i + 1, j + 1 =>
    if nth A i = nth B j then ops.add (cellF ops lower w A B i j) w.Match
    else
      let cost := if lower (nth A i) = lower (nth B j) then w.CaseChange
        else w.Replace
      let base := ops.min (ops.min (ops.add (cellF ops lower w A B i (j + 1)) w.Delete)
        (ops.add (cellF ops lower w A B (i + 1) j) w.Insert))
        (ops.add (cellF ops lower w A B i j) cost)
      if 1 ≤ i ∧ 1 ≤ j ∧ nth A i = nth B (j - 1) ∧ nth A (i - 1) = nth B j
      then ops.min base (ops.add (cellF ops lower w A B (i - 1) (j - 1)) w.Transposition)
      else base
termination_by i j => (i, j)

/-- The shape of the matrix over `F`: `m + 1` rows of `n + 1` entries each. -/
def ShapeF {F : Type} (d : List (List F)) (m n : Nat) : Prop :=
  d.length = m + 1 ∧ ∀ (i : Nat) (row : List F), d[i]? = some row → row.length = n + 1

/-- The arithmetic of the rationals: exact sums, products and minima. -/
def exactOps : FloatOps ℚ where
  zero := 0
  ofInt := fun i => (i : ℚ)
  add := fun x y => x + y
  mul := fun x y => x * y
  min := fun x y => min x y

/-- The weights as a `WeightsOf ℚ`. -/
def Weights.toOf (w : Weights) : WeightsOf ℚ :=
  ⟨w.Match, w.Replace, w.Insert, w.Delete, w.Transposition, w.Merge, w.Split, w.CaseChange,
    w.PhoneticChange⟩

/-- Rounding to the nearest integer, a tie going to the even neighbour. -/
def roundTiesEven (q : ℚ) : Int :=
  if q - ⌊q⌋ < 1 / 2 then ⌊q⌋
  else if 1 / 2 < q - ⌊q⌋ then ⌊q⌋ + 1
  else if ⌊q⌋ % 2 = 0 then ⌊q⌋ else ⌊q⌋ + 1

/-- The rounding of a rational number to a `float64` (IEEE 754 binary64, round to
nearest, ties to even): a multiple of `2 ^ (e - 52)`, where `e` is the exponent of the
binade of `q`, at least `-1022`.  A result of magnitude `2 ^ 1024` or more stands for an
infinity of `float64`, which this model of the finite values does not represent. -/
def roundFloat64 (q : ℚ) : ℚ :=
  (roundTiesEven (q / 2 ^ (max (Int.log 2 |q|) (-1022) - 52)) : ℚ) *
    2 ^ (max (Int.log 2 |q|) (-1022) - 52)

/-- The `float64` arithmetic on finite values: every result is the exact result rounded
to the nearest `float64`; the minimum of two finite values is exact. -/
def binary64 : FloatOps ℚ where
  zero := 0
  ofInt := fun i => roundFloat64 (i : ℚ)
  add := fun x y => roundFloat64 (x + y)
  mul := fun x y => roundFloat64 (x * y)
  min := fun x y => min x y

/-- A matrix of `m + 1` rows of `n + 1` entries each. -/
def Shape (d : List (List ℚ)) (m n : Nat) : Prop :=
  d.length = m + 1 ∧ ∀ (i : Nat) (row : List ℚ), d[i]? = some row → row.length = n + 1

/-! ## Theorems -/

/-! ### Loops and the matrix -/

theorem forLoop_inv {σ : Type} (body : Nat → σ → Option σ) (Inv : Nat → σ → Prop) :
    ∀ (n lo : Nat) (s : σ), Inv lo s →
      (∀ i t, lo ≤ i → i < lo + n → Inv i t → ∃ t', body i t = some t' ∧ Inv (i + 1) t') →
      ∃ s', forLoop body lo n s = some s' ∧ Inv (lo + n) s' := by
  intro n
  induction n with
  | zero => intro lo s h0 _; exact ⟨s, rfl, by simpa using h0⟩
  | succ n ih =>
    intro lo s h0 hstep
    obtain ⟨t, ht, hinv⟩ := hstep lo s (le_refl _) (by omega) h0
    obtain ⟨s', hs', hfin⟩ := ih (lo + 1) t hinv (fun i u h1 h2 hu =>
      hstep i u (by omega) (by omega) hu)
    refine ⟨s', ?_, ?_⟩
    · simp [forLoop, ht, hs']
    · have : lo + (n + 1) = lo + 1 + n := by omega
      rw [this]; exact hfin

theorem shape_replicate (m n : Nat) :
    Shape (List.replicate (m + 1) (List.replicate (n + 1) (0 : ℚ))) m n := by
  constructor
  · simp
  · intro i row h
    rw [List.getElem?_replicate] at h
    split at h
    · cases h; simp
    · cases h

theorem mget_some {d : List (List ℚ)} {m n : Nat} (hs : Shape d m n) {i j : Nat}
    (hi : i ≤ m) (hj : j ≤ n) : ∃ v, mget d i j = some v := by
  obtain ⟨hl, hr⟩ := hs
  have hi' : i < d.length := by omega
  have h1 : d[i]? = some d[i] := List.getElem?_eq_getElem hi'
  have h2 := hr i _ h1
  have hj' : j < d[i].length := by omega
  exact ⟨d[i][j], by simp [mget, h1, List.getElem?_eq_getElem hj']⟩

theorem mset_spec {d : List (List ℚ)} {m n : Nat} (hs : Shape d m n) {i j : Nat}
    (hi : i ≤ m) (hj : j ≤ n) (v : ℚ) :
    ∃ d', mset d i j v = some d' ∧ Shape d' m n ∧ mget d' i j = some v ∧
      ∀ i' j', (i' ≠ i ∨ j' ≠ j) → mget d' i' j' = mget d i' j' := by
  obtain ⟨hl, hr⟩ := hs
  have hi' : i < d.length := by omega
  have h1 : d[i]? = some d[i] := List.getElem?_eq_getElem hi'
  have h2 := hr i _ h1
  have hj' : j < d[i].length := by omega
  refine ⟨d.set i (d[i].set j v), by simp [mset, h1, hj'], ⟨by simpa using hl, ?_⟩, ?_, ?_⟩
  · intro k row hk
    rw [List.getElem?_set] at hk
    split at hk
    · cases hk; simpa using h2
    · exact hr k row hk
  · simp [mget, List.getElem?_set, hi', hj']
  · intro i' j' hne
    unfold mget
    rw [List.getElem?_set]
    by_cases hii : i = i'
    · subst hii
      have hjj : j' ≠ j := by
        rcases hne with h | h
        · exact absurd rfl h
        · exact h
      simp [hi', h1, List.getElem?_set, Ne.symm hjj]
    · simp [hii]

theorem nth_eq {A : List GoString} {i : Nat} (h : i < A.length) :
    A[i]? = some (nth A i) := by
  simp [nth, List.getElem?_eq_getElem h]

theorem cell_zero (lower : GoString → GoString) (w : Weights) (A B : List GoString)
    (j : Nat) : cell lower w A B 0 j = (j : ℚ) * w.Insert := by
  rw [cell]

theorem cell_succ_zero (lower : GoString → GoString) (w : Weights) (A B : List GoString)
    (i : Nat) : cell lower w A B (i + 1) 0 = ((i + 1 : Nat) : ℚ) * w.Delete := by
  rw [cell]

theorem cell_col_zero (lower : GoString → GoString) (w : Weights) (A B : List GoString)
    (i : Nat) : cell lower w A B i 0 = (i : ℚ) * w.Delete := by
  cases i with
  | zero => simp [cell_zero]
  | succ i => rw [cell_succ_zero]

theorem cell_succ_succ (lower : GoString → GoString) (w : Weights) (A B : List GoString)
    (i j : Nat) : cell lower w A B (i + 1) (j + 1) =
      if nth A i = nth B j then cell lower w A B i j + w.Match
      else
        let cost := if lower (nth A i) = lower (nth B j) then w.CaseChange
          else w.Replace
        let base := min (min (cell lower w A B i (j + 1) + w.Delete)
          (cell lower w A B (i + 1) j + w.Insert)) (cell lower w A B i j + cost)
        if 1 ≤ i ∧ 1 ≤ j ∧ nth A i = nth B (j - 1) ∧
            nth A (i - 1) = nth B j
        then min base (cell lower w A B (i - 1) (j - 1) + w.Transposition)
        else base := by
  rw [cell]

theorem cellStep_spec (lower : GoString → GoString) (w : Weights) (A B : List GoString)
    (i j : Nat) (hi : i < A.length) (hj : j < B.length) (d : List (List ℚ))
    (hs : Shape d A.length B.length)
    (hprev : ∀ i' j', i' ≤ A.length → j' ≤ B.length → (i' < i + 1 ∨ (i' = i + 1 ∧ j' < j + 1)) →
      mget d i' j' = some (cell lower w A B i' j')) :
    ∃ d', cellStep lower w A B (i + 1) (j + 1) d = some d' ∧ Shape d' A.length B.length ∧
      mget d' (i + 1) (j + 1) = some (cell lower w A B (i + 1) (j + 1)) ∧
      ∀ i' j', (i' ≠ i + 1 ∨ j' ≠ j + 1) → mget d' i' j' = mget d i' j' := by
  have hA : A[i]? = some (nth A i) := nth_eq hi
  have hB : B[j]? = some (nth B j) := nth_eq hj
  have hdiag := hprev i j (by omega) (by omega) (by omega)
  have hup := hprev i (j + 1) (by omega) (by omega) (by omega)
  have hleft := hprev (i + 1) j (by omega) (by omega) (by omega)
  rw [cell_succ_succ]
  generalize hcd : cell lower w A B i j = cd at *
  generalize hcu : cell lower w A B i (j + 1) = cu at *
  generalize hcl : cell lower w A B (i + 1) j = cl at *
  generalize hct : cell lower w A B (i - 1) (j - 1) = ct at *
  by_cases hab : nth A i = nth B j
  · obtain ⟨d', h1, h2, h3, h4⟩ := mset_spec hs (show i + 1 ≤ A.length by omega)
      (show j + 1 ≤ B.length by omega) (cd + w.Match)
    refine ⟨d', ?_, h2, ?_, h4⟩
    · simp only [cellStep, Nat.add_sub_cancel, hA, hB, eq_true hab, hdiag, h1,
        Option.bind_eq_bind, Option.some_bind, if_true]
    · simp only [eq_true hab, if_true, h3]
  · simp only [hab, if_false]
    obtain ⟨d1, h1, h2, h3, h4⟩ := mset_spec hs (show i + 1 ≤ A.length by omega)
      (show j + 1 ≤ B.length by omega)
      (min (min (cu + w.Delete) (cl + w.Insert))
        (cd + (if lower (nth A i) = lower (nth B j) then w.CaseChange else w.Replace)))
    by_cases hij : 1 ≤ i ∧ 1 ≤ j
    · obtain ⟨hi1, hj1⟩ := hij
      have hB2 : B[j - 1]? = some (nth B (j - 1)) := nth_eq (by omega)
      have hA2 : A[i - 1]? = some (nth A (i - 1)) := nth_eq (by omega)
      have hdd : mget d1 (i - 1) (j - 1) = some ct := by
        rw [h4 _ _ (Or.inl (by omega)), ← hct]
        exact hprev _ _ (by omega) (by omega) (by omega)
      obtain ⟨d2, g1, g2, g3, g4⟩ := mset_spec h2 (show i + 1 ≤ A.length by omega)
        (show j + 1 ≤ B.length by omega)
        (min (min (min (cu + w.Delete) (cl + w.Insert))
          (cd + (if lower (nth A i) = lower (nth B j) then w.CaseChange else w.Replace)))
          (ct + w.Transposition))
      have e1 : i + 1 - 2 = i - 1 := by omega
      have e2 : j + 1 - 2 = j - 1 := by omega
      have l1 : (1 < i + 1 ∧ 1 < j + 1) = True := by
        apply propext; constructor
        · intro _; trivial
        · intro _; omega
      have l3 : (1 ≤ i ∧ 1 ≤ j ∧ nth A i = nth B (j - 1) ∧ nth A (i - 1) = nth B j) =
          (nth A i = nth B (j - 1) ∧ nth A (i - 1) = nth B j) := by
        apply propext; constructor
        · intro h; exact h.2.2
        · intro h; exact ⟨hi1, hj1, h⟩
      simp only [l3]
      by_cases hsw1 : nth A i = nth B (j - 1)
      · by_cases hsw2 : nth A (i - 1) = nth B j
        · refine ⟨d2, ?_, g2, ?_, ?_⟩
          · simp only [cellStep, Nat.add_sub_cancel, hA, hB, hab, hdiag, hup, hleft, h1, l1,
              e1, e2, hB2, hA2, eq_true hsw1, eq_true hsw2, h3, hdd, g1, Option.bind_eq_bind,
              Option.some_bind, if_true, if_false]
          · simp only [eq_true hsw1, eq_true hsw2, and_self, if_true, g3]
          · intro i' j' hne
            rw [g4 i' j' hne, h4 i' j' hne]
        · refine ⟨d1, ?_, h2, ?_, h4⟩
          · simp only [cellStep, Nat.add_sub_cancel, hA, hB, hab, hdiag, hup, hleft, h1, l1,
              e1, e2, hB2, hA2, eq_true hsw1, hsw2, Option.bind_eq_bind,
              Option.some_bind, if_true, if_false]
          · simp only [hsw2, and_false, if_false, h3]
      · refine ⟨d1, ?_, h2, ?_, h4⟩
        · simp only [cellStep, Nat.add_sub_cancel, hA, hB, hab, hdiag, hup, hleft, h1, l1,
            e1, e2, hB2, hsw1, Option.bind_eq_bind, Option.some_bind, if_true, if_false]
        · simp only [hsw1, false_and, if_false, h3]
    · refine ⟨d1, ?_, h2, ?_, h4⟩
      · have l1 : (1 < i + 1 ∧ 1 < j + 1) = False := by
          apply propext; constructor
          · intro h; exact hij ⟨by omega, by omega⟩
          · intro h; exact h.elim
        simp only [cellStep, Nat.add_sub_cancel, hA, hB, hab, hdiag, hup, hleft, h1, l1,
          Option.bind_eq_bind, Option.some_bind, if_true, if_false]
      · have l3 : (1 ≤ i ∧ 1 ≤ j ∧ nth A i = nth B (j - 1) ∧ nth A (i - 1) = nth B j) =
            False := by
          apply propext; constructor
          · intro h; exact hij ⟨h.1, h.2.1⟩
          · intro h; exact h.elim
        simp only [l3, if_false, h3]

theorem initLoops_spec (lower : GoString → GoString) (w : Weights) (A B : List GoString) :
    ∃ d2, (forLoop (fun i d => mset d i 0 ((i : ℚ) * w.Delete)) 0 (A.length + 1)
        (List.replicate (A.length + 1) (List.replicate (B.length + 1) (0 : ℚ)))).bind
        (forLoop (fun j d => mset d 0 j ((j : ℚ) * w.Insert)) 0 (B.length + 1)) = some d2 ∧
      Shape d2 A.length B.length ∧
      ∀ i' j', i' ≤ A.length → j' ≤ B.length → (i' = 0 ∨ j' = 0) →
        mget d2 i' j' = some (cell lower w A B i' j') := by
  obtain ⟨d1, h1, hs1, hv1⟩ := forLoop_inv (fun i d => mset d i 0 ((i : ℚ) * w.Delete))
    (fun k d => Shape d A.length B.length ∧ ∀ i, i < k → mget d i 0 = some ((i : ℚ) * w.Delete))
    (A.length + 1) 0 _ ⟨shape_replicate _ _, fun i hi => absurd hi (Nat.not_lt_zero i)⟩
    (by
      intro i t _ hi ⟨hs, hv⟩
      obtain ⟨t', g1, g2, g3, g4⟩ := mset_spec hs (show i ≤ A.length by omega)
        (Nat.zero_le _) ((i : ℚ) * w.Delete)
      refine ⟨t', g1, g2, ?_⟩
      intro k hk
      by_cases hki : k = i
      · rw [hki]; exact g3
      · rw [g4 k 0 (Or.inl hki)]; exact hv k (by omega))
  obtain ⟨d2, h2, hs2, hc2, hr2⟩ := forLoop_inv (fun j d => mset d 0 j ((j : ℚ) * w.Insert))
    (fun k d => Shape d A.length B.length ∧
      (∀ i, 1 ≤ i → i ≤ A.length → mget d i 0 = some ((i : ℚ) * w.Delete)) ∧
      ∀ j, j < k → mget d 0 j = some ((j : ℚ) * w.Insert))
    (B.length + 1) 0 d1
    ⟨hs1, fun i _ hi => hv1 i (by omega), fun j hj => absurd hj (Nat.not_lt_zero j)⟩
    (by
      intro j t _ hj ⟨hs, hc, hr⟩
      obtain ⟨t', g1, g2, g3, g4⟩ := mset_spec hs (Nat.zero_le _)
        (show j ≤ B.length by omega) ((j : ℚ) * w.Insert)
      refine ⟨t', g1, g2, ?_, ?_⟩
      · intro i hi1 hi2
        rw [g4 i 0 (Or.inl (by omega))]; exact hc i hi1 hi2
      · intro k hk
        by_cases hkj : k = j
        · rw [hkj]; exact g3
        · rw [g4 0 k (Or.inr hkj)]; exact hr k (by omega))
  refine ⟨d2, ?_, hs2, ?_⟩
  · rw [h1]; exact h2
  · intro i' j' hi' hj' h0
    by_cases hi0 : i' = 0
    · subst hi0
      rw [cell_zero]; exact hr2 j' (by omega)
    · have hj0 : j' = 0 := by
        rcases h0 with h | h
        · exact absurd h hi0
        · exact h
      subst hj0
      rw [cell_col_zero]; exact hc2 i' (by omega) hi'

theorem SoftBisimMatrix_spec (lower : GoString → GoString) (w : Weights)
    (A B : List GoString) :
    ∃ D, SoftBisimMatrix lower w A B = some D ∧ Shape D A.length B.length ∧
      ∀ i j, i ≤ A.length → j ≤ B.length → mget D i j = some (cell lower w A B i j) := by
  obtain ⟨d2, h2, hs2, hv2⟩ := initLoops_spec lower w A B
  obtain ⟨D, hD, hsD, hvD⟩ := forLoop_inv
    (fun i d => forLoop (fun j d' => cellStep lower w A B i j d') 1 B.length d)
    (fun i d => Shape d A.length B.length ∧
      ∀ i' j', i' ≤ A.length → j' ≤ B.length → (i' < i ∨ j' = 0) →
        mget d i' j' = some (cell lower w A B i' j'))
    A.length 1 d2
    ⟨hs2, fun i' j' hi' hj' h => hv2 i' j' hi' hj' (by omega)⟩
    (by
      intro i t hi1 hi2 ⟨hs, hv⟩
      obtain ⟨t', g1, g2, g3⟩ := forLoop_inv (fun j d' => cellStep lower w A B i j d')
        (fun j d => Shape d A.length B.length ∧
          ∀ i' j', i' ≤ A.length → j' ≤ B.length → (i' < i ∨ j' = 0 ∨ (i' = i ∧ j' < j)) →
            mget d i' j' = some (cell lower w A B i' j'))
        B.length 1 t
        ⟨hs, fun i' j' hi' hj' h => hv i' j' hi' hj' (by omega)⟩
        (by
          intro j u hj1 hj2 ⟨hsu, hvu⟩
          obtain ⟨i0, rfl⟩ : ∃ i0, i = i0 + 1 := ⟨i - 1, by omega⟩
          obtain ⟨j0, rfl⟩ : ∃ j0, j = j0 + 1 := ⟨j - 1, by omega⟩
          obtain ⟨u', k1, k2, k3, k4⟩ := cellStep_spec lower w A B i0 j0 (by omega) (by omega)
            u hsu (fun i' j' hi' hj' h => hvu i' j' hi' hj' (by omega))
          refine ⟨u', k1, k2, ?_⟩
          intro i' j' hi' hj' h
          by_cases hc : i' = i0 + 1 ∧ j' = j0 + 1
          · rw [hc.1, hc.2]; exact k3
          · rw [k4 i' j' (by omega)]
            exact hvu i' j' hi' hj' (by omega))
      refine ⟨t', g1, g2, ?_⟩
      intro i' j' hi' hj' h
      exact g3 i' j' hi' hj' (by omega))
  refine ⟨D, ?_, hsD, ?_⟩
  · simp only [SoftBisimMatrix, Option.bind_eq_bind] at h2 ⊢
    obtain ⟨d1, e1, e2⟩ := Option.bind_eq_some.mp h2
    rw [e1, Option.some_bind, e2, Option.some_bind]
    exact hD
  · intro i j hi hj
    exact hvD i j hi hj (by omega)

theorem SoftBisimBigrams_eq (lower : GoString → GoString) (w : Weights)
    (A B : List GoString) :
    SoftBisimBigrams lower w A B = some (cell lower w A B A.length B.length) := by
  obtain ⟨D, hD, _, hv⟩ := SoftBisimMatrix_spec lower w A B
  rw [SoftBisimBigrams, hD, Option.some_bind]
  exact hv _ _ (le_refl _) (le_refl _)

/-! ### Properties of the closed form -/

theorem cell_induction (P : Nat → Nat → Prop) (h0 : ∀ j, P 0 j) (h1 : ∀ i, P (i + 1) 0)
    (hs : ∀ i j, P i j → P i (j + 1) → P (i + 1) j → P (i - 1) (j - 1) →
      P (i + 1) (j + 1)) : ∀ i j, P i j := by
  have key : ∀ n i j, i + j = n → P i j := by
    intro n
    induction n using Nat.strong_induction_on with
    | _ n ih =>
      intro i j hij
      cases i with
      | zero => exact h0 j
      | succ i =>
        cases j with
        | zero => exact h1 i
        | succ j =>
          exact hs i j (ih (i + j) (by omega) i j rfl)
            (ih (i + (j + 1)) (by omega) i (j + 1) rfl)
            (ih (i + 1 + j) (by omega) (i + 1) j rfl)
            (ih (i - 1 + (j - 1)) (by omega) (i - 1) (j - 1) rfl)
  intro i j
  exact key (i + j) i j rfl

theorem cell_symm (lower : GoString → GoString) (w : Weights) (A B : List GoString) :
    ∀ i j, cell lower w A B i j = cell lower w.swapInsDel B A j i := by
  apply cell_induction
  · intro j
    rw [cell_zero, cell_col_zero]; rfl
  · intro i
    rw [cell_succ_zero, cell_zero]; rfl
  · intro i j h1 h2 h3 h4
    rw [cell_succ_succ, cell_succ_succ, h1, h2, h3, h4]
    have e1 : (nth B j = nth A i) = (nth A i = nth B j) := propext eq_comm
    have e2 : (lower (nth B j) = lower (nth A i)) = (lower (nth A i) = lower (nth B j)) :=
      propext eq_comm
    have e3 : (1 ≤ j ∧ 1 ≤ i ∧ nth B j = nth A (i - 1) ∧ nth B (j - 1) = nth A i) =
        (1 ≤ i ∧ 1 ≤ j ∧ nth A i = nth B (j - 1) ∧ nth A (i - 1) = nth B j) := by
      apply propext
      constructor
      · intro ⟨a, b, c, d⟩; exact ⟨b, a, d.symm, c.symm⟩
      · intro ⟨a, b, c, d⟩; exact ⟨b, a, d.symm, c.symm⟩
    simp only [e1, e2, e3]
    have e5 : w.swapInsDel.Insert = w.Delete := rfl
    have e6 : w.swapInsDel.Delete = w.Insert := rfl
    have e7 : w.swapInsDel.Match = w.Match := rfl
    have e8 : w.swapInsDel.Transposition = w.Transposition := rfl
    have e9 : w.swapInsDel.CaseChange = w.CaseChange := rfl
    have e10 : w.swapInsDel.Replace = w.Replace := rfl
    rw [e5, e6, e7, e8, e9, e10,
      min_comm (cell lower w.swapInsDel B A j (i + 1) + w.Insert)]

theorem swapInsDel_eq_self (w : Weights) (h : w.Insert = w.Delete) : w.swapInsDel = w := by
  cases w
  simp only [Weights.swapInsDel] at *
  simp [h]

theorem cell_diag (lower : GoString → GoString) (w : Weights) (A : List GoString) :
    ∀ i, cell lower w A A i i = (i : ℚ) * w.Match := by
  intro i
  induction i with
  | zero => simp [cell_zero]
  | succ i ih =>
    rw [cell_succ_succ, if_pos rfl, ih]
    push_cast; ring

theorem cell_nonneg (lower : GoString → GoString) (w : Weights) (hw : w.NonNeg)
    (A B : List GoString) : ∀ i j, 0 ≤ cell lower w A B i j := by
  obtain ⟨hM, hR, hI, hD, hT, _, _, hC, _⟩ := hw
  apply cell_induction
  · intro j; rw [cell_zero]; positivity
  · intro i; rw [cell_succ_zero]; positivity
  · intro i j h1 h2 h3 h4
    rw [cell_succ_succ]
    have hc : 0 ≤ (if lower (nth A i) = lower (nth B j) then w.CaseChange else w.Replace) := by
      split <;> assumption
    have hb : 0 ≤ min (min (cell lower w A B i (j + 1) + w.Delete)
        (cell lower w A B (i + 1) j + w.Insert)) (cell lower w A B i j +
          (if lower (nth A i) = lower (nth B j) then w.CaseChange else w.Replace)) :=
      le_min (le_min (by linarith) (by linarith)) (by linarith)
    split
    · linarith
    · simp only []
      split
      · exact le_min hb (by linarith)
      · exact hb

theorem cell_mono (lower : GoString → GoString) (w w' : Weights) (hw : w.Le w')
    (A B : List GoString) : ∀ i j, cell lower w A B i j ≤ cell lower w' A B i j := by
  obtain ⟨hM, hR, hI, hD, hT, _, _, hC, _⟩ := hw
  apply cell_induction
  · intro j; rw [cell_zero, cell_zero]
    exact mul_le_mul_of_nonneg_left hI (Nat.cast_nonneg j)
  · intro i; rw [cell_succ_zero, cell_succ_zero]
    exact mul_le_mul_of_nonneg_left hD (Nat.cast_nonneg _)
  · intro i j h1 h2 h3 h4
    rw [cell_succ_succ, cell_succ_succ]
    have hc : (if lower (nth A i) = lower (nth B j) then w.CaseChange else w.Replace) ≤
        (if lower (nth A i) = lower (nth B j) then w'.CaseChange else w'.Replace) := by
      split <;> assumption
    have hb : min (min (cell lower w A B i (j + 1) + w.Delete)
        (cell lower w A B (i + 1) j + w.Insert)) (cell lower w A B i j +
          (if lower (nth A i) = lower (nth B j) then w.CaseChange else w.Replace)) ≤
        min (min (cell lower w' A B i (j + 1) + w'.Delete)
        (cell lower w' A B (i + 1) j + w'.Insert)) (cell lower w' A B i j +
          (if lower (nth A i) = lower (nth B j) then w'.CaseChange else w'.Replace)) :=
      min_le_min (min_le_min (add_le_add h2 hD) (add_le_add h3 hI)) (add_le_add h1 hc)
    split
    · exact add_le_add h1 hM
    · simp only []
      split
      · exact min_le_min hb (add_le_add h4 hT)
      · exact hb

/-! ### From names to bigrams -/

theorem ComputeBigrams_eq (s : GoString) :
    ComputeBigrams s = some (bigramsOf (toRunes s)) := by
  obtain ⟨acc, h1, h2⟩ := forLoop_inv
    (fun i bigrams => (slice (toRunes s) i (i + 2)).bind
      (fun bigram => some (bigrams ++ [fromRunes bigram])))
    (fun k acc => acc = (List.range k).map
      (fun k => fromRunes (((toRunes s).drop k).take 2)))
    ((toRunes s).length - 1) 0 [] (by simp)
    (by
      intro i t _ hi ht
      have hsl : slice (toRunes s) i (i + 2) = some (((toRunes s).drop i).take 2) := by
        have : i ≤ i + 2 ∧ i + 2 ≤ (toRunes s).length := by omega
        simp [slice, this]
      refine ⟨t ++ [fromRunes (((toRunes s).drop i).take 2)], ?_, ?_⟩
      · show (slice (toRunes s) i (i + 2)).bind _ = _
        rw [hsl]; rfl
      · show t ++ _ = List.map _ (List.range (i + 1))
        rw [ht, List.range_succ, List.map_append]; rfl)
  have e : ComputeBigrams s = forLoop
      (fun i bigrams => (slice (toRunes s) i (i + 2)).bind
        (fun bigram => some (bigrams ++ [fromRunes bigram])))
      0 ((toRunes s).length - 1) [] := rfl
  rw [e, h1, h2, Nat.zero_add]; rfl

theorem SoftBisimDistance_eq (U : UnicodeTables) (s1 s2 : GoString) (w : Weights) :
    SoftBisimDistance U s1 s2 w = some (cell (ToLower U) w
      (bigramsOf (toRunes (normalize U s1))) (bigramsOf (toRunes (normalize U s2)))
      (bigramsOf (toRunes (normalize U s1))).length
      (bigramsOf (toRunes (normalize U s2))).length) := by
  have e : SoftBisimDistance U s1 s2 w =
      (ComputeBigrams (normalize U s1)).bind (fun bigrams1 =>
        (ComputeBigrams (normalize U s2)).bind (fun bigrams2 =>
          SoftBisimBigrams (ToLower U) w bigrams1 bigrams2)) := rfl
  rw [e, ComputeBigrams_eq, ComputeBigrams_eq, Option.some_bind, Option.some_bind,
    SoftBisimBigrams_eq]

theorem normalize_nil (U : UnicodeTables) : normalize U [] = [] := by rfl

theorem RaisedOne_le {w w' : Weights} (h : w.RaisedOne w') : w.Le w' := by
  unfold Weights.RaisedOne at h
  unfold Weights.Le
  rcases h with ⟨e, h⟩ | ⟨e, h⟩ | ⟨e, h⟩ | ⟨e, h⟩ | ⟨e, h⟩ | ⟨e, h⟩ | ⟨e, h⟩ | ⟨e, h⟩ | ⟨e, h⟩ <;>
  · have h' := le_of_lt h
    rw [e]
    simp only [le_refl, and_self, and_true, true_and]
    exact h'

/-! ### The recurrence of the matrix -/

/-- C1: the matrix filled by `SoftBisimDistance` on the bigram slices `A` and `B` exists
(no index is out of range) and its entries `d i j` satisfy: `d 0 0 = 0`,
`d i 0 = i * Delete`, `d 0 j = j * Insert`; on an exact match of the bigrams of a cell
`d (i+1) (j+1) = d i j + Match`; on a mismatch without the adjacent-swap condition
`d (i+1) (j+1) = min (d i (j+1) + Delete) (d (i+1) j + Insert) (d i j + substCost)` with
`substCost = CaseChange` when the bigrams agree after lower-casing and `Replace`
otherwise; the value returned is `d (len A) (len B)`.  Lists are indexed from 0, so the
cell `(i+1, j+1)` compares `A[i]` and `B[j]`. -/
theorem C1_matrix_recurrence (lower : GoString → GoString) (w : Weights)
    (A B : List GoString) :
    ∃ (D : List (List ℚ)) (d : Nat → Nat → ℚ),
      SoftBisimMatrix lower w A B = some D ∧
      (∀ i j, i ≤ A.length → j ≤ B.length → mget D i j = some (d i j)) ∧
      d 0 0 = 0 ∧
      (∀ i, i ≤ A.length → d i 0 = (i : ℚ) * w.Delete) ∧
      (∀ j, j ≤ B.length → d 0 j = (j : ℚ) * w.Insert) ∧
      (∀ i j a b, A[i]? = some a → B[j]? = some b → a = b →
        d (i + 1) (j + 1) = d i j + w.Match) ∧
      (∀ i j a b, A[i]? = some a → B[j]? = some b → a ≠ b →
        ¬ (1 ≤ i ∧ 1 ≤ j ∧ A[i]? = B[j - 1]? ∧ A[i - 1]? = B[j]?) →
        d (i + 1) (j + 1) = min (min (d i (j + 1) + w.Delete) (d (i + 1) j + w.Insert))
          (d i j + (if lower a = lower b then w.CaseChange else w.Replace))) ∧
      SoftBisimBigrams lower w A B = some (d A.length B.length) := by
  obtain ⟨D, hD, _, hv⟩ := SoftBisimMatrix_spec lower w A B
  refine ⟨D, cell lower w A B, hD, hv, ?_, ?_, ?_, ?_, ?_, SoftBisimBigrams_eq lower w A B⟩
  · simp [cell_zero]
  · intro i _; exact cell_col_zero lower w A B i
  · intro j _; exact cell_zero lower w A B j
  · intro i j a b ha hb hab
    have h1 : nth A i = a := by simp [nth, ha]
    have h2 : nth B j = b := by simp [nth, hb]
    rw [cell_succ_succ, h1, h2, if_pos hab]
  · intro i j a b ha hb hab hsw
    have h1 : nth A i = a := by simp [nth, ha]
    have h2 : nth B j = b := by simp [nth, hb]
    have hi : i < A.length := (List.getElem?_eq_some.mp ha).1
    have hj : j < B.length := (List.getElem?_eq_some.mp hb).1
    have hsw' : ¬ (1 ≤ i ∧ 1 ≤ j ∧ nth A i = nth B (j - 1) ∧ nth A (i - 1) = nth B j) := by
      intro ⟨g1, g2, g3, g4⟩
      apply hsw
      refine ⟨g1, g2, ?_, ?_⟩
      · rw [nth_eq hi, nth_eq (show j - 1 < B.length by omega), g3]
      · rw [nth_eq (show i - 1 < A.length by omega), nth_eq hj, g4]
    subst h1; subst h2
    rw [cell_succ_succ, if_neg hab]
    simp only [if_neg hsw']

/-! ### UTF-8 and `ComputeBigrams` -/

theorem decodeRune_encodeRune (r : Nat) (hr : ValidRune r) (rest : GoString) :
    decodeRune (encodeRune r ++ rest) = (r, (encodeRune r).length) := by
  obtain ⟨h1, h2⟩ := hr
  unfold encodeRune
  split
  · rename_i h
    simp only [List.singleton_append, decodeRune, List.length_singleton]
    rw [if_pos (by omega)]
  · split
    · rename_i h h'
      simp only [List.cons_append, List.nil_append, decodeRune, isCont]
      rw [if_neg (by omega), if_pos (by omega)]
      have e1 : decide (128 ≤ 128 + r % 64) = true := by simp
      have e2 : decide (128 + r % 64 ≤ 191) = true := by simp; omega
      simp only [e1, e2, Bool.and_self, if_true, List.length_cons, List.length_nil]
      congr 1
      omega
    · split
      · omega
      · split
        · rename_i h h' h'' h'''
          simp only [List.cons_append, List.nil_append, decodeRune, isCont]
          rw [if_neg (by omega), if_neg (by omega), if_pos (by omega)]
          have e : ((if 224 + r / 4096 = 224 then
              decide (160 ≤ 128 + r / 64 % 64) && decide (128 + r / 64 % 64 ≤ 191)
            else if 224 + r / 4096 = 237 then
              decide (128 ≤ 128 + r / 64 % 64) && decide (128 + r / 64 % 64 ≤ 159)
            else decide (128 ≤ 128 + r / 64 % 64) && decide (128 + r / 64 % 64 ≤ 191)) &&
            (decide (128 ≤ 128 + r % 64) && decide (128 + r % 64 ≤ 191))) = true := by
            split
            · simp only [Bool.and_eq_true, decide_eq_true_eq]; omega
            · split
              · simp only [Bool.and_eq_true, decide_eq_true_eq]; omega
              · simp only [Bool.and_eq_true, decide_eq_true_eq]; omega
          rw [if_pos e]
          simp only [List.length_cons, List.length_nil]
          congr 1
          omega
        · rename_i h h' h'' h'''
          simp only [List.cons_append, List.nil_append, decodeRune, isCont]
          rw [if_neg (by omega), if_neg (by omega), if_neg (by omega), if_pos (by omega)]
          have e : ((if 240 + r / 262144 = 240 then
              decide (144 ≤ 128 + r / 4096 % 64) && decide (128 + r / 4096 % 64 ≤ 191)
            else if 240 + r / 262144 = 244 then
              decide (128 ≤ 128 + r / 4096 % 64) && decide (128 + r / 4096 % 64 ≤ 143)
            else decide (128 ≤ 128 + r / 4096 % 64) && decide (128 + r / 4096 % 64 ≤ 191)) &&
            (decide (128 ≤ 128 + r / 64 % 64) && decide (128 + r / 64 % 64 ≤ 191)) &&
            (decide (128 ≤ 128 + r % 64) && decide (128 + r % 64 ≤ 191))) = true := by
            split
            · simp only [Bool.and_eq_true, decide_eq_true_eq]; omega
            · split
              · simp only [Bool.and_eq_true, decide_eq_true_eq]; omega
              · simp only [Bool.and_eq_true, decide_eq_true_eq]; omega
          rw [if_pos e]
          simp only [List.length_cons, List.length_nil]
          congr 1
          omega

theorem decodeRune_valid (s : GoString) : ValidRune (decodeRune s).1 := by
  rcases s with _ | ⟨b0, _ | ⟨b1, _ | ⟨b2, _ | ⟨b3, rest⟩⟩⟩⟩ <;>
    simp only [decodeRune] <;> (try split_ifs) <;>
    (try simp only [isCont, Bool.and_eq_true, decide_eq_true_eq] at *) <;>
    simp only [ValidRune, RuneError] <;> omega

theorem toRunesAux_valid : ∀ (s : GoString) (k r : Nat), r ∈ toRunesAux s k → ValidRune r := by
  intro s
  induction s with
  | nil => intro k r h; simp [toRunesAux] at h
  | cons b rest ih =>
    intro k r h
    cases k with
    | zero =>
      rw [toRunesAux] at h
      rcases List.mem_cons.mp h with h | h
      · rw [h]; exact decodeRune_valid _
      · exact ih _ r h
    | succ k =>
      rw [toRunesAux] at h
      exact ih k r h

theorem toRunesAux_skip (pre rest : GoString) :
    toRunesAux (pre ++ rest) pre.length = toRunesAux rest 0 := by
  induction pre with
  | nil => rfl
  | cons b pre ih =>
    rw [List.cons_append, List.length_cons, toRunesAux]
    exact ih

theorem encodeRune_ne_nil (r : Nat) : encodeRune r ≠ [] := by
  unfold encodeRune
  split_ifs <;> simp

theorem toRunes_encodeRune_append (r : Nat) (hr : ValidRune r) (rest : GoString) :
    toRunes (encodeRune r ++ rest) = r :: toRunes rest := by
  have hd := decodeRune_encodeRune r hr rest
  obtain ⟨b, tail, hbt⟩ := List.exists_cons_of_ne_nil (encodeRune_ne_nil r)
  rw [hbt] at hd ⊢
  unfold toRunes
  rw [List.cons_append] at hd ⊢
  rw [toRunesAux, hd]
  simp only [List.length_cons, Nat.add_sub_cancel]
  rw [toRunesAux_skip]

theorem toRunes_fromRunes (rs : List Nat) (h : ∀ r ∈ rs, ValidRune r) :
    toRunes (fromRunes rs) = rs := by
  induction rs with
  | nil => rfl
  | cons r rs ih =>
    have e : fromRunes (r :: rs) = encodeRune r ++ fromRunes rs := by
      simp [fromRunes]
    rw [e, toRunes_encodeRune_append r (h r (List.mem_cons_self _ _)),
      ih (fun x hx => h x (List.mem_cons_of_mem _ hx))]

/-- C9: for every string `s` with `L` code points (`L = len([]rune(s))`),
`ComputeBigrams(s)` returns, without failure, exactly `L - 1` bigrams (`0` when `L = 0`);
for every `k` with `k + 1 < L` the `k`-th bigram is the string made of the code points
`k` and `k + 1` of `s`, in that order, and decodes back to these two code points; on
strings with at most one code point the result is empty. -/
theorem C9_bigrams (s : GoString) :
    ∃ bigrams, ComputeBigrams s = some bigrams ∧
      bigrams.length = (toRunes s).length - 1 ∧
      (∀ k r1 r2, (toRunes s)[k]? = some r1 → (toRunes s)[k + 1]? = some r2 →
        bigrams[k]? = some (fromRunes [r1, r2]) ∧ toRunes (fromRunes [r1, r2]) = [r1, r2]) ∧
      ((toRunes s).length ≤ 1 → bigrams = []) := by
  refine ⟨bigramsOf (toRunes s), ComputeBigrams_eq s, by simp [bigramsOf], ?_, ?_⟩
  · intro k r1 r2 h1 h2
    have hk : k + 1 < (toRunes s).length := (List.getElem?_eq_some.mp h2).1
    constructor
    · have hdrop : ((toRunes s).drop k).take 2 = [r1, r2] := by
        have e1 := List.getElem?_eq_some.mp h1
        have e2 := List.getElem?_eq_some.mp h2
        rw [List.drop_eq_getElem_cons e1.1, List.drop_eq_getElem_cons e2.1, e1.2, e2.2]
        rfl
      simp only [bigramsOf]
      rw [List.getElem?_map, List.getElem?_range (by omega)]
      simp only [Option.map_some', hdrop]
    · apply toRunes_fromRunes
      intro r hr
      have hm : r ∈ toRunes s := by
        rcases List.mem_cons.mp hr with h | h
        · rw [h]; exact List.getElem?_mem h1
        · rw [List.mem_singleton.mp h]; exact List.getElem?_mem h2
      exact toRunesAux_valid s 0 r hm
  · intro h
    have : (toRunes s).length - 1 = 0 := by omega
    simp [bigramsOf, this]

/-! ### Transposition -/

theorem cell_match (lower : GoString → GoString) (w : Weights) (A B : List GoString)
    (i j : Nat) (h : nth A i = nth B j) :
    cell lower w A B (i + 1) (j + 1) = cell lower w A B i j + w.Match := by
  rw [cell_succ_succ, if_pos h]

theorem cell_swap (lower : GoString → GoString) (w : Weights) (A B : List GoString)
    (i j : Nat) (h : nth A i ≠ nth B j) (hi : 1 ≤ i) (hj : 1 ≤ j)
    (h1 : nth A i = nth B (j - 1)) (h2 : nth A (i - 1) = nth B j) :
    cell lower w A B (i + 1) (j + 1) =
      min (min (min (cell lower w A B i (j + 1) + w.Delete)
        (cell lower w A B (i + 1) j + w.Insert))
        (cell lower w A B i j +
          (if lower (nth A i) = lower (nth B j) then w.CaseChange else w.Replace)))
        (cell lower w A B (i - 1) (j - 1) + w.Transposition) := by
  rw [cell_succ_succ, if_neg h]
  simp only [if_pos (show 1 ≤ i ∧ 1 ≤ j ∧ nth A i = nth B (j - 1) ∧
    nth A (i - 1) = nth B j from ⟨hi, hj, h1, h2⟩)]

/-- C2, as stated, fails: on the bigram slices `[xx, xx]` and `[xx, xx]` with `Match = 1`
and `Transposition = 0` the cell `(2, 2)` meets the adjacent-swap condition
(`A[1] = B[0]` and `A[0] = B[1]`), yet `d 2 2 = 2` exceeds
`d 0 0 + Transposition = 0`; the two slices are also of the form `[p, q]`, `[q, p]`
with `Transposition < 2 * Replace`, and the distance `2` is above `Transposition`. -/
theorem C2_counterexample :
    ∃ D, SoftBisimMatrix (ToLower sampleTables) ⟨1, 1, 1, 1, 0, 1, 1, 1, 1⟩
        [lit "xx", lit "xx"] [lit "xx", lit "xx"] = some D ∧
      ([lit "xx", lit "xx"][1]? = [lit "xx", lit "xx"][0]? ∧
        [lit "xx", lit "xx"][0]? = [lit "xx", lit "xx"][1]?) ∧
      mget D 2 2 = some 2 ∧ mget D 0 0 = some 0 ∧
      ¬ ((2 : ℚ) ≤ 0 + (⟨1, 1, 1, 1, 0, 1, 1, 1, 1⟩ : Weights).Transposition) ∧
      SoftBisimBigrams (ToLower sampleTables) ⟨1, 1, 1, 1, 0, 1, 1, 1, 1⟩
        [lit "xx", lit "xx"] [lit "xx", lit "xx"] = some 2 ∧
      (⟨1, 1, 1, 1, 0, 1, 1, 1, 1⟩ : Weights).Transposition <
        2 * (⟨1, 1, 1, 1, 0, 1, 1, 1, 1⟩ : Weights).Replace := by
  obtain ⟨D, hD, _, hv⟩ := SoftBisimMatrix_spec (ToLower sampleTables)
    ⟨1, 1, 1, 1, 0, 1, 1, 1, 1⟩ [lit "xx", lit "xx"] [lit "xx", lit "xx"]
  have c22 : cell (ToLower sampleTables) ⟨1, 1, 1, 1, 0, 1, 1, 1, 1⟩
      [lit "xx", lit "xx"] [lit "xx", lit "xx"] 2 2 = 2 := by
    rw [cell_diag]; norm_num
  have c00 : cell (ToLower sampleTables) ⟨1, 1, 1, 1, 0, 1, 1, 1, 1⟩
      [lit "xx", lit "xx"] [lit "xx", lit "xx"] 0 0 = 0 := by
    rw [cell_diag]; norm_num
  refine ⟨D, hD, ⟨rfl, rfl⟩, ?_, ?_, by norm_num, ?_, by norm_num⟩
  · rw [hv 2 2 (by decide) (by decide), c22]
  · rw [hv 0 0 (by decide) (by decide), c00]
  · rw [SoftBisimBigrams_eq]
    exact congrArg some c22

/-- C2 (amended): in every cell `(i+1, j+1)` with `i ≥ 1`, `j ≥ 1`, whose bigrams differ
(`A[i] ≠ B[j]`) and meet the adjacent-swap condition, the matrix entry is the minimum of
the insert/delete/substitute value and `d (i-1) (j-1) + Transposition`, hence at most
`d (i-1) (j-1) + Transposition`; and for `p ≠ q` the distance between `[p, q]` and
`[q, p]` is at most `Transposition`, so below `2 * Replace` when
`Transposition < 2 * Replace`. -/
theorem C2_transposition (lower : GoString → GoString) (w : Weights)
    (A B : List GoString) :
    (∃ (D : List (List ℚ)) (d : Nat → Nat → ℚ),
      SoftBisimMatrix lower w A B = some D ∧
      (∀ i j, i ≤ A.length → j ≤ B.length → mget D i j = some (d i j)) ∧
      (∀ i j a b, 1 ≤ i → 1 ≤ j → A[i]? = some a → B[j]? = some b →
        B[j - 1]? = some a → A[i - 1]? = some b → a ≠ b →
        d (i + 1) (j + 1) =
          min (min (min (d i (j + 1) + w.Delete) (d (i + 1) j + w.Insert))
            (d i j + (if lower a = lower b then w.CaseChange else w.Replace)))
            (d (i - 1) (j - 1) + w.Transposition) ∧
        d (i + 1) (j + 1) ≤ d (i - 1) (j - 1) + w.Transposition)) ∧
    (∀ p q : GoString, p ≠ q → ∃ v, SoftBisimBigrams lower w [p, q] [q, p] = some v ∧
      v ≤ w.Transposition ∧ (w.Transposition < 2 * w.Replace → v < 2 * w.Replace)) := by
  constructor
  · obtain ⟨D, hD, _, hv⟩ := SoftBisimMatrix_spec lower w A B
    refine ⟨D, cell lower w A B, hD, hv, ?_⟩
    intro i j a b hi hj ha hb hb' ha' hab
    have h1 : nth A i = a := by simp [nth, ha]
    have h2 : nth B j = b := by simp [nth, hb]
    have h3 : nth B (j - 1) = a := by simp [nth, hb']
    have h4 : nth A (i - 1) = b := by simp [nth, ha']
    have key := cell_swap lower w A B i j (by rw [h1, h2]; exact hab) hi hj
      (by rw [h1, h3]) (by rw [h4, h2])
    rw [h1, h2] at key
    exact ⟨key, by rw [key]; exact min_le_right _ _⟩
  · intro p q hpq
    refine ⟨_, SoftBisimBigrams_eq lower w [p, q] [q, p], ?_⟩
    have key := cell_swap lower w [p, q] [q, p] 1 1 (by simpa [nth] using Ne.symm hpq)
      (le_refl _) (le_refl _) (by simp [nth]) (by simp [nth])
    have h0 : cell lower w [p, q] [q, p] (1 - 1) (1 - 1) = 0 := by
      simp [cell_zero]
    have hle : cell lower w [p, q] [q, p] 2 2 ≤ w.Transposition := by
      have e : cell lower w [p, q] [q, p] 2 2 = cell lower w [p, q] [q, p] (1 + 1) (1 + 1) :=
        rfl
      rw [e, key, h0, zero_add]
      exact min_le_right _ _
    exact ⟨hle, fun h => lt_of_le_of_lt hle h⟩

/-! ### Optimality over edit scripts -/

theorem cell_le_ins (lower : GoString → GoString) (w : Weights) (A B : List GoString)
    (i j : Nat) (h : nth A i ≠ nth B j) :
    cell lower w A B (i + 1) (j + 1) ≤ cell lower w A B (i + 1) j + w.Insert := by
  rw [cell_succ_succ, if_neg h]
  simp only []
  split
  · exact le_trans (min_le_left _ _) (le_trans (min_le_left _ _) (min_le_right _ _))
  · exact le_trans (min_le_left _ _) (min_le_right _ _)

/-- The four conditions are needed: if no script is ever cheaper than the value of the
alignment, the weights satisfy them. -/
theorem matchCheapest_necessary (U : UnicodeTables) (w : Weights)
    (h : ∀ (A B : List GoString) (v : ℚ), SoftBisimBigrams (ToLower U) w A B = some v →
      ∀ ops c, ScriptCost (ToLower U) w A B ops c → v ≤ c) :
    w.MatchCheapest := by
  have e1 : lit "xy" ≠ lit "ab" := by decide
  have e2 : ToLower U (lit "xy") ≠ ToLower U (lit "ab") := by
    rw [show ToLower U (lit "xy") = lit "xy" from rfl,
      show ToLower U (lit "ab") = lit "ab" from rfl]
    decide
  have e3 : lit "AB" ≠ lit "ab" := by decide
  have e4 : ToLower U (lit "AB") = ToLower U (lit "ab") := by rfl
  have v21 : ∀ x : GoString, SoftBisimBigrams (ToLower U) w [x, lit "ab"] [lit "ab"] =
      some (w.Delete + w.Match) := by
    intro x
    rw [SoftBisimBigrams_eq]
    simp only [List.length_cons, List.length_nil, Nat.zero_add]
    rw [show (1 + 1 : Nat) = 1 + 1 from rfl, cell_match _ _ _ _ 1 0 (by rfl), cell_succ_zero]
    norm_num
  refine ⟨?_, ?_, ?_, ?_⟩
  · have := h [lit "xy", lit "ab"] [lit "ab"] _ (v21 _)
      [EditOp.substitute, EditOp.delete] (w.Replace + w.Delete) (by
        simp [ScriptCost, runScript, applyOp, e1, e2])
    linarith
  · have := h [lit "AB", lit "ab"] [lit "ab"] _ (v21 _)
      [EditOp.substitute, EditOp.delete] (w.CaseChange + w.Delete) (by
        simp [ScriptCost, runScript, applyOp, e3, e4])
    linarith
  · have hv : SoftBisimBigrams (ToLower U) w [lit "ab"] [lit "ab"] = some w.Match := by
      rw [SoftBisimBigrams_eq]
      simp only [List.length_cons, List.length_nil, Nat.zero_add]
      rw [cell_diag]; norm_num
    have := h [lit "ab"] [lit "ab"] _ hv [EditOp.delete, EditOp.insert]
      (w.Delete + w.Insert) (by simp [ScriptCost, runScript, applyOp])
    linarith
  · have hv : SoftBisimBigrams (ToLower U) w [lit "ab", lit "ab"] [lit "ab", lit "ab"] =
        some (2 * w.Match) := by
      rw [SoftBisimBigrams_eq]
      simp only [List.length_cons, List.length_nil, Nat.zero_add]
      rw [cell_diag]; norm_num
    have := h [lit "ab", lit "ab"] [lit "ab", lit "ab"] _ hv [EditOp.swap]
      w.Transposition (by simp [ScriptCost, runScript, applyOp])
    linarith

/-- C4, as stated, fails: with `Insert = 1` and `Delete = 2` the distance from the empty
name to `abc` (bigrams `ab`, `bc`) is `2`, and from `abc` to the empty name it is `4`. -/
theorem C4_counterexample :
    SoftBisimDistance sampleTables (lit "") (lit "abc") ⟨0, 1, 1, 2, 1, 1, 1, 1, 1⟩ = some 2 ∧
    SoftBisimDistance sampleTables (lit "abc") (lit "") ⟨0, 1, 1, 2, 1, 1, 1, 1, 1⟩ = some 4 ∧
    SoftBisimDistance sampleTables (lit "") (lit "abc") ⟨0, 1, 1, 2, 1, 1, 1, 1, 1⟩ ≠
      SoftBisimDistance sampleTables (lit "abc") (lit "") ⟨0, 1, 1, 2, 1, 1, 1, 1, 1⟩ := by
  have hb : bigramsOf (toRunes (normalize sampleTables (lit "abc"))) = [lit "ab", lit "bc"] := by
    decide
  have he : bigramsOf (toRunes (normalize sampleTables (lit ""))) = [] := by decide
  have h1 : SoftBisimDistance sampleTables (lit "") (lit "abc") ⟨0, 1, 1, 2, 1, 1, 1, 1, 1⟩ =
      some 2 := by
    rw [SoftBisimDistance_eq, hb, he]
    simp only [List.length_nil, List.length_cons, cell_zero]
    norm_num
  have h2 : SoftBisimDistance sampleTables (lit "abc") (lit "") ⟨0, 1, 1, 2, 1, 1, 1, 1, 1⟩ =
      some 4 := by
    rw [SoftBisimDistance_eq, hb, he]
    simp only [List.length_nil, List.length_cons, cell_col_zero]
    norm_num
  refine ⟨h1, h2, ?_⟩
  rw [h1, h2]
  intro h
  have h' := Option.some.inj h
  norm_num at h'

/-- C4 (amended): for all names `a`, `b` and all weights with `Insert = Delete`,
`SoftBisimDistance(a, b, w) = SoftBisimDistance(b, a, w)`. -/
theorem C4_symmetry (U : UnicodeTables) (a b : GoString) (w : Weights)
    (h : w.Insert = w.Delete) :
    SoftBisimDistance U a b w = SoftBisimDistance U b a w := by
  rw [SoftBisimDistance_eq, SoftBisimDistance_eq, cell_symm, swapInsDel_eq_self w h]

theorem C4_symmetry_witness :
    SoftBisimDistance sampleTables (lit "Schwarz") (lit "abc") ⟨0, 1, 3, 3, 1, 1, 1, 1, 1⟩ =
      SoftBisimDistance sampleTables (lit "abc") (lit "Schwarz") ⟨0, 1, 3, 3, 1, 1, 1, 1, 1⟩ :=
  C4_symmetry sampleTables (lit "Schwarz") (lit "abc") ⟨0, 1, 3, 3, 1, 1, 1, 1, 1⟩ rfl

/-! ### The alignment with `float64` operations -/

theorem shapeF_replicate {F : Type} (z : F) (m n : Nat) :
    ShapeF (List.replicate (m + 1) (List.replicate (n + 1) z)) m n := by
  constructor
  · simp
  · intro i row h
    rw [List.getElem?_replicate] at h
    split at h
    · cases h; simp
    · cases h

theorem msetF_spec {F : Type} {d : List (List F)} {m n : Nat} (hs : ShapeF d m n) {i j : Nat}
    (hi : i ≤ m) (hj : j ≤ n) (v : F) :
    ∃ d', msetF d i j v = some d' ∧ ShapeF d' m n ∧ mgetF d' i j = some v ∧
      ∀ i' j', (i' ≠ i ∨ j' ≠ j) → mgetF d' i' j' = mgetF d i' j' := by
  obtain ⟨hl, hr⟩ := hs
  have hi' : i < d.length := by omega
  have h1 : d[i]? = some d[i] := List.getElem?_eq_getElem hi'
  have h2 := hr i _ h1
  have hj' : j < d[i].length := by omega
  refine ⟨d.set i (d[i].set j v), by simp [msetF, h1, hj'], ⟨by simpa using hl, ?_⟩, ?_, ?_⟩
  · intro k row hk
    rw [List.getElem?_set] at hk
    split at hk
    · cases hk; simpa using h2
    · exact hr k row hk
  · simp [mgetF, List.getElem?_set, hi', hj']
  · intro i' j' hne
    unfold mgetF
    rw [List.getElem?_set]
    by_cases hii : i = i'
    · subst hii
      have hjj : j' ≠ j := by
        rcases hne with h | h
        · exact absurd rfl h
        · exact h
      simp [hi', h1, List.getElem?_set, Ne.symm hjj]
    · simp [hii]

theorem cellF_zero {F : Type} (ops : FloatOps F) (lower : GoString → GoString)
    (w : WeightsOf F) (A B : List GoString) (j : Nat) :
    cellF ops lower w A B 0 j = ops.mul (ops.ofInt j) w.Insert := by
  rw [cellF]

theorem cellF_succ_zero {F : Type} (ops : FloatOps F) (lower : GoString → GoString)
    (w : WeightsOf F) (A B : List GoString) (i : Nat) :
    cellF ops lower w A B (i + 1) 0 = ops.mul (ops.ofInt (i + 1)) w.Delete := by
  rw [cellF]

theorem cellF_succ_succ {F : Type} (ops : FloatOps F) (lower : GoString → GoString)
    (w : WeightsOf F) (A B : List GoString) (i j : Nat) :
    cellF ops lower w A B (i + 1) (j + 1) =
      if nth A i = nth B j then ops.add (cellF ops lower w A B i j) w.Match
      else
        let cost := if lower (nth A i) = lower (nth B j) then w.CaseChange
          else w.Replace
        let base := ops.min (ops.min (ops.add (cellF ops lower w A B i (j + 1)) w.Delete)
          (ops.add (cellF ops lower w A B (i + 1) j) w.Insert))
          (ops.add (cellF ops lower w A B i j) cost)
        if 1 ≤ i ∧ 1 ≤ j ∧ nth A i = nth B (j - 1) ∧ nth A (i - 1) = nth B j
        then ops.min base (ops.add (cellF ops lower w A B (i - 1) (j - 1)) w.Transposition)
        else base := by
  rw [cellF]

theorem cellStepF_spec {F : Type} (ops : FloatOps F) (lower : GoString → GoString)
    (w : WeightsOf F) (A B : List GoString)
    (i j : Nat) (hi : i < A.length) (hj : j < B.length) (d : List (List F))
    (hs : ShapeF d A.length B.length)
    (hprev : ∀ i' j', i' ≤ A.length → j' ≤ B.length →
      (i' < i + 1 ∨ (i' = i + 1 ∧ j' < j + 1)) →
      mgetF d i' j' = some (cellF ops lower w A B i' j')) :
    ∃ d', cellStepF ops lower w A B (i + 1) (j + 1) d = some d' ∧
      ShapeF d' A.length B.length ∧
      mgetF d' (i + 1) (j + 1) = some (cellF ops lower w A B (i + 1) (j + 1)) ∧
      ∀ i' j', (i' ≠ i + 1 ∨ j' ≠ j + 1) → mgetF d' i' j' = mgetF d i' j' := by
  have hA : A[i]? = some (nth A i) := nth_eq hi
  have hB : B[j]? = some (nth B j) := nth_eq hj
  have hdiag := hprev i j (by omega) (by omega) (by omega)
  have hup := hprev i (j + 1) (by omega) (by omega) (by omega)
  have hleft := hprev (i + 1) j (by omega) (by omega) (by omega)
  rw [cellF_succ_succ]
  generalize hcd : cellF ops lower w A B i j = cd at *
  generalize hcu : cellF ops lower w A B i (j + 1) = cu at *
  generalize hcl : cellF ops lower w A B (i + 1) j = cl at *
  generalize hct : cellF ops lower w A B (i - 1) (j - 1) = ct at *
  by_cases hab : nth A i = nth B j
  · obtain ⟨d', h1, h2, h3, h4⟩ := msetF_spec hs (show i + 1 ≤ A.length by omega)
      (show j + 1 ≤ B.length by omega) (ops.add cd w.Match)
    refine ⟨d', ?_, h2, ?_, h4⟩
    · simp only [cellStepF, Nat.add_sub_cancel, hA, hB, eq_true hab, hdiag, h1,
        Option.bind_eq_bind, Option.some_bind, if_true]
    · simp only [eq_true hab, if_true, h3]
  · simp only [hab, if_false]
    obtain ⟨d1, h1, h2, h3, h4⟩ := msetF_spec hs (show i + 1 ≤ A.length by omega)
      (show j + 1 ≤ B.length by omega)
      (ops.min (ops.min (ops.add cu w.Delete) (ops.add cl w.Insert))
        (ops.add cd
          (if lower (nth A i) = lower (nth B j) then w.CaseChange else w.Replace)))
    by_cases hij : 1 ≤ i ∧ 1 ≤ j
    · obtain ⟨hi1, hj1⟩ := hij
      have hB2 : B[j - 1]? = some (nth B (j - 1)) := nth_eq (by omega)
      have hA2 : A[i - 1]? = some (nth A (i - 1)) := nth_eq (by omega)
      have hdd : mgetF d1 (i - 1) (j - 1) = some ct := by
        rw [h4 _ _ (Or.inl (by omega)), ← hct]
        exact hprev _ _ (by omega) (by omega) (by omega)
      obtain ⟨d2, g1, g2, g3, g4⟩ := msetF_spec h2 (show i + 1 ≤ A.length by omega)
        (show j + 1 ≤ B.length by omega)
        (ops.min (ops.min (ops.min (ops.add cu w.Delete) (ops.add cl w.Insert))
          (ops.add cd
            (if lower (nth A i) = lower (nth B j) then w.CaseChange else w.Replace)))
          (ops.add ct w.Transposition))
      have e1 : i + 1 - 2 = i - 1 := by omega
      have e2 : j + 1 - 2 = j - 1 := by omega
      have l1 : (1 < i + 1 ∧ 1 < j + 1) = True := by
        apply propext; constructor
        · intro _; trivial
        · intro _; omega
      have l3 : (1 ≤ i ∧ 1 ≤ j ∧ nth A i = nth B (j - 1) ∧ nth A (i - 1) = nth B j) =
          (nth A i = nth B (j - 1) ∧ nth A (i - 1) = nth B j) := by
        apply propext; constructor
        · intro h; exact h.2.2
        · intro h; exact ⟨hi1, hj1, h⟩
      simp only [l3]
      by_cases hsw1 : nth A i = nth B (j - 1)
      · by_cases hsw2 : nth A (i - 1) = nth B j
        · refine ⟨d2, ?_, g2, ?_, ?_⟩
          · simp only [cellStepF, Nat.add_sub_cancel, hA, hB, hab, hdiag, hup, hleft, h1, l1,
              e1, e2, hB2, hA2, eq_true hsw1, eq_true hsw2, h3, hdd, g1, Option.bind_eq_bind,
              Option.some_bind, if_true, if_false]
          · simp only [eq_true hsw1, eq_true hsw2, and_self, if_true, g3]
          · intro i' j' hne
            rw [g4 i' j' hne, h4 i' j' hne]
        · refine ⟨d1, ?_, h2, ?_, h4⟩
          · simp only [cellStepF, Nat.add_sub_cancel, hA, hB, hab, hdiag, hup, hleft, h1, l1,
              e1, e2, hB2, hA2, eq_true hsw1, hsw2, Option.bind_eq_bind,
              Option.some_bind, if_true, if_false]
          · simp only [hsw2, and_false, if_false, h3]
      · refine ⟨d1, ?_, h2, ?_, h4⟩
        · simp only [cellStepF, Nat.add_sub_cancel, hA, hB, hab, hdiag, hup, hleft, h1, l1,
            e1, e2, hB2, hsw1, Option.bind_eq_bind, Option.some_bind, if_true, if_false]
        · simp only [hsw1, false_and, if_false, h3]
    · refine ⟨d1, ?_, h2, ?_, h4⟩
      · have l1 : (1 < i + 1 ∧ 1 < j + 1) = False := by
          apply propext; constructor
          · intro h; exact hij ⟨by omega, by omega⟩
          · intro h; exact h.elim
        simp only [cellStepF, Nat.add_sub_cancel, hA, hB, hab, hdiag, hup, hleft, h1, l1,
          Option.bind_eq_bind, Option.some_bind, if_true, if_false]
      · have l3 : (1 ≤ i ∧ 1 ≤ j ∧ nth A i = nth B (j - 1) ∧ nth A (i - 1) = nth B j) =
            False := by
          apply propext; constructor
          · intro h; exact hij ⟨h.1, h.2.1⟩
          · intro h; exact h.elim
        simp only [l3, if_false, h3]

theorem initLoopsF_spec {F : Type} (ops : FloatOps F) (lower : GoString → GoString)
    (w : WeightsOf F) (A B : List GoString) :
    ∃ d2, (forLoop (fun i d => msetF d i 0 (ops.mul (ops.ofInt i) w.Delete)) 0
        (A.length + 1)
        (List.replicate (A.length + 1) (List.replicate (B.length + 1) ops.zero))).bind
        (forLoop (fun j d => msetF d 0 j (ops.mul (ops.ofInt j) w.Insert)) 0
          (B.length + 1)) = some d2 ∧
      ShapeF d2 A.length B.length ∧
      ∀ i' j', i' ≤ A.length → j' ≤ B.length → (i' = 0 ∨ j' = 0) →
        mgetF d2 i' j' = some (cellF ops lower w A B i' j') := by
  obtain ⟨d1, h1, hs1, hv1⟩ := forLoop_inv
    (fun i d => msetF d i 0 (ops.mul (ops.ofInt i) w.Delete))
    (fun k d => ShapeF d A.length B.length ∧
      ∀ i, i < k → mgetF d i 0 = some (ops.mul (ops.ofInt i) w.Delete))
    (A.length + 1) 0 _ ⟨shapeF_replicate _ _ _, fun i hi => absurd hi (Nat.not_lt_zero i)⟩
    (by
      intro i t _ hi ⟨hs, hv⟩
      obtain ⟨t', g1, g2, g3, g4⟩ := msetF_spec hs (show i ≤ A.length by omega)
        (Nat.zero_le _) (ops.mul (ops.ofInt i) w.Delete)
      refine ⟨t', g1, g2, ?_⟩
      intro k hk
      by_cases hki : k = i
      · rw [hki]; exact g3
      · rw [g4 k 0 (Or.inl hki)]; exact hv k (by omega))
  obtain ⟨d2, h2, hs2, hc2, hr2⟩ := forLoop_inv
    (fun j d => msetF d 0 j (ops.mul (ops.ofInt j) w.Insert))
    (fun k d => ShapeF d A.length B.length ∧
      (∀ i, 1 ≤ i → i ≤ A.length → mgetF d i 0 = some (ops.mul (ops.ofInt i) w.Delete)) ∧
      ∀ j, j < k → mgetF d 0 j = some (ops.mul (ops.ofInt j) w.Insert))
    (B.length + 1) 0 d1
    ⟨hs1, fun i _ hi => hv1 i (by omega), fun j hj => absurd hj (Nat.not_lt_zero j)⟩
    (by
      intro j t _ hj ⟨hs, hc, hr⟩
      obtain ⟨t', g1, g2, g3, g4⟩ := msetF_spec hs (Nat.zero_le _)
        (show j ≤ B.length by omega) (ops.mul (ops.ofInt j) w.Insert)
      refine ⟨t', g1, g2, ?_, ?_⟩
      · intro i hi1 hi2
        rw [g4 i 0 (Or.inl (by omega))]; exact hc i hi1 hi2
      · intro k hk
        by_cases hkj : k = j
        · rw [hkj]; exact g3
        · rw [g4 0 k (Or.inr hkj)]; exact hr k (by omega))
  refine ⟨d2, ?_, hs2, ?_⟩
  · rw [h1]; exact h2
  · intro i' j' hi' hj' h0
    by_cases hi0 : i' = 0
    · subst hi0
      rw [cellF_zero]; exact hr2 j' (by omega)
    · have hj0 : j' = 0 := by
        rcases h0 with h | h
        · exact absurd h hi0
        · exact h
      subst hj0
      obtain ⟨i0, rfl⟩ : ∃ i0, i' = i0 + 1 := ⟨i' - 1, by omega⟩
      rw [cellF_succ_zero]; exact hc2 (i0 + 1) (by omega) hi'

theorem SoftBisimMatrixF_spec {F : Type} (ops : FloatOps F) (lower : GoString → GoString)
    (w : WeightsOf F) (A B : List GoString) :
    ∃ D, SoftBisimMatrixF ops lower w A B = some D ∧ ShapeF D A.length B.length ∧
      ∀ i j, i ≤ A.length → j ≤ B.length →
        mgetF D i j = some (cellF ops lower w A B i j) := by
  obtain ⟨d2, h2, hs2, hv2⟩ := initLoopsF_spec ops lower w A B
  obtain ⟨D, hD, hsD, hvD⟩ := forLoop_inv
    (fun i d => forLoop (fun j d' => cellStepF ops lower w A B i j d') 1 B.length d)
    (fun i d => ShapeF d A.length B.length ∧
      ∀ i' j', i' ≤ A.length → j' ≤ B.length → (i' < i ∨ j' = 0) →
        mgetF d i' j' = some (cellF ops lower w A B i' j'))
    A.length 1 d2
    ⟨hs2, fun i' j' hi' hj' h => hv2 i' j' hi' hj' (by omega)⟩
    (by
      intro i t hi1 hi2 ⟨hs, hv⟩
      obtain ⟨t', g1, g2, g3⟩ := forLoop_inv
        (fun j d' => cellStepF ops lower w A B i j d')
        (fun j d => ShapeF d A.length B.length ∧
          ∀ i' j', i' ≤ A.length → j' ≤ B.length → (i' < i ∨ j' = 0 ∨ (i' = i ∧ j' < j)) →
            mgetF d i' j' = some (cellF ops lower w A B i' j'))
        B.length 1 t
        ⟨hs, fun i' j' hi' hj' h => hv i' j' hi' hj' (by omega)⟩
        (by
          intro j u hj1 hj2 ⟨hsu, hvu⟩
          obtain ⟨i0, rfl⟩ : ∃ i0, i = i0 + 1 := ⟨i - 1, by omega⟩
          obtain ⟨j0, rfl⟩ : ∃ j0, j = j0 + 1 := ⟨j - 1, by omega⟩
          obtain ⟨u', k1, k2, k3, k4⟩ := cellStepF_spec ops lower w A B i0 j0 (by omega)
            (by omega) u hsu (fun i' j' hi' hj' h => hvu i' j' hi' hj' (by omega))
          refine ⟨u', k1, k2, ?_⟩
          intro i' j' hi' hj' h
          by_cases hc : i' = i0 + 1 ∧ j' = j0 + 1
          · rw [hc.1, hc.2]; exact k3
          · rw [k4 i' j' (by omega)]
            exact hvu i' j' hi' hj' (by omega))
      refine ⟨t', g1, g2, ?_⟩
      intro i' j' hi' hj' h
      exact g3 i' j' hi' hj' (by omega))
  refine ⟨D, ?_, hsD, ?_⟩
  · simp only [SoftBisimMatrixF, Option.bind_eq_bind] at h2 ⊢
    obtain ⟨d1, e1, e2⟩ := Option.bind_eq_some.mp h2
    rw [e1, Option.some_bind, e2, Option.some_bind]
    exact hD
  · intro i j hi hj
    exact hvD i j hi hj (by omega)

theorem SoftBisimBigramsF_eq {F : Type} (ops : FloatOps F) (lower : GoString → GoString)
    (w : WeightsOf F) (A B : List GoString) :
    SoftBisimBigramsF ops lower w A B = some (cellF ops lower w A B A.length B.length) := by
  obtain ⟨D, hD, _, hv⟩ := SoftBisimMatrixF_spec ops lower w A B
  rw [SoftBisimBigramsF, hD, Option.some_bind]
  exact hv _ _ (le_refl _) (le_refl _)

theorem SoftBisimDistanceF_eq {F : Type} (ops : FloatOps F) (U : UnicodeTables)
    (s1 s2 : GoString) (w : WeightsOf F) :
    SoftBisimDistanceF ops U s1 s2 w = some (cellF ops (ToLower U) w
      (bigramsOf (toRunes (normalize U s1))) (bigramsOf (toRunes (normalize U s2)))
      (bigramsOf (toRunes (normalize U s1))).length
      (bigramsOf (toRunes (normalize U s2))).length) := by
  have e : SoftBisimDistanceF ops U s1 s2 w =
      (ComputeBigrams (normalize U s1)).bind (fun bigrams1 =>
        (ComputeBigrams (normalize U s2)).bind (fun bigrams2 =>
          SoftBisimBigramsF ops (ToLower U) w bigrams1 bigrams2)) := rfl
  rw [e, ComputeBigrams_eq, ComputeBigrams_eq, Option.some_bind, Option.some_bind,
    SoftBisimBigramsF_eq]

theorem cellF_diag {F : Type} (ops : FloatOps F) (lower : GoString → GoString)
    (w : WeightsOf F) (A : List GoString) :
    ∀ i, cellF ops lower w A A i i =
      (fun d => ops.add d w.Match)^[i] (ops.mul (ops.ofInt 0) w.Insert) := by
  intro i
  induction i with
  | zero => rw [cellF_zero]; rfl
  | succ i ih =>
    rw [cellF_succ_succ, if_pos rfl, ih, Function.iterate_succ_apply']

theorem cellF_exact (lower : GoString → GoString) (w : Weights) (A B : List GoString) :
    ∀ i j, cellF exactOps lower w.toOf A B i j = cell lower w A B i j := by
  apply cell_induction
  · intro j; rw [cellF_zero, cell_zero]; rfl
  · intro i; rw [cellF_succ_zero, cell_succ_zero]; rfl
  · intro i j h1 h2 h3 h4
    rw [cellF_succ_succ, cell_succ_succ, h1, h2, h3, h4]
    rfl

theorem SoftBisimDistanceF_exact (U : UnicodeTables) (s1 s2 : GoString) (w : Weights) :
    SoftBisimDistanceF exactOps U s1 s2 w.toOf = SoftBisimDistance U s1 s2 w := by
  rw [SoftBisimDistanceF_eq, SoftBisimDistance_eq, cellF_exact]

theorem roundTiesEven_near (x : ℚ) (n : Int) (h1 : (n : ℚ) - 1 / 2 < x)
    (h2 : x < (n : ℚ) + 1 / 2) : roundTiesEven x = n := by
  unfold roundTiesEven
  by_cases hx : (n : ℚ) ≤ x
  · have hf : ⌊x⌋ = n := Int.floor_eq_iff.mpr ⟨hx, by linarith⟩
    rw [hf, if_pos (by linarith)]
  · have hf : ⌊x⌋ = n - 1 := Int.floor_eq_iff.mpr ⟨by push_cast; linarith, by
      push_cast; linarith⟩
    rw [hf, if_neg (by push_cast; linarith), if_pos (by push_cast; linarith)]
    omega

theorem roundTiesEven_tie_above (x : ℚ) (n : Int) (h : x = (n : ℚ) + 1 / 2)
    (hn : n % 2 = 0) : roundTiesEven x = n := by
  unfold roundTiesEven
  have hf : ⌊x⌋ = n := Int.floor_eq_iff.mpr ⟨by linarith, by linarith⟩
  rw [hf, if_neg (by linarith), if_neg (by linarith), if_pos hn]

theorem roundTiesEven_tie_below (x : ℚ) (n : Int) (h : x = (n : ℚ) - 1 / 2)
    (hn : n % 2 = 0) : roundTiesEven x = n := by
  unfold roundTiesEven
  have hf : ⌊x⌋ = n - 1 := Int.floor_eq_iff.mpr ⟨by push_cast; linarith, by
    push_cast; linarith⟩
  rw [hf, if_neg (by push_cast; linarith), if_neg (by push_cast; linarith),
    if_neg (by omega)]
  omega

theorem roundFloat64_pos (q : ℚ) (e : Int) (hlo : (2 : ℚ) ^ e ≤ q) (hhi : q < (2 : ℚ) ^ (e + 1))
    (he : -1022 ≤ e) :
    roundFloat64 q = (roundTiesEven (q / 2 ^ (e - 52)) : ℚ) * 2 ^ (e - 52) := by
  have hq : 0 < q := lt_of_lt_of_le (zpow_pos (by norm_num) e) hlo
  have hlog : Int.log 2 |q| = e := by
    rw [abs_of_pos hq]
    apply le_antisymm
    · have : Int.log 2 q < e + 1 :=
        (Int.lt_zpow_iff_log_lt (by norm_num) hq).mp (by exact_mod_cast hhi)
      omega
    · exact (Int.zpow_le_iff_le_log (by norm_num) hq).mp (by exact_mod_cast hlo)
  unfold roundFloat64
  rw [hlog, max_eq_left he]

theorem roundFloat64_zero : roundFloat64 0 = 0 := by
  simp [roundFloat64, roundTiesEven]

theorem roundFloat64_near (q : ℚ) (e n : Int) (hlo : (2 : ℚ) ^ e ≤ q)
    (hhi : q < (2 : ℚ) ^ (e + 1)) (he : -1022 ≤ e)
    (h1 : (n : ℚ) - 1 / 2 < q / 2 ^ (e - 52)) (h2 : q / 2 ^ (e - 52) < (n : ℚ) + 1 / 2) :
    roundFloat64 q = (n : ℚ) * 2 ^ (e - 52) := by
  rw [roundFloat64_pos q e hlo hhi he, roundTiesEven_near _ n h1 h2]

theorem roundFloat64_tie_above (q : ℚ) (e n : Int) (hlo : (2 : ℚ) ^ e ≤ q)
    (hhi : q < (2 : ℚ) ^ (e + 1)) (he : -1022 ≤ e)
    (h : q / 2 ^ (e - 52) = (n : ℚ) + 1 / 2) (hn : n % 2 = 0) :
    roundFloat64 q = (n : ℚ) * 2 ^ (e - 52) := by
  rw [roundFloat64_pos q e hlo hhi he, roundTiesEven_tie_above _ n h hn]

theorem roundFloat64_tie_below (q : ℚ) (e n : Int) (hlo : (2 : ℚ) ^ e ≤ q)
    (hhi : q < (2 : ℚ) ^ (e + 1)) (he : -1022 ≤ e)
    (h : q / 2 ^ (e - 52) = (n : ℚ) - 1 / 2) (hn : n % 2 = 0) :
    roundFloat64 q = (n : ℚ) * 2 ^ (e - 52) := by
  rw [roundFloat64_pos q e hlo hhi he, roundTiesEven_tie_below _ n h hn]

theorem binary64_tenth :
    roundFloat64 (1 / 10) = 3602879701896397 / 36028797018963968 ∧
    binary64.mul (binary64.ofInt 10) (3602879701896397 / 36028797018963968) = 1 ∧
    (fun d => binary64.add d (3602879701896397 / 36028797018963968))^[10]
      (binary64.mul (binary64.ofInt 0) 1) = 9007199254740991 / 9007199254740992 := by
  have h1 : roundFloat64 (0 + 3602879701896397 / 36028797018963968) =
      3602879701896397 / 36028797018963968 := by
    rw [roundFloat64_near _ (-4) 7205759403792794
      (by norm_num) (by norm_num) (by norm_num) (by norm_num) (by norm_num)]
    norm_num
  have h2 : roundFloat64 (3602879701896397 / 36028797018963968 +
        3602879701896397 / 36028797018963968) =
      3602879701896397 / 18014398509481984 := by
    rw [roundFloat64_near _ (-3) 7205759403792794
      (by norm_num) (by norm_num) (by norm_num) (by norm_num) (by norm_num)]
    norm_num
  have h3 : roundFloat64 (3602879701896397 / 18014398509481984 +
        3602879701896397 / 36028797018963968) =
      1351079888211149 / 4503599627370496 := by
    rw [roundFloat64_tie_below _ (-2) 5404319552844596
      (by norm_num) (by norm_num) (by norm_num) (by norm_num) (by decide)]
    norm_num
  have h4 : roundFloat64 (1351079888211149 / 4503599627370496 +
        3602879701896397 / 36028797018963968) =
      3602879701896397 / 9007199254740992 := by
    rw [roundFloat64_tie_above _ (-2) 7205759403792794
      (by norm_num) (by norm_num) (by norm_num) (by norm_num) (by decide)]
    norm_num
  have h5 : roundFloat64 (3602879701896397 / 9007199254740992 +
        3602879701896397 / 36028797018963968) =
      1 / 2 := by
    rw [roundFloat64_near _ (-1) 4503599627370496
      (by norm_num) (by norm_num) (by norm_num) (by norm_num) (by norm_num)]
    norm_num
  have h6 : roundFloat64 (1 / 2 + 3602879701896397 / 36028797018963968) =
      5404319552844595 / 9007199254740992 := by
    rw [roundFloat64_near _ (-1) 5404319552844595
      (by norm_num) (by norm_num) (by norm_num) (by norm_num) (by norm_num)]
    norm_num
  have h7 : roundFloat64 (5404319552844595 / 9007199254740992 +
        3602879701896397 / 36028797018963968) =
      3152519739159347 / 4503599627370496 := by
    rw [roundFloat64_near _ (-1) 6305039478318694
      (by norm_num) (by norm_num) (by norm_num) (by norm_num) (by norm_num)]
    norm_num
  have h8 : roundFloat64 (3152519739159347 / 4503599627370496 +
        3602879701896397 / 36028797018963968) =
      7205759403792793 / 9007199254740992 := by
    rw [roundFloat64_near _ (-1) 7205759403792793
      (by norm_num) (by norm_num) (by norm_num) (by norm_num) (by norm_num)]
    norm_num
  have h9 : roundFloat64 (7205759403792793 / 9007199254740992 +
        3602879701896397 / 36028797018963968) =
      2026619832316723 / 2251799813685248 := by
    rw [roundFloat64_near _ (-1) 8106479329266892
      (by norm_num) (by norm_num) (by norm_num) (by norm_num) (by norm_num)]
    norm_num
  have h10 : roundFloat64 (2026619832316723 / 2251799813685248 +
        3602879701896397 / 36028797018963968) =
      9007199254740991 / 9007199254740992 := by
    rw [roundFloat64_near _ (-1) 9007199254740991
      (by norm_num) (by norm_num) (by norm_num) (by norm_num) (by norm_num)]
    norm_num
  have hten : roundFloat64 10 = 10 := by
    rw [roundFloat64_near _ (3) 5629499534213120
      (by norm_num) (by norm_num) (by norm_num) (by norm_num) (by norm_num)]
    norm_num
  have hprod : roundFloat64 (10 * (3602879701896397 / 36028797018963968)) = 1 := by
    rw [roundFloat64_near _ (0) 4503599627370496
      (by norm_num) (by norm_num) (by norm_num) (by norm_num) (by norm_num)]
    norm_num
  have htenth : roundFloat64 (1 / 10) = 3602879701896397 / 36028797018963968 := by
    rw [roundFloat64_near _ (-4) 7205759403792794
      (by norm_num) (by norm_num) (by norm_num) (by norm_num) (by norm_num)]
    norm_num
  refine ⟨htenth, ?_, ?_⟩
  · show roundFloat64 (roundFloat64 ((10 : Nat) : ℚ) * _) = 1
    rw [show ((10 : Nat) : ℚ) = 10 by norm_num, hten, hprod]
  · have h0 : binary64.mul (binary64.ofInt 0) 1 = 0 := by
      show roundFloat64 (roundFloat64 ((0 : Nat) : ℚ) * 1) = 0
      rw [Nat.cast_zero, roundFloat64_zero, zero_mul, roundFloat64_zero]
    rw [h0]
    show roundFloat64 (roundFloat64 (roundFloat64 (roundFloat64 (roundFloat64 (roundFloat64
      (roundFloat64 (roundFloat64 (roundFloat64 (roundFloat64 (0 + _) + _) + _) + _) + _)
      + _) + _) + _) + _) + _) = _
    rw [h1, h2, h3, h4, h5, h6, h7, h8, h9, h10]

/-- C5, as stated, fails in `float64` arithmetic: the Go constant `0.1` is the value
`3602879701896397 / 2 ^ 55`; the name "bcdfgjklmnp" has ten bigrams, every diagonal cell
adds `Match` to the one before, and ten rounded additions of `0.1` starting from
`float64(0) * Insert = 0` give `1 - 2 ^ (-53)` (printed `0.9999999999999999`), while
`float64(10) * 0.1` is `1`. -/
theorem C5_counterexample :
    roundFloat64 (1 / 10) = 3602879701896397 / 36028797018963968 ∧
    (∃ bigrams, ComputeBigrams (normalize sampleTables (lit "bcdfgjklmnp")) = some bigrams ∧
      bigrams.length = 10) ∧
    SoftBisimDistanceF binary64 sampleTables (lit "bcdfgjklmnp") (lit "bcdfgjklmnp")
      ⟨3602879701896397 / 36028797018963968, 1, 1, 1, 1, 1, 1, 1, 1⟩ =
        some (9007199254740991 / 9007199254740992) ∧
    binary64.mul (binary64.ofInt 10) (3602879701896397 / 36028797018963968) = 1 ∧
    (9007199254740991 / 9007199254740992 : ℚ) ≠ 1 := by
  have hlen : (bigramsOf (toRunes (normalize sampleTables (lit "bcdfgjklmnp")))).length =
      10 := by decide
  obtain ⟨h1, h2, h3⟩ := binary64_tenth
  refine ⟨h1, ⟨_, ComputeBigrams_eq _, hlen⟩, ?_, h2, by norm_num⟩
  rw [SoftBisimDistanceF_eq, cellF_diag, hlen]
  exact congrArg some h3

/-- C5 (amended): for every name `s` and all weights, whatever the `float64` operations
do, the bigrams of the normalized name are extracted without failure and
`SoftBisimDistance(s, s, w)` is the value obtained from `float64(0) * Insert` by adding
`Match` once per bigram; it is `float64(0) * Insert` itself when adding `Match` leaves
that value unchanged; with exact sums and products it is the number of bigrams times
`Match`; and in rounded `float64` arithmetic on finite values it is `0` when
`Match = 0`. -/
theorem C5_identity {F : Type} (ops : FloatOps F) (U : UnicodeTables) (s : GoString)
    (w : WeightsOf F) :
    ∃ bigrams, ComputeBigrams (VowelReduction (ApplyPhoneticTransform U s)) = some bigrams ∧
      SoftBisimDistanceF ops U s s w =
        some ((fun d => ops.add d w.Match)^[bigrams.length]
          (ops.mul (ops.ofInt 0) w.Insert)) ∧
      (ops.add (ops.mul (ops.ofInt 0) w.Insert) w.Match = ops.mul (ops.ofInt 0) w.Insert →
        SoftBisimDistanceF ops U s s w = some (ops.mul (ops.ofInt 0) w.Insert)) ∧
      (∀ v : Weights, SoftBisimDistanceF exactOps U s s v.toOf = SoftBisimDistance U s s v ∧
        SoftBisimDistance U s s v = some ((bigrams.length : ℚ) * v.Match)) ∧
      ∀ v : WeightsOf ℚ, v.Match = 0 → SoftBisimDistanceF binary64 U s s v = some 0 := by
  refine ⟨bigramsOf (toRunes (normalize U s)), ComputeBigrams_eq _, ?_, ?_, ?_, ?_⟩
  · rw [SoftBisimDistanceF_eq, cellF_diag]
  · intro h
    rw [SoftBisimDistanceF_eq, cellF_diag]
    have hfix : ∀ n, (fun d => ops.add d w.Match)^[n] (ops.mul (ops.ofInt 0) w.Insert) =
        ops.mul (ops.ofInt 0) w.Insert := by
      intro n
      induction n with
      | zero => rfl
      | succ n ih =>
        rw [Function.iterate_succ_apply', ih]
        exact h
    rw [hfix]
  · intro v
    refine ⟨SoftBisimDistanceF_exact U s s v, ?_⟩
    rw [SoftBisimDistance_eq, cell_diag]
  · intro v hv
    have h0 : binary64.mul (binary64.ofInt 0) v.Insert = 0 := by
      show roundFloat64 (roundFloat64 ((0 : Nat) : ℚ) * v.Insert) = 0
      rw [Nat.cast_zero, roundFloat64_zero, zero_mul, roundFloat64_zero]
    have hfix : ∀ n, (fun d => binary64.add d v.Match)^[n] (0 : ℚ) = 0 := by
      intro n
      induction n with
      | zero => rfl
      | succ n ih =>
        rw [Function.iterate_succ_apply', ih, hv]
        show roundFloat64 (0 + 0) = 0
        rw [add_zero, roundFloat64_zero]
    rw [SoftBisimDistanceF_eq, cellF_diag, h0, hfix]

/-- C6: for every name `s` and all weights, with `bigrams` the bigrams extracted from the
normalized `s`: `SoftBisimDistance("", s, w) = len(bigrams) * Insert`,
`SoftBisimDistance(s, "", w) = len(bigrams) * Delete`, and
`SoftBisimDistance("", "", w) = 0`. -/
theorem C6_boundary (U : UnicodeTables) (s : GoString) (w : Weights) :
    ∃ bigrams, ComputeBigrams (VowelReduction (ApplyPhoneticTransform U s)) = some bigrams ∧
      SoftBisimDistance U (lit "") s w = some ((bigrams.length : ℚ) * w.Insert) ∧
      SoftBisimDistance U s (lit "") w = some ((bigrams.length : ℚ) * w.Delete) ∧
      SoftBisimDistance U (lit "") (lit "") w = some 0 := by
  have he : bigramsOf (toRunes (normalize U (lit ""))) = [] := by rfl
  refine ⟨bigramsOf (toRunes (normalize U s)), ComputeBigrams_eq _, ?_, ?_, ?_⟩
  · rw [SoftBisimDistance_eq, he, List.length_nil, cell_zero]
  · rw [SoftBisimDistance_eq, he, List.length_nil, cell_col_zero]
  · rw [SoftBisimDistance_eq, he, List.length_nil, cell_zero]
    simp

/-! ### Non-negativity and monotonicity -/

/-- C7: for all names `a`, `b` and all weights with non-negative coefficients, the
bigrams are extracted and the matrix is filled without failure, every entry of the
matrix is non-negative, and so is `SoftBisimDistance(a, b, w)`. -/
theorem C7_nonneg (U : UnicodeTables) (a b : GoString) (w : Weights) (hw : w.NonNeg) :
    ∃ (A B : List GoString) (D : List (List ℚ)) (v : ℚ),
      ComputeBigrams (VowelReduction (ApplyPhoneticTransform U a)) = some A ∧
      ComputeBigrams (VowelReduction (ApplyPhoneticTransform U b)) = some B ∧
      SoftBisimMatrix (ToLower U) w A B = some D ∧
      (∀ i j, i ≤ A.length → j ≤ B.length → ∃ x, mget D i j = some x ∧ 0 ≤ x) ∧
      SoftBisimDistance U a b w = some v ∧ 0 ≤ v := by
  obtain ⟨D, hD, _, hv⟩ := SoftBisimMatrix_spec (ToLower U) w
    (bigramsOf (toRunes (normalize U a))) (bigramsOf (toRunes (normalize U b)))
  exact ⟨_, _, D, _, ComputeBigrams_eq _, ComputeBigrams_eq _, hD,
    fun i j hi hj => ⟨_, hv i j hi hj, cell_nonneg _ w hw _ _ i j⟩,
    SoftBisimDistance_eq U a b w, cell_nonneg _ w hw _ _ _ _⟩

theorem C7_nonneg_witness :
    ∃ (A B : List GoString) (D : List (List ℚ)) (v : ℚ),
      ComputeBigrams (VowelReduction (ApplyPhoneticTransform sampleTables (lit "Schwarz"))) =
        some A ∧
      ComputeBigrams (VowelReduction (ApplyPhoneticTransform sampleTables (lit "abc"))) =
        some B ∧
      SoftBisimMatrix (ToLower sampleTables) ⟨0, 1, 1, 1, 1, 1, 1, 1, 1⟩ A B = some D ∧
      (∀ i j, i ≤ A.length → j ≤ B.length → ∃ x, mget D i j = some x ∧ 0 ≤ x) ∧
      SoftBisimDistance sampleTables (lit "Schwarz") (lit "abc") ⟨0, 1, 1, 1, 1, 1, 1, 1, 1⟩ =
        some v ∧ 0 ≤ v :=
  C7_nonneg sampleTables (lit "Schwarz") (lit "abc") ⟨0, 1, 1, 1, 1, 1, 1, 1, 1⟩
    (by simp [Weights.NonNeg])

/-- C8: for all names `a`, `b` and all weights `w`, `w'` that agree on every coefficient
except one, in which `w'` is larger,
`SoftBisimDistance(a, b, w) ≤ SoftBisimDistance(a, b, w')`. -/
theorem C8_monotone (U : UnicodeTables) (a b : GoString) (w w' : Weights)
    (h : w.RaisedOne w') :
    ∃ v v', SoftBisimDistance U a b w = some v ∧ SoftBisimDistance U a b w' = some v' ∧
      v ≤ v' :=
  ⟨_, _, SoftBisimDistance_eq U a b w, SoftBisimDistance_eq U a b w',
    cell_mono _ w w' (RaisedOne_le h) _ _ _ _⟩

theorem C8_monotone_witness :
    ∃ v v', SoftBisimDistance sampleTables (lit "Schwarz") (lit "abc")
        ⟨0, 1, 1, 1, 1, 1, 1, 1, 1⟩ = some v ∧
      SoftBisimDistance sampleTables (lit "Schwarz") (lit "abc")
        ⟨0, 2, 1, 1, 1, 1, 1, 1, 1⟩ = some v' ∧ v ≤ v' :=
  C8_monotone sampleTables (lit "Schwarz") (lit "abc") ⟨0, 1, 1, 1, 1, 1, 1, 1, 1⟩
    ⟨0, 2, 1, 1, 1, 1, 1, 1, 1⟩ (Or.inr (Or.inl ⟨rfl, by norm_num⟩))

/-! ### Order of map iteration

Go visits the entries of a map in an unspecified order.  The two transliteration loops
are embedded for an arbitrary order of visit (`TransliterateRussianToLatinIn`,
`TransliterateHebrewToLatinIn`); the lemmas of this section show that every order gives
the result of the order of the source text, which is the one used in
`ApplyPhoneticTransform`. -/

theorem assoc_cons (kv : GoString × GoString) (tbl : List (GoString × GoString))
    (k : GoString) :
    assoc (kv :: tbl) k = if kv.1 = k then some kv.2 else assoc tbl k := by
  unfold assoc
  rw [List.find?_cons]
  by_cases h : kv.1 = k
  · simp [h]
  · simp [h]

theorem assoc_some_iff (tbl : List (GoString × GoString))
    (hnd : (tbl.map Prod.fst).Nodup) (k v : GoString) :
    assoc tbl k = some v ↔ (k, v) ∈ tbl := by
  induction tbl with
  | nil => simp [assoc]
  | cons kv tbl ih =>
    rw [List.map_cons, List.nodup_cons] at hnd
    rw [assoc_cons, List.mem_cons]
    by_cases h : kv.1 = k
    · rw [if_pos h]
      constructor
      · intro e
        left
        cases kv
        simp only [Option.some.injEq] at e
        simp only at h
        rw [h, e]
      · intro e
        rcases e with e | e
        · rw [← e]
        · exfalso
          apply hnd.1
          rw [h]
          exact List.mem_map.mpr ⟨(k, v), e, rfl⟩
    · rw [if_neg h, ih hnd.2]
      constructor
      · intro e; right; exact e
      · intro e
        rcases e with e | e
        · exfalso; apply h; rw [← e]
        · exact e

theorem assoc_perm {l1 l2 : List (GoString × GoString)} (hp : l1.Perm l2)
    (hnd : (l2.map Prod.fst).Nodup) (k : GoString) : assoc l1 k = assoc l2 k := by
  have hnd1 : (l1.map Prod.fst).Nodup := (hp.map Prod.fst).nodup_iff.mpr hnd
  apply Option.ext
  intro v
  show assoc l1 k = some v ↔ assoc l2 k = some v
  rw [assoc_some_iff l1 hnd1, assoc_some_iff l2 hnd]
  exact hp.mem_iff

theorem scan1_match (k v : GoString) (b : Nat) (rest : GoString)
    (h : k.isPrefixOf (b :: rest) = true) :
    replaceScan [(k, v)] (b :: rest) 0 = v ++ replaceScan [(k, v)] rest (k.length - 1) := by
  rw [replaceScan]
  simp [List.find?, h]

theorem scan1_nomatch (k v : GoString) (b : Nat) (rest : GoString)
    (h : k.isPrefixOf (b :: rest) = false) :
    replaceScan [(k, v)] (b :: rest) 0 = b :: replaceScan [(k, v)] rest 0 := by
  rw [replaceScan]
  simp [List.find?, h]

theorem nomatch_head (k0 k1 x : Nat) (tail : GoString) (h : k0 ≠ x) :
    List.isPrefixOf [k0, k1] (x :: tail) = false := by
  simp [List.isPrefixOf, h]

theorem nomatch_second (k0 k1 x y : Nat) (tail : GoString) (h : k1 ≠ y) :
    List.isPrefixOf [k0, k1] (x :: y :: tail) = false := by
  simp [List.isPrefixOf, h]

theorem encodeRune_two (c : Nat) (h1 : 0x80 ≤ c) (h2 : c ≤ 0x7FF) :
    encodeRune c = [0xC0 + c / 64, 0x80 + c % 64] := by
  unfold encodeRune
  rw [if_neg (by omega), if_pos h2]

/-- Replacing a two-byte rune `c` in a string that starts with the encoding of a rune
`r`: the first rune is replaced exactly when it is `c`, and the scan resumes after it. -/
theorem scan_encodeRune (c : Nat) (h1 : 0x80 ≤ c) (h2 : c ≤ 0x7FF) (v : GoString)
    (r : Nat) (rest : GoString) :
    replaceScan [(encodeRune c, v)] (encodeRune r ++ rest) 0 =
      (if r = c then v else encodeRune r) ++ replaceScan [(encodeRune c, v)] rest 0 := by
  by_cases hrc : r = c
  · subst hrc
    rw [if_pos rfl, encodeRune_two r h1 h2]
    simp only [List.cons_append, List.nil_append]
    rw [scan1_match _ _ _ _ (by simp [List.isPrefixOf])]
    simp only [List.length_cons, List.length_nil, Nat.zero_add, Nat.add_sub_cancel]
    rw [replaceScan]
  · rw [if_neg hrc, encodeRune_two c h1 h2]
    unfold encodeRune
    split_ifs with g1 g2 g3 g4
    · simp only [List.cons_append, List.nil_append]
      rw [scan1_nomatch _ _ _ _ (nomatch_head _ _ _ _ (by omega))]
    · simp only [List.cons_append, List.nil_append]
      by_cases hx : 0xC0 + c / 64 = 0xC0 + r / 64
      · rw [scan1_nomatch _ _ _ _ (nomatch_second _ _ _ _ _ (by omega)),
          scan1_nomatch _ _ _ _ (nomatch_head _ _ _ _ (by omega))]
      · rw [scan1_nomatch _ _ _ _ (nomatch_head _ _ _ _ hx),
          scan1_nomatch _ _ _ _ (nomatch_head _ _ _ _ (by omega))]
    · simp only [List.cons_append, List.nil_append]
      rw [scan1_nomatch _ _ _ _ (nomatch_head _ _ _ _ (by omega)),
        scan1_nomatch _ _ _ _ (nomatch_head _ _ _ _ (by omega)),
        scan1_nomatch _ _ _ _ (nomatch_head _ _ _ _ (by omega))]
    · simp only [List.cons_append, List.nil_append]
      rw [scan1_nomatch _ _ _ _ (nomatch_head _ _ _ _ (by omega)),
        scan1_nomatch _ _ _ _ (nomatch_head _ _ _ _ (by omega)),
        scan1_nomatch _ _ _ _ (nomatch_head _ _ _ _ (by omega))]
    · simp only [List.cons_append, List.nil_append]
      rw [scan1_nomatch _ _ _ _ (nomatch_head _ _ _ _ (by omega)),
        scan1_nomatch _ _ _ _ (nomatch_head _ _ _ _ (by omega)),
        scan1_nomatch _ _ _ _ (nomatch_head _ _ _ _ (by omega)),
        scan1_nomatch _ _ _ _ (nomatch_head _ _ _ _ (by omega))]

theorem ReplaceAll_fromRunes (c : Nat) (h1 : 0x80 ≤ c) (h2 : c ≤ 0x7FF) (v : GoString)
    (rs : List Nat) :
    ReplaceAll (fromRunes rs) (encodeRune c) v =
      rs.flatMap (fun r => if r = c then v else encodeRune r) := by
  unfold ReplaceAll
  rw [if_neg (encodeRune_ne_nil c)]
  induction rs with
  | nil => rfl
  | cons r rs ih =>
    have e : fromRunes (r :: rs) = encodeRune r ++ fromRunes rs := by simp [fromRunes]
    rw [e, scan_encodeRune c h1 h2, ih]
    simp

theorem fromRunes_ascii (v : List Nat) (h : ∀ b ∈ v, b < 0x80) : fromRunes v = v := by
  induction v with
  | nil => rfl
  | cons b v ih =>
    have hb : b < 0x80 := h b (List.mem_cons_self _ _)
    have e : encodeRune b = [b] := by
      unfold encodeRune; rw [if_pos (by omega)]
    simp only [fromRunes, List.flatMap_cons, e] at ih ⊢
    rw [ih (fun x hx => h x (List.mem_cons_of_mem _ hx))]
    rfl

theorem encodeRune_two_inj (c r : Nat) (h1 : 0x80 ≤ c) (h2 : c ≤ 0x7FF)
    (h : encodeRune c = encodeRune r) : r = c := by
  rw [encodeRune_two c h1 h2] at h
  unfold encodeRune at h
  split_ifs at h <;> simp at h
  omega

theorem assoc_none_of_length (tbl : List (GoString × GoString))
    (h : ∀ kv ∈ tbl, TwoByteEntry kv) (k : GoString) (hk : k.length ≠ 2) :
    assoc tbl k = none := by
  induction tbl with
  | nil => rfl
  | cons kv tbl ih =>
    rw [assoc_cons, if_neg, ih (fun x hx => h x (List.mem_cons_of_mem _ hx))]
    intro e
    obtain ⟨c, c1, c2, c3, _⟩ := h kv (List.mem_cons_self _ _)
    apply hk
    rw [← e, c3, encodeRune_two c c1 c2]
    rfl

theorem substRune_ascii (tbl : List (GoString × GoString))
    (h : ∀ kv ∈ tbl, TwoByteEntry kv) (v : List Nat) (hv : ∀ b ∈ v, b < 0x80) :
    v.flatMap (substRune tbl) = v := by
  induction v with
  | nil => rfl
  | cons b v ih =>
    have hb : b < 0x80 := hv b (List.mem_cons_self _ _)
    have e : encodeRune b = [b] := by
      unfold encodeRune; rw [if_pos (by omega)]
    have e2 : substRune tbl b = [b] := by
      unfold substRune
      rw [e, assoc_none_of_length tbl h [b] (by simp)]
    rw [List.flatMap_cons, e2, ih (fun x hx => hv x (List.mem_cons_of_mem _ hx))]
    rfl

theorem replaceEach_fromRunes :
    ∀ (order : List (GoString × GoString)), (∀ kv ∈ order, TwoByteEntry kv) →
      ∀ rs : List Nat,
        replaceEach order (fromRunes rs) = fromRunes (rs.flatMap (substRune order)) := by
  intro order
  induction order with
  | nil =>
    intro _ rs
    have : (fun r => substRune [] r) = fun r => [r] := by
      funext r; rfl
    show fromRunes rs = fromRunes (rs.flatMap (fun r => substRune [] r))
    rw [this, List.flatMap_singleton']
  | cons kv order ih =>
    intro h rs
    obtain ⟨c, c1, c2, c3, c4⟩ := h kv (List.mem_cons_self _ _)
    have h' : ∀ x ∈ order, TwoByteEntry x := fun x hx => h x (List.mem_cons_of_mem _ hx)
    have e1 : replaceEach (kv :: order) (fromRunes rs) =
        replaceEach order (ReplaceAll (fromRunes rs) kv.1 kv.2) := rfl
    have e2 : (rs.flatMap (fun r => if r = c then kv.2 else encodeRune r)) =
        fromRunes (rs.flatMap (fun r => if r = c then kv.2 else [r])) := by
      unfold fromRunes
      rw [List.flatMap_assoc]
      apply List.flatMap_congr
      intro r _
      by_cases hr : r = c
      · simp only [if_pos hr]
        exact (fromRunes_ascii kv.2 c4).symm
      · simp only [if_neg hr, List.flatMap_singleton]
    rw [e1, c3, ReplaceAll_fromRunes c c1 c2, e2, ih h', List.flatMap_assoc]
    congr 1
    apply List.flatMap_congr
    intro r _
    by_cases hr : r = c
    · simp only [if_pos hr]
      rw [substRune_ascii order h' kv.2 c4]
      unfold substRune
      rw [assoc_cons, if_pos (by rw [c3, hr])]
    · simp only [if_neg hr, List.flatMap_singleton]
      unfold substRune
      rw [assoc_cons, if_neg (fun e => hr (encodeRune_two_inj c r c1 c2 (c3 ▸ e)))]

theorem ToLower_eq_fromRunes (U : UnicodeTables) (s : GoString) :
    ∃ rs, ToLower U s = fromRunes rs := by
  unfold ToLower
  split
  · rename_i h
    refine ⟨s.map (fun c => if 0x41 ≤ c ∧ c ≤ 0x5A then c + 32 else c), ?_⟩
    rw [fromRunes_ascii]
    intro b hb
    obtain ⟨a, ha, rfl⟩ := List.mem_map.mp hb
    have := List.all_eq_true.mp h a ha
    simp only [decide_eq_true_eq] at this
    split <;> omega
  · exact ⟨_, rfl⟩

theorem twoByteEntry_of_bytes (b0 b1 : Nat) (v : GoString) (h0 : 0xC2 ≤ b0) (h0' : b0 ≤ 0xDF)
    (h1 : 0x80 ≤ b1) (h1' : b1 ≤ 0xBF) (hv : ∀ b ∈ v, b < 0x80) :
    TwoByteEntry ([b0, b1], v) := by
  refine ⟨(b0 - 0xC0) * 64 + (b1 - 0x80), by omega, by omega, ?_, hv⟩
  rw [encodeRune_two _ (by omega) (by omega)]
  have e1 : 0xC0 + ((b0 - 0xC0) * 64 + (b1 - 0x80)) / 64 = b0 := by omega
  have e2 : 0x80 + ((b0 - 0xC0) * 64 + (b1 - 0x80)) % 64 = b1 := by omega
  rw [e1, e2]

theorem twoByteEntry_of_check (kv : GoString × GoString) (h : twoByteCheck kv = true) :
    TwoByteEntry kv := by
  obtain ⟨k, v⟩ := kv
  unfold twoByteCheck at h
  split at h
  · rename_i b0 b1 hk
    simp only [Bool.and_eq_true, decide_eq_true_eq, List.all_eq_true] at h
    obtain ⟨⟨⟨⟨h1, h2⟩, h3⟩, h4⟩, h5⟩ := h
    simp only at hk
    rw [hk]
    exact twoByteEntry_of_bytes b0 b1 v h1 h2 h3 h4 h5
  · cases h

theorem cyrillicToLatin_entries : ∀ kv ∈ cyrillicToLatin, TwoByteEntry kv := by
  have h : cyrillicToLatin.all twoByteCheck = true := by decide
  intro kv hkv
  exact twoByteEntry_of_check kv (List.all_eq_true.mp h kv hkv)

theorem cyrillicToLatin_nodup : (cyrillicToLatin.map Prod.fst).Nodup := by decide

/-- The result of `TransliterateRussianToLatin` does not depend on the order in which the
map `cyrillicToLatin` is visited. -/
theorem TransliterateRussianToLatinIn_perm (order : List (GoString × GoString))
    (hp : order.Perm cyrillicToLatin) (U : UnicodeTables) (name : GoString) :
    TransliterateRussianToLatinIn order U name = TransliterateRussianToLatin U name := by
  unfold TransliterateRussianToLatin TransliterateRussianToLatinIn
  obtain ⟨rs, hrs⟩ := ToLower_eq_fromRunes U name
  have h1 : ∀ kv ∈ order, TwoByteEntry kv :=
    fun kv hkv => cyrillicToLatin_entries kv (hp.mem_iff.mp hkv)
  rw [hrs, replaceEach_fromRunes order h1, replaceEach_fromRunes _ cyrillicToLatin_entries]
  congr 1
  apply List.flatMap_congr
  intro r _
  unfold substRune
  rw [assoc_perm hp cyrillicToLatin_nodup]

theorem assoc_mem (tbl : List (GoString × GoString)) (k v : GoString)
    (h : assoc tbl k = some v) : (k, v) ∈ tbl := by
  induction tbl with
  | nil => simp [assoc] at h
  | cons kv tbl ih =>
    rw [assoc_cons] at h
    split at h
    · rename_i hk
      simp only [Option.some.injEq] at h
      rw [← hk, ← h]
      exact List.mem_cons_self _ _
    · exact List.mem_cons_of_mem _ (ih h)

theorem assoc_lead (L : Nat) (tbl : List (GoString × GoString))
    (h : ∀ e ∈ tbl, LeadEntry L e) (b b1 : Nat) (v : GoString)
    (hv : assoc tbl [b, b1] = some v) :
    b = L ∧ 0x80 ≤ b1 ∧ b1 ≠ L ∧ v ≠ [] ∧ ∀ c ∈ v, c < 0x80 := by
  obtain ⟨x, h1, h2, h3, h4, h5⟩ := h _ (assoc_mem tbl _ _ hv)
  simp only [List.cons.injEq, and_true] at h1
  obtain ⟨rfl, rfl⟩ := h1
  exact ⟨rfl, h2, h3, h4, h5⟩

theorem simul_cons_cons_none (tbl : List (GoString × GoString)) (b b1 : Nat)
    (t : GoString) (h : assoc tbl [b, b1] = none) :
    simul tbl (b :: b1 :: t) = b :: simul tbl (b1 :: t) := by
  rw [simul, h]

theorem simul_cons_cons_some (tbl : List (GoString × GoString)) (b b1 : Nat)
    (t v : GoString) (h : assoc tbl [b, b1] = some v) :
    simul tbl (b :: b1 :: t) = v ++ simul tbl t := by
  rw [simul, h]

theorem simul_cons_ne (L : Nat) (tbl : List (GoString × GoString))
    (h : ∀ e ∈ tbl, LeadEntry L e) (b : Nat) (t : GoString) (hb : b ≠ L) :
    simul tbl (b :: t) = b :: simul tbl t := by
  cases t with
  | nil => simp [simul]
  | cons b1 t =>
    apply simul_cons_cons_none
    cases hv : assoc tbl [b, b1] with
    | none => rfl
    | some v => exact absurd (assoc_lead L tbl h b b1 v hv).1 hb

theorem simul_append_ascii (L : Nat) (hL : 0x80 ≤ L) (tbl : List (GoString × GoString))
    (h : ∀ e ∈ tbl, LeadEntry L e) (v : GoString) (hv : ∀ b ∈ v, b < 0x80) (t : GoString) :
    simul tbl (v ++ t) = v ++ simul tbl t := by
  induction v with
  | nil => rfl
  | cons b v ih =>
    have hb : b < 0x80 := hv b (List.mem_cons_self _ _)
    rw [List.cons_append, simul_cons_ne L tbl h b _ (by omega),
      ih (fun x hx => hv x (List.mem_cons_of_mem _ hx))]
    rfl

theorem simul_nil_table : ∀ s : GoString, simul [] s = s := by
  intro s
  induction s with
  | nil => rfl
  | cons b s ih =>
    cases s with
    | nil => rfl
    | cons b1 s => rw [simul_cons_cons_none [] b b1 s rfl, ih]

theorem simul_ReplaceAll (L : Nat) (hL : 0x80 ≤ L) (kv : GoString × GoString)
    (order : List (GoString × GoString)) (h : ∀ e ∈ kv :: order, LeadEntry L e) :
    ∀ (n : Nat) (s : GoString), s.length ≤ n →
      simul order (replaceScan [kv] s 0) = simul (kv :: order) s := by
  obtain ⟨k, v⟩ := kv
  obtain ⟨x, hk, hx1, hx2, hv1, hv2⟩ := h _ (List.mem_cons_self _ _)
  simp only at hk hv1 hv2
  subst hk
  have h' : ∀ e ∈ order, LeadEntry L e := fun e he => h e (List.mem_cons_of_mem _ he)
  intro n
  induction n with
  | zero =>
    intro s hs
    have : s = [] := List.length_eq_zero.mp (by omega)
    subst this
    rfl
  | succ n ih =>
    intro s hs
    cases s with
    | nil => rfl
    | cons b s =>
      cases s with
      | nil =>
        rw [scan1_nomatch _ _ _ _ (by simp [List.isPrefixOf])]
        rfl
      | cons b1 rest =>
        have hlen1 : (b1 :: rest).length ≤ n := by simp only [List.length_cons] at hs ⊢; omega
        have hlen2 : rest.length ≤ n := by simp only [List.length_cons] at hs ⊢; omega
        by_cases hm : b = L ∧ b1 = x
        · obtain ⟨rfl, rfl⟩ := hm
          rw [scan1_match _ _ _ _ (by simp [List.isPrefixOf])]
          simp only [List.length_cons, List.length_nil, Nat.zero_add, Nat.add_sub_cancel]
          rw [replaceScan, simul_append_ascii b hL order h' v hv2, ih rest hlen2,
            simul_cons_cons_some ((([b, b1] : GoString), v) :: order) b b1 rest v
              (by rw [assoc_cons, if_pos rfl])]
        · have hne : ([L, x] : GoString) ≠ [b, b1] := by
            intro e
            simp only [List.cons.injEq, and_true] at e
            exact hm ⟨e.1.symm, e.2.symm⟩
          have hnm : List.isPrefixOf [L, x] (b :: b1 :: rest) = false := by
            by_cases hb : L = b
            · exact nomatch_second _ _ _ _ _ (fun e => hm ⟨hb.symm, e.symm⟩)
            · exact nomatch_head _ _ _ _ hb
          rw [scan1_nomatch _ _ _ _ hnm]
          have hassoc : assoc ((([L, x] : GoString), v) :: order) [b, b1] =
              assoc order [b, b1] := by
            rw [assoc_cons, if_neg hne]
          cases hv' : assoc order [b, b1] with
          | some v' =>
            obtain ⟨rfl, _, hb1, _, _⟩ := assoc_lead L order h' b b1 v' hv'
            rw [scan1_nomatch _ _ _ _ (nomatch_head _ _ _ _ (Ne.symm hb1)),
              simul_cons_cons_some order b b1 _ v' hv', ih rest hlen2,
              simul_cons_cons_some _ b b1 rest v' (by rw [hassoc, hv'])]
          | none =>
            rw [simul_cons_cons_none _ b b1 rest (by rw [hassoc, hv']),
              ← ih (b1 :: rest) hlen1]
            by_cases hb : b = L
            · subst hb
              by_cases hm2 : List.isPrefixOf [b, x] (b1 :: rest) = true
              · rw [scan1_match _ _ _ _ hm2]
                obtain ⟨v0, vt, rfl⟩ := List.exists_cons_of_ne_nil hv1
                rw [List.cons_append]
                apply simul_cons_cons_none
                cases hq : assoc order [b, v0] with
                | none => rfl
                | some q =>
                  have := (assoc_lead b order h' b v0 q hq).2.1
                  have := hv2 v0 (List.mem_cons_self _ _)
                  omega
              · rw [scan1_nomatch _ _ _ _ (Bool.eq_false_iff.mpr hm2)]
                exact simul_cons_cons_none order b b1 _ hv'
            · exact simul_cons_ne L order h' b _ hb

theorem replaceEach_simul (L : Nat) (hL : 0x80 ≤ L) :
    ∀ (order : List (GoString × GoString)), (∀ e ∈ order, LeadEntry L e) →
      ∀ s : GoString, replaceEach order s = simul order s := by
  intro order
  induction order with
  | nil => intro _ s; exact (simul_nil_table s).symm
  | cons kv order ih =>
    intro h s
    have hk : kv.1 ≠ [] := by
      obtain ⟨x, hx, _⟩ := h kv (List.mem_cons_self _ _)
      rw [hx]; simp
    have e1 : replaceEach (kv :: order) s = replaceEach order (ReplaceAll s kv.1 kv.2) := rfl
    have e2 : ReplaceAll s kv.1 kv.2 = replaceScan [kv] s 0 := by
      unfold ReplaceAll
      rw [if_neg hk]
    rw [e1, e2, ih (fun e he => h e (List.mem_cons_of_mem _ he)),
      simul_ReplaceAll L hL kv order h s.length s (le_refl _)]

theorem simul_congr (t1 t2 : List (GoString × GoString))
    (h : ∀ k, assoc t1 k = assoc t2 k) : ∀ (n : Nat) (s : GoString), s.length ≤ n →
      simul t1 s = simul t2 s := by
  intro n
  induction n with
  | zero =>
    intro s hs
    have : s = [] := List.length_eq_zero.mp (by omega)
    subst this
    rfl
  | succ n ih =>
    intro s hs
    cases s with
    | nil => rfl
    | cons b s =>
      cases s with
      | nil => rfl
      | cons b1 rest =>
        have hlen1 : (b1 :: rest).length ≤ n := by simp only [List.length_cons] at hs ⊢; omega
        have hlen2 : rest.length ≤ n := by simp only [List.length_cons] at hs ⊢; omega
        rw [simul, simul, h [b, b1], ih rest hlen2, ih (b1 :: rest) hlen1]

theorem leadEntry_of_check (L : Nat) (kv : GoString × GoString)
    (h : leadCheck L kv = true) : LeadEntry L kv := by
  obtain ⟨k, v⟩ := kv
  unfold leadCheck at h
  split at h
  · rename_i l x hk
    simp only [Bool.and_eq_true, decide_eq_true_eq, List.all_eq_true, Bool.not_eq_true',
      List.isEmpty_eq_false] at h
    obtain ⟨⟨⟨⟨h1, h2⟩, h3⟩, h4⟩, h5⟩ := h
    simp only at hk
    refine ⟨x, by rw [hk, h1], h2, h3, ?_, h5⟩
    intro e
    simp only at e
    rw [e] at h4
    simp at h4
  · cases h

theorem hebrewToLatin_entries : ∀ kv ∈ hebrewToLatin, LeadEntry 0xD7 kv := by
  have h : hebrewToLatin.all (leadCheck 0xD7) = true := by decide
  intro kv hkv
  exact leadEntry_of_check _ kv (List.all_eq_true.mp h kv hkv)

theorem hebrewToLatin_nodup : (hebrewToLatin.map Prod.fst).Nodup := by decide

/-- The result of `TransliterateHebrewToLatin` does not depend on the order in which the
map `hebrewToLatin` is visited. -/
theorem TransliterateHebrewToLatinIn_perm (order : List (GoString × GoString))
    (hp : order.Perm hebrewToLatin) (name : GoString) :
    TransliterateHebrewToLatinIn order name = TransliterateHebrewToLatin name := by
  unfold TransliterateHebrewToLatin TransliterateHebrewToLatinIn
  have h1 : ∀ kv ∈ order, LeadEntry 0xD7 kv :=
    fun kv hkv => hebrewToLatin_entries kv (hp.mem_iff.mp hkv)
  rw [replaceEach_simul 0xD7 (by decide) order h1,
    replaceEach_simul 0xD7 (by decide) _ hebrewToLatin_entries]
  exact simul_congr _ _ (fun k => assoc_perm hp hebrewToLatin_nodup k) name.length name
    (le_refl _)

/-! ### Fitness -/

theorem toRunes_ne_nil {s : GoString} (h : s ≠ []) : toRunes s ≠ [] := by
  cases s with
  | nil => exact absurd rfl h
  | cons b rest => unfold toRunes; rw [toRunesAux]; simp

theorem maxLen_eq (len1 len2 : Nat) :
    (if len2 > len1 then (len2 : ℚ) else (len1 : ℚ)) = ((max len1 len2 : Nat) : ℚ) := by
  split
  · rw [max_eq_right (by omega)]
  · rw [max_eq_left (by omega)]

theorem fitnessStep_pair (U : UnicodeTables) (w : Weights) (acc : ℚ) (n1 n2 : GoString) :
    fitnessStep U w acc [n1, n2] = some (acc + (1 - cell (ToLower U) w
        (bigramsOf (toRunes (normalize U n1))) (bigramsOf (toRunes (normalize U n2)))
        (bigramsOf (toRunes (normalize U n1))).length
        (bigramsOf (toRunes (normalize U n2))).length /
        ((max (toRunes n1).length (toRunes n2).length : Nat) : ℚ))) := by
  simp only [fitnessStep, List.getElem?_cons_zero, List.getElem?_cons_succ, Option.some_bind,
    SoftBisimDistance_eq, maxLen_eq, Option.bind_eq_bind]

theorem fitnessLoop_spec (U : UnicodeTables) (w : Weights) :
    ∀ (data : List (List GoString)) (acc : ℚ),
      (∀ pair ∈ data, ∃ n1 n2, pair = [n1, n2] ∧ (n1 ≠ [] ∨ n2 ≠ [])) →
      ∃ sims : List ℚ,
        List.Forall₂ (fun pair sim => ∃ n1 n2 dist, pair = [n1, n2] ∧
          SoftBisimDistance U n1 n2 w = some dist ∧
          ((max (toRunes n1).length (toRunes n2).length : Nat) : ℚ) ≠ 0 ∧
          sim = 1 - dist / ((max (toRunes n1).length (toRunes n2).length : Nat) : ℚ))
          data sims ∧
        data.foldlM (fitnessStep U w) acc = some (acc + sims.sum) := by
  intro data
  induction data with
  | nil => intro acc _; exact ⟨[], List.Forall₂.nil, by simp⟩
  | cons pair data ih =>
    intro acc h
    obtain ⟨n1, n2, hp, hne⟩ := h pair (List.mem_cons_self _ _)
    obtain ⟨sims, hs, hf⟩ := ih
      (acc + (1 - cell (ToLower U) w
        (bigramsOf (toRunes (normalize U n1))) (bigramsOf (toRunes (normalize U n2)))
        (bigramsOf (toRunes (normalize U n1))).length
        (bigramsOf (toRunes (normalize U n2))).length /
        ((max (toRunes n1).length (toRunes n2).length : Nat) : ℚ)))
      (fun q hq => h q (List.mem_cons_of_mem _ hq))
    have hpos : ((max (toRunes n1).length (toRunes n2).length : Nat) : ℚ) ≠ 0 := by
      have : 0 < max (toRunes n1).length (toRunes n2).length := by
        rcases hne with h1 | h2
        · exact lt_of_lt_of_le (List.length_pos.mpr (toRunes_ne_nil h1)) (le_max_left _ _)
        · exact lt_of_lt_of_le (List.length_pos.mpr (toRunes_ne_nil h2)) (le_max_right _ _)
      exact_mod_cast this.ne'
    refine ⟨_ :: sims, List.Forall₂.cons ⟨n1, n2, _, hp, SoftBisimDistance_eq U n1 n2 w,
      hpos, rfl⟩ hs, ?_⟩
    rw [List.foldlM_cons, hp, fitnessStep_pair]
    show List.foldlM (fitnessStep U w) _ data = _
    rw [hf, List.sum_cons, add_assoc]

/-- C10: for every non-empty list of pairs in which each pair has two names, at least
one of them non-empty, `FitnessFunction(data, w)` returns, without failure, the arithmetic
mean over the pairs of `1 - SoftBisimDistance(name1, name2, w) / max(len1, len2)`, the
lengths being the numbers of code points of the original names; no divisor is zero. -/
theorem C10_fitness (U : UnicodeTables) (data : List (List GoString)) (w : Weights)
    (hne : data ≠ [])
    (hp : ∀ pair ∈ data, ∃ n1 n2, pair = [n1, n2] ∧ (n1 ≠ [] ∨ n2 ≠ [])) :
    ∃ sims : List ℚ,
      List.Forall₂ (fun pair sim => ∃ n1 n2 dist, pair = [n1, n2] ∧
        SoftBisimDistance U n1 n2 w = some dist ∧
        ((max (toRunes n1).length (toRunes n2).length : Nat) : ℚ) ≠ 0 ∧
        sim = 1 - dist / ((max (toRunes n1).length (toRunes n2).length : Nat) : ℚ))
        data sims ∧
      (data.length : ℚ) ≠ 0 ∧
      FitnessFunction U data w = some (sims.sum / (data.length : ℚ)) := by
  obtain ⟨sims, hs, hf⟩ := fitnessLoop_spec U w data 0 hp
  refine ⟨sims, hs, ?_, ?_⟩
  · have : 0 < data.length := List.length_pos.mpr hne
    exact_mod_cast this.ne'
  · have e : FitnessFunction U data w = (data.foldlM (fitnessStep U w) 0).bind
        (fun totalScore => some (totalScore / (data.length : ℚ))) := rfl
    rw [e, hf, Option.some_bind, zero_add]

theorem C10_fitness_witness :
    ∃ sims : List ℚ,
      List.Forall₂ (fun pair sim => ∃ n1 n2 dist, pair = [n1, n2] ∧
        SoftBisimDistance sampleTables n1 n2 ⟨0, 1, 1, 1, 1, 1, 1, 1, 1⟩ = some dist ∧
        ((max (toRunes n1).length (toRunes n2).length : Nat) : ℚ) ≠ 0 ∧
        sim = 1 - dist / ((max (toRunes n1).length (toRunes n2).length : Nat) : ℚ))
        [[lit "abcd", lit "abdc"], [lit "Schwarz", lit ""]] sims ∧
      (([[lit "abcd", lit "abdc"], [lit "Schwarz", lit ""]] : List (List GoString)).length : ℚ)
        ≠ 0 ∧
      FitnessFunction sampleTables [[lit "abcd", lit "abdc"], [lit "Schwarz", lit ""]]
        ⟨0, 1, 1, 1, 1, 1, 1, 1, 1⟩ =
        some (sims.sum /
          (([[lit "abcd", lit "abdc"], [lit "Schwarz", lit ""]] :
            List (List GoString)).length : ℚ)) :=
  C10_fitness sampleTables [[lit "abcd", lit "abdc"], [lit "Schwarz", lit ""]]
    ⟨0, 1, 1, 1, 1, 1, 1, 1, 1⟩ (by simp) (by
      intro pair h
      rcases List.mem_cons.mp h with h | h
      · exact ⟨_, _, h, Or.inl (by decide)⟩
      · rw [List.mem_singleton.mp h]
        exact ⟨_, _, rfl, Or.inl (by decide)⟩)

/-! ### End-to-end scenarios -/

theorem cell_mismatch (lower : GoString → GoString) (w : Weights) (A B : List GoString)
    (i j : Nat) (h : nth A i ≠ nth B j)
    (hsw : ¬ (1 ≤ i ∧ 1 ≤ j ∧ nth A i = nth B (j - 1) ∧ nth A (i - 1) = nth B j)) :
    cell lower w A B (i + 1) (j + 1) =
      min (min (cell lower w A B i (j + 1) + w.Delete) (cell lower w A B (i + 1) j + w.Insert))
        (cell lower w A B i j +
          (if lower (nth A i) = lower (nth B j) then w.CaseChange else w.Replace)) := by
  rw [cell_succ_succ, if_neg h]
  simp only [if_neg hsw]

theorem cells_shvrts_swrz :
    cell (ToLower sampleTables) ⟨0, 1, 1, 1, 1, 1, 1, 1, 1⟩
      [lit "sh", lit "hv", lit "vr", lit "rt", lit "ts"]
      [lit "sw", lit "wr", lit "rz"] 5 3 = 5 := by
  have c0_0 : cell (ToLower sampleTables) ⟨0, 1, 1, 1, 1, 1, 1, 1, 1⟩
      [lit "sh", lit "hv", lit "vr", lit "rt", lit "ts"]
      [lit "sw", lit "wr", lit "rz"] 0 0 = 0 := by
    rw [cell_zero]; norm_num
  have c0_1 : cell (ToLower sampleTables) ⟨0, 1, 1, 1, 1, 1, 1, 1, 1⟩
      [lit "sh", lit "hv", lit "vr", lit "rt", lit "ts"]
      [lit "sw", lit "wr", lit "rz"] 0 1 = 1 := by
    rw [cell_zero]; norm_num
  have c0_2 : cell (ToLower sampleTables) ⟨0, 1, 1, 1, 1, 1, 1, 1, 1⟩
      [lit "sh", lit "hv", lit "vr", lit "rt", lit "ts"]
      [lit "sw", lit "wr", lit "rz"] 0 2 = 2 := by
    rw [cell_zero]; norm_num
  have c0_3 : cell (ToLower sampleTables) ⟨0, 1, 1, 1, 1, 1, 1, 1, 1⟩
      [lit "sh", lit "hv", lit "vr", lit "rt", lit "ts"]
      [lit "sw", lit "wr", lit "rz"] 0 3 = 3 := by
    rw [cell_zero]; norm_num
  have c1_0 : cell (ToLower sampleTables) ⟨0, 1, 1, 1, 1, 1, 1, 1, 1⟩
      [lit "sh", lit "hv", lit "vr", lit "rt", lit "ts"]
      [lit "sw", lit "wr", lit "rz"] 1 0 = 1 := by
    rw [cell_col_zero]; norm_num
  have c2_0 : cell (ToLower sampleTables) ⟨0, 1, 1, 1, 1, 1, 1, 1, 1⟩
      [lit "sh", lit "hv", lit "vr", lit "rt", lit "ts"]
      [lit "sw", lit "wr", lit "rz"] 2 0 = 2 := by
    rw [cell_col_zero]; norm_num
  have c3_0 : cell (ToLower sampleTables) ⟨0, 1, 1, 1, 1, 1, 1, 1, 1⟩
      [lit "sh", lit "hv", lit "vr", lit "rt", lit "ts"]
      [lit "sw", lit "wr", lit "rz"] 3 0 = 3 := by
    rw [cell_col_zero]; norm_num
  have c4_0 : cell (ToLower sampleTables) ⟨0, 1, 1, 1, 1, 1, 1, 1, 1⟩
      [lit "sh", lit "hv", lit "vr", lit "rt", lit "ts"]
      [lit "sw", lit "wr", lit "rz"] 4 0 = 4 := by
    rw [cell_col_zero]; norm_num
  have c5_0 : cell (ToLower sampleTables) ⟨0, 1, 1, 1, 1, 1, 1, 1, 1⟩
      [lit "sh", lit "hv", lit "vr", lit "rt", lit "ts"]
      [lit "sw", lit "wr", lit "rz"] 5 0 = 5 := by
    rw [cell_col_zero]; norm_num
  have c1_1 : cell (ToLower sampleTables) ⟨0, 1, 1, 1, 1, 1, 1, 1, 1⟩
      [lit "sh", lit "hv", lit "vr", lit "rt", lit "ts"]
      [lit "sw", lit "wr", lit "rz"] 1 1 = 1 := by
    show cell _ _ _ _ (0 + 1) (0 + 1) = _
    rw [cell_mismatch _ _ _ _ _ _ (by decide) (by decide), c0_0, c0_1, c1_0]
    simp only [ite_self]
    norm_num
  have c1_2 : cell (ToLower sampleTables) ⟨0, 1, 1, 1, 1, 1, 1, 1, 1⟩
      [lit "sh", lit "hv", lit "vr", lit "rt", lit "ts"]
      [lit "sw", lit "wr", lit "rz"] 1 2 = 2 := by
    show cell _ _ _ _ (0 + 1) (1 + 1) = _
    rw [cell_mismatch _ _ _ _ _ _ (by decide) (by decide), c0_1, c0_2, c1_1]
    simp only [ite_self]
    norm_num
  have c1_3 : cell (ToLower sampleTables) ⟨0, 1, 1, 1, 1, 1, 1, 1, 1⟩
      [lit "sh", lit "hv", lit "vr", lit "rt", lit "ts"]
      [lit "sw", lit "wr", lit "rz"] 1 3 = 3 := by
    show cell _ _ _ _ (0 + 1) (2 + 1) = _
    rw [cell_mismatch _ _ _ _ _ _ (by decide) (by decide), c0_2, c0_3, c1_2]
    simp only [ite_self]
    norm_num
  have c2_1 : cell (ToLower sampleTables) ⟨0, 1, 1, 1, 1, 1, 1, 1, 1⟩
      [lit "sh", lit "hv", lit "vr", lit "rt", lit "ts"]
      [lit "sw", lit "wr", lit "rz"] 2 1 = 2 := by
    show cell _ _ _ _ (1 + 1) (0 + 1) = _
    rw [cell_mismatch _ _ _ _ _ _ (by decide) (by decide), c1_0, c1_1, c2_0]
    simp only [ite_self]
    norm_num
  have c2_2 : cell (ToLower sampleTables) ⟨0, 1, 1, 1, 1, 1, 1, 1, 1⟩
      [lit "sh", lit "hv", lit "vr", lit "rt", lit "ts"]
      [lit "sw", lit "wr", lit "rz"] 2 2 = 2 := by
    show cell _ _ _ _ (1 + 1) (1 + 1) = _
    rw [cell_mismatch _ _ _ _ _ _ (by decide) (by decide), c1_1, c1_2, c2_1]
    simp only [ite_self]
    norm_num
  have c2_3 : cell (ToLower sampleTables) ⟨0, 1, 1, 1, 1, 1, 1, 1, 1⟩
      [lit "sh", lit "hv", lit "vr", lit "rt", lit "ts"]
      [lit "sw", lit "wr", lit "rz"] 2 3 = 3 := by
    show cell _ _ _ _ (1 + 1) (2 + 1) = _
    rw [cell_mismatch _ _ _ _ _ _ (by decide) (by decide), c1_2, c1_3, c2_2]
    simp only [ite_self]
    norm_num
  have c3_1 : cell (ToLower sampleTables) ⟨0, 1, 1, 1, 1, 1, 1, 1, 1⟩
      [lit "sh", lit "hv", lit "vr", lit "rt", lit "ts"]
      [lit "sw", lit "wr", lit "rz"] 3 1 = 3 := by
    show cell _ _ _ _ (2 + 1) (0 + 1) = _
    rw [cell_mismatch _ _ _ _ _ _ (by decide) (by decide), c2_0, c2_1, c3_0]
    simp only [ite_self]
    norm_num
  have c3_2 : cell (ToLower sampleTables) ⟨0, 1, 1, 1, 1, 1, 1, 1, 1⟩
      [lit "sh", lit "hv", lit "vr", lit "rt", lit "ts"]
      [lit "sw", lit "wr", lit "rz"] 3 2 = 3 := by
    show cell _ _ _ _ (2 + 1) (1 + 1) = _
    rw [cell_mismatch _ _ _ _ _ _ (by decide) (by decide), c2_1, c2_2, c3_1]
    simp only [ite_self]
    norm_num
  have c3_3 : cell (ToLower sampleTables) ⟨0, 1, 1, 1, 1, 1, 1, 1, 1⟩
      [lit "sh", lit "hv", lit "vr", lit "rt", lit "ts"]
      [lit "sw", lit "wr", lit "rz"] 3 3 = 3 := by
    show cell _ _ _ _ (2 + 1) (2 + 1) = _
    rw [cell_mismatch _ _ _ _ _ _ (by decide) (by decide), c2_2, c2_3, c3_2]
    simp only [ite_self]
    norm_num
  have c4_1 : cell (ToLower sampleTables) ⟨0, 1, 1, 1, 1, 1, 1, 1, 1⟩
      [lit "sh", lit "hv", lit "vr", lit "rt", lit "ts"]
      [lit "sw", lit "wr", lit "rz"] 4 1 = 4 := by
    show cell _ _ _ _ (3 + 1) (0 + 1) = _
    rw [cell_mismatch _ _ _ _ _ _ (by decide) (by decide), c3_0, c3_1, c4_0]
    simp only [ite_self]
    norm_num
  have c4_2 : cell (ToLower sampleTables) ⟨0, 1, 1, 1, 1, 1, 1, 1, 1⟩
      [lit "sh", lit "hv", lit "vr", lit "rt", lit "ts"]
      [lit "sw", lit "wr", lit "rz"] 4 2 = 4 := by
    show cell _ _ _ _ (3 + 1) (1 + 1) = _
    rw [cell_mismatch _ _ _ _ _ _ (by decide) (by decide), c3_1, c3_2, c4_1]
    simp only [ite_self]
    norm_num
  have c4_3 : cell (ToLower sampleTables) ⟨0, 1, 1, 1, 1, 1, 1, 1, 1⟩
      [lit "sh", lit "hv", lit "vr", lit "rt", lit "ts"]
      [lit "sw", lit "wr", lit "rz"] 4 3 = 4 := by
    show cell _ _ _ _ (3 + 1) (2 + 1) = _
    rw [cell_mismatch _ _ _ _ _ _ (by decide) (by decide), c3_2, c3_3, c4_2]
    simp only [ite_self]
    norm_num
  have c5_1 : cell (ToLower sampleTables) ⟨0, 1, 1, 1, 1, 1, 1, 1, 1⟩
      [lit "sh", lit "hv", lit "vr", lit "rt", lit "ts"]
      [lit "sw", lit "wr", lit "rz"] 5 1 = 5 := by
    show cell _ _ _ _ (4 + 1) (0 + 1) = _
    rw [cell_mismatch _ _ _ _ _ _ (by decide) (by decide), c4_0, c4_1, c5_0]
    simp only [ite_self]
    norm_num
  have c5_2 : cell (ToLower sampleTables) ⟨0, 1, 1, 1, 1, 1, 1, 1, 1⟩
      [lit "sh", lit "hv", lit "vr", lit "rt", lit "ts"]
      [lit "sw", lit "wr", lit "rz"] 5 2 = 5 := by
    show cell _ _ _ _ (4 + 1) (1 + 1) = _
    rw [cell_mismatch _ _ _ _ _ _ (by decide) (by decide), c4_1, c4_2, c5_1]
    simp only [ite_self]
    norm_num
  have c5_3 : cell (ToLower sampleTables) ⟨0, 1, 1, 1, 1, 1, 1, 1, 1⟩
      [lit "sh", lit "hv", lit "vr", lit "rt", lit "ts"]
      [lit "sw", lit "wr", lit "rz"] 5 3 = 5 := by
    show cell _ _ _ _ (4 + 1) (2 + 1) = _
    rw [cell_mismatch _ _ _ _ _ _ (by decide) (by decide), c4_2, c4_3, c5_2]
    simp only [ite_self]
    norm_num
  exact c5_3

theorem cells_abcd_abdc :
    cell (ToLower sampleTables) ⟨0, 1, 1, 1, 1, 1, 1, 1, 1⟩
      [lit "ab", lit "bc", lit "cd"]
      [lit "ab", lit "bd", lit "dc"] 3 3 = 2 := by
  have c0_0 : cell (ToLower sampleTables) ⟨0, 1, 1, 1, 1, 1, 1, 1, 1⟩
      [lit "ab", lit "bc", lit "cd"]
      [lit "ab", lit "bd", lit "dc"] 0 0 = 0 := by
    rw [cell_zero]; norm_num
  have c0_1 : cell (ToLower sampleTables) ⟨0, 1, 1, 1, 1, 1, 1, 1, 1⟩
      [lit "ab", lit "bc", lit "cd"]
      [lit "ab", lit "bd", lit "dc"] 0 1 = 1 := by
    rw [cell_zero]; norm_num
  have c0_2 : cell (ToLower sampleTables) ⟨0, 1, 1, 1, 1, 1, 1, 1, 1⟩
      [lit "ab", lit "bc", lit "cd"]
      [lit "ab", lit "bd", lit "dc"] 0 2 = 2 := by
    rw [cell_zero]; norm_num
  have c0_3 : cell (ToLower sampleTables) ⟨0, 1, 1, 1, 1, 1, 1, 1, 1⟩
      [lit "ab", lit "bc", lit "cd"]
      [lit "ab", lit "bd", lit "dc"] 0 3 = 3 := by
    rw [cell_zero]; norm_num
  have c1_0 : cell (ToLower sampleTables) ⟨0, 1, 1, 1, 1, 1, 1, 1, 1⟩
      [lit "ab", lit "bc", lit "cd"]
      [lit "ab", lit "bd", lit "dc"] 1 0 = 1 := by
    rw [cell_col_zero]; norm_num
  have c2_0 : cell (ToLower sampleTables) ⟨0, 1, 1, 1, 1, 1, 1, 1, 1⟩
      [lit "ab", lit "bc", lit "cd"]
      [lit "ab", lit "bd", lit "dc"] 2 0 = 2 := by
    rw [cell_col_zero]; norm_num
  have c3_0 : cell (ToLower sampleTables) ⟨0, 1, 1, 1, 1, 1, 1, 1, 1⟩
      [lit "ab", lit "bc", lit "cd"]
      [lit "ab", lit "bd", lit "dc"] 3 0 = 3 := by
    rw [cell_col_zero]; norm_num
  have c1_1 : cell (ToLower sampleTables) ⟨0, 1, 1, 1, 1, 1, 1, 1, 1⟩
      [lit "ab", lit "bc", lit "cd"]
      [lit "ab", lit "bd", lit "dc"] 1 1 = 0 := by
    show cell _ _ _ _ (0 + 1) (0 + 1) = _
    rw [cell_match _ _ _ _ _ _ (by decide), c0_0]
    norm_num
  have c1_2 : cell (ToLower sampleTables) ⟨0, 1, 1, 1, 1, 1, 1, 1, 1⟩
      [lit "ab", lit "bc", lit "cd"]
      [lit "ab", lit "bd", lit "dc"] 1 2 = 1 := by
    show cell _ _ _ _ (0 + 1) (1 + 1) = _
    rw [cell_mismatch _ _ _ _ _ _ (by decide) (by decide), c0_1, c0_2, c1_1]
    simp only [ite_self]
    norm_num
  have c1_3 : cell (ToLower sampleTables) ⟨0, 1, 1, 1, 1, 1, 1, 1, 1⟩
      [lit "ab", lit "bc", lit "cd"]
      [lit "ab", lit "bd", lit "dc"] 1 3 = 2 := by
    show cell _ _ _ _ (0 + 1) (2 + 1) = _
    rw [cell_mismatch _ _ _ _ _ _ (by decide) (by decide), c0_2, c0_3, c1_2]
    simp only [ite_self]
    norm_num
  have c2_1 : cell (ToLower sampleTables) ⟨0, 1, 1, 1, 1, 1, 1, 1, 1⟩
      [lit "ab", lit "bc", lit "cd"]
      [lit "ab", lit "bd", lit "dc"] 2 1 = 1 := by
    show cell _ _ _ _ (1 + 1) (0 + 1) = _
    rw [cell_mismatch _ _ _ _ _ _ (by decide) (by decide), c1_0, c1_1, c2_0]
    simp only [ite_self]
    norm_num
  have c2_2 : cell (ToLower sampleTables) ⟨0, 1, 1, 1, 1, 1, 1, 1, 1⟩
      [lit "ab", lit "bc", lit "cd"]
      [lit "ab", lit "bd", lit "dc"] 2 2 = 1 := by
    show cell _ _ _ _ (1 + 1) (1 + 1) = _
    rw [cell_mismatch _ _ _ _ _ _ (by decide) (by decide), c1_1, c1_2, c2_1]
    simp only [ite_self]
    norm_num
  have c2_3 : cell (ToLower sampleTables) ⟨0, 1, 1, 1, 1, 1, 1, 1, 1⟩
      [lit "ab", lit "bc", lit "cd"]
      [lit "ab", lit "bd", lit "dc"] 2 3 = 2 := by
    show cell _ _ _ _ (1 + 1) (2 + 1) = _
    rw [cell_mismatch _ _ _ _ _ _ (by decide) (by decide), c1_2, c1_3, c2_2]
    simp only [ite_self]
    norm_num
  have c3_1 : cell (ToLower sampleTables) ⟨0, 1, 1, 1, 1, 1, 1, 1, 1⟩
      [lit "ab", lit "bc", lit "cd"]
      [lit "ab", lit "bd", lit "dc"] 3 1 = 2 := by
    show cell _ _ _ _ (2 + 1) (0 + 1) = _
    rw [cell_mismatch _ _ _ _ _ _ (by decide) (by decide), c2_0, c2_1, c3_0]
    simp only [ite_self]
    norm_num
  have c3_2 : cell (ToLower sampleTables) ⟨0, 1, 1, 1, 1, 1, 1, 1, 1⟩
      [lit "ab", lit "bc", lit "cd"]
      [lit "ab", lit "bd", lit "dc"] 3 2 = 2 := by
    show cell _ _ _ _ (2 + 1) (1 + 1) = _
    rw [cell_mismatch _ _ _ _ _ _ (by decide) (by decide), c2_1, c2_2, c3_1]
    simp only [ite_self]
    norm_num
  have c3_3 : cell (ToLower sampleTables) ⟨0, 1, 1, 1, 1, 1, 1, 1, 1⟩
      [lit "ab", lit "bc", lit "cd"]
      [lit "ab", lit "bd", lit "dc"] 3 3 = 2 := by
    show cell _ _ _ _ (2 + 1) (2 + 1) = _
    rw [cell_mismatch _ _ _ _ _ _ (by decide) (by decide), c2_2, c2_3, c3_2]
    simp only [ite_self]
    norm_num
  exact c3_3

theorem FitnessFunction_single (U : UnicodeTables) (w : Weights) (n1 n2 : GoString) (d : ℚ)
    (h : SoftBisimDistance U n1 n2 w = some d) :
    FitnessFunction U [[n1, n2]] w =
      some ((0 + (1 - d / ((max (toRunes n1).length (toRunes n2).length : Nat) : ℚ))) /
        (([[n1, n2]] : List (List GoString)).length : ℚ)) := by
  have e : FitnessFunction U [[n1, n2]] w = ((fitnessStep U w 0 [n1, n2]).bind
      (fun t => some t)).bind (fun totalScore => some (totalScore /
        (([[n1, n2]] : List (List GoString)).length : ℚ))) := rfl
  rw [SoftBisimDistance_eq] at h
  rw [e, fitnessStep_pair, Option.some_bind, Option.some_bind, Option.some.inj h]

/-- C13: "Schwarz" and "Schwartz" are both detected as German and have the same normalized
form `shwrts`; under the balanced weights (`Match = 0`, every other cost `1`) their
distance is `0` and the similarity `1 - distance / 8`, as computed by `FitnessFunction`
on this one pair, is exactly `1`. -/
theorem C13_schwarz (U : UnicodeTables) :
    DetectLanguage U (lit "Schwarz") = "german" ∧
    DetectLanguage U (lit "Schwartz") = "german" ∧
    normalize U (lit "Schwarz") = lit "shwrts" ∧
    normalize U (lit "Schwartz") = lit "shwrts" ∧
    max (toRunes (lit "Schwarz")).length (toRunes (lit "Schwartz")).length = 8 ∧
    SoftBisimDistance U (lit "Schwarz") (lit "Schwartz") ⟨0, 1, 1, 1, 1, 1, 1, 1, 1⟩ = some 0 ∧
    FitnessFunction U [[lit "Schwarz", lit "Schwartz"]] ⟨0, 1, 1, 1, 1, 1, 1, 1, 1⟩ = some 1 := by
  have n1 : normalize U (lit "Schwarz") = lit "shwrts" := by rfl
  have n2 : normalize U (lit "Schwartz") = lit "shwrts" := by rfl
  have hd : SoftBisimDistance U (lit "Schwarz") (lit "Schwartz") ⟨0, 1, 1, 1, 1, 1, 1, 1, 1⟩ =
      some 0 := by
    rw [SoftBisimDistance_eq, n1, n2, cell_diag, mul_zero]
  refine ⟨by rfl, by rfl, n1, n2, by decide, hd, ?_⟩
  rw [FitnessFunction_single U _ _ _ 0 hd]
  have hl : max (toRunes (lit "Schwarz")).length (toRunes (lit "Schwartz")).length = 8 := by
    decide
  rw [hl]
  norm_num

/-- C14, as stated, fails: "Шварц" is detected as Russian, but under the balanced weights
its distance to "Swarz" is `5` and the similarity `1 - 5 / 5` is `0`, not above `1/2`. -/
theorem C14_counterexample :
    ∃ d, SoftBisimDistance sampleTables (lit "Шварц") (lit "Swarz")
        ⟨0, 1, 1, 1, 1, 1, 1, 1, 1⟩ = some d ∧
      max (toRunes (lit "Шварц")).length (toRunes (lit "Swarz")).length = 5 ∧
      ¬ (1 - d / 5 > 1 / 2) := by
  have h1 : bigramsOf (toRunes (normalize sampleTables (lit "Шварц"))) =
      [lit "sh", lit "hv", lit "vr", lit "rt", lit "ts"] := by decide
  have h2 : bigramsOf (toRunes (normalize sampleTables (lit "Swarz"))) =
      [lit "sw", lit "wr", lit "rz"] := by decide
  refine ⟨5, ?_, by decide, by norm_num⟩
  rw [SoftBisimDistance_eq, h1, h2]
  exact congrArg some cells_shvrts_swrz

/-- C14 (amended): "Шварц" is detected as Russian and transliterated to `shvarts`; its
normalized form is `shvrts`, that of "Swarz" is `swrz`; the two share no bigram, their
distance under the balanced weights is `5`, and the similarity computed by
`FitnessFunction` on this one pair is `0`. -/
theorem C14_cross_script :
    DetectLanguage sampleTables (lit "Шварц") = "russian" ∧
    TransliterateRussianToLatin sampleTables (lit "Шварц") = lit "shvarts" ∧
    normalize sampleTables (lit "Шварц") = lit "shvrts" ∧
    normalize sampleTables (lit "Swarz") = lit "swrz" ∧
    ComputeBigrams (lit "shvrts") = some [lit "sh", lit "hv", lit "vr", lit "rt", lit "ts"] ∧
    ComputeBigrams (lit "swrz") = some [lit "sw", lit "wr", lit "rz"] ∧
    SoftBisimDistance sampleTables (lit "Шварц") (lit "Swarz") ⟨0, 1, 1, 1, 1, 1, 1, 1, 1⟩ =
      some 5 ∧
    FitnessFunction sampleTables [[lit "Шварц", lit "Swarz"]] ⟨0, 1, 1, 1, 1, 1, 1, 1, 1⟩ =
      some 0 := by
  have h1 : bigramsOf (toRunes (normalize sampleTables (lit "Шварц"))) =
      [lit "sh", lit "hv", lit "vr", lit "rt", lit "ts"] := by decide
  have h2 : bigramsOf (toRunes (normalize sampleTables (lit "Swarz"))) =
      [lit "sw", lit "wr", lit "rz"] := by decide
  have hd : SoftBisimDistance sampleTables (lit "Шварц") (lit "Swarz")
      ⟨0, 1, 1, 1, 1, 1, 1, 1, 1⟩ = some 5 := by
    rw [SoftBisimDistance_eq, h1, h2]
    exact congrArg some cells_shvrts_swrz
  refine ⟨by decide, by decide, by decide, by decide, by decide, by decide, hd, ?_⟩
  rw [FitnessFunction_single sampleTables _ _ _ 5 hd]
  have hl : max (toRunes (lit "Шварц")).length (toRunes (lit "Swarz")).length = 5 := by
    decide
  rw [hl]
  norm_num

/-- C15, as stated, fails: with `Match = 0` and `Replace = Insert = Delete =
Transposition = 1` the distance between "abcd" and "abdc" is `2`, which is not below
`2`. -/
theorem C15_counterexample :
    ∃ d, SoftBisimDistance sampleTables (lit "abcd") (lit "abdc")
        ⟨0, 1, 1, 1, 1, 1, 1, 1, 1⟩ = some d ∧ ¬ (d < 2) := by
  have h1 : bigramsOf (toRunes (normalize sampleTables (lit "abcd"))) =
      [lit "ab", lit "bc", lit "cd"] := by decide
  have h2 : bigramsOf (toRunes (normalize sampleTables (lit "abdc"))) =
      [lit "ab", lit "bd", lit "dc"] := by decide
  refine ⟨2, ?_, by norm_num⟩
  rw [SoftBisimDistance_eq, h1, h2]
  exact congrArg some cells_abcd_abdc

/-- C15 (amended): the bigrams of "abcd" are `ab`, `bc`, `cd`, those of "abdc" are `ab`,
`bd`, `dc`; no cell of the matrix meets the adjacent-swap condition, and with `Match = 0`
and `Replace = Insert = Delete = Transposition = 1` the distance is `2`, the cost of two
substitutions. -/
theorem C15_transposed_letters :
    ComputeBigrams (normalize sampleTables (lit "abcd")) =
      some [lit "ab", lit "bc", lit "cd"] ∧
    ComputeBigrams (normalize sampleTables (lit "abdc")) =
      some [lit "ab", lit "bd", lit "dc"] ∧
    (∀ i j, ¬ (1 ≤ i ∧ 1 ≤ j ∧ i < 3 ∧ j < 3 ∧
      nth [lit "ab", lit "bc", lit "cd"] i = nth [lit "ab", lit "bd", lit "dc"] (j - 1) ∧
      nth [lit "ab", lit "bc", lit "cd"] (i - 1) = nth [lit "ab", lit "bd", lit "dc"] j)) ∧
    SoftBisimDistance sampleTables (lit "abcd") (lit "abdc") ⟨0, 1, 1, 1, 1, 1, 1, 1, 1⟩ =
      some (2 * (⟨0, 1, 1, 1, 1, 1, 1, 1, 1⟩ : Weights).Replace) := by
  have h1 : bigramsOf (toRunes (normalize sampleTables (lit "abcd"))) =
      [lit "ab", lit "bc", lit "cd"] := by decide
  have h2 : bigramsOf (toRunes (normalize sampleTables (lit "abdc"))) =
      [lit "ab", lit "bd", lit "dc"] := by decide
  refine ⟨by decide, by decide, ?_, ?_⟩
  · intro i j ⟨hi1, hj1, hi, hj, h⟩
    interval_cases i <;> interval_cases j <;> revert h <;> decide
  · rw [SoftBisimDistance_eq, h1, h2]
    simp only [List.length_cons, List.length_nil, Nat.zero_add, Nat.reduceAdd]
    rw [cells_abcd_abdc]
    norm_num

/-- C16: the code departs from the claim on a name detected as Hebrew:
"Bא" is normalized to `B`, which is an uppercase letter. -/
theorem C16_hebrew_uppercase :
    DetectLanguage sampleTables (lit "Bא") = "hebrew" ∧
    ApplyPhoneticTransform sampleTables (lit "Bא") = lit "Ba" ∧
    normalize sampleTables (lit "Bא") = lit "B" ∧
    sampleTables.toLower 0x42 ≠ 0x42 := by
  refine ⟨by decide, by decide, by decide, by decide⟩

/-- C17: the code departs from the claim on a string whose first code point is not
ASCII: "é" has one code point and two bytes, and `VowelReduction` returns the two code
points U+00C3, U+FFFD instead of the string itself; on "éb" it returns U+00C3, U+FFFD,
`b`, so the first code point is not kept. -/
theorem C17_first_byte :
    toRunes (lit "é") = [0xE9] ∧
    toRunes (VowelReduction (lit "é")) = [0xC3, 0xFFFD] ∧
    VowelReduction (lit "é") ≠ lit "é" ∧
    toRunes (lit "éb") = [0xE9, 0x62] ∧
    toRunes (VowelReduction (lit "éb")) = [0xC3, 0xFFFD, 0x62] := by
  refine ⟨by decide, by decide, by decide, by decide, by decide⟩

/-! ### Short names -/

/-- C18, as stated, fails: the name "ш" has one code point, yet its normalized form `sh`
yields the bigram `sh`, and with `Delete = 1` its distance to the empty name is `1`. -/
theorem C18_counterexample :
    (toRunes (lit "ш")).length = 1 ∧ (toRunes (lit "")).length = 0 ∧
    ComputeBigrams (normalize sampleTables (lit "ш")) = some [lit "sh"] ∧
    SoftBisimDistance sampleTables (lit "ш") (lit "") ⟨0, 1, 1, 1, 1, 1, 1, 1, 1⟩ = some 1 ∧
    (1 : ℚ) ≠ 0 := by
  have h1 : bigramsOf (toRunes (normalize sampleTables (lit "ш"))) = [lit "sh"] := by decide
  have h2 : bigramsOf (toRunes (normalize sampleTables (lit ""))) = [] := by decide
  refine ⟨by decide, by decide, by decide, ?_, by norm_num⟩
  rw [SoftBisimDistance_eq, h1, h2]
  simp only [List.length_cons, List.length_nil, Nat.zero_add]
  rw [cell_col_zero]
  norm_num

/-- C18 (amended): for every name whose normalized form has at most one code point the
pipeline produces an empty bigram sequence, and for every two such names
`SoftBisimDistance` is `0` for all weights. -/
theorem C18_short_normalized (U : UnicodeTables) (a b : GoString) (w : Weights)
    (ha : (toRunes (normalize U a)).length ≤ 1) (hb : (toRunes (normalize U b)).length ≤ 1) :
    ComputeBigrams (VowelReduction (ApplyPhoneticTransform U a)) = some [] ∧
    ComputeBigrams (VowelReduction (ApplyPhoneticTransform U b)) = some [] ∧
    SoftBisimDistance U a b w = some 0 := by
  have e : ∀ s, (toRunes (normalize U s)).length ≤ 1 →
      bigramsOf (toRunes (normalize U s)) = [] := by
    intro s hs
    have : (toRunes (normalize U s)).length - 1 = 0 := by omega
    simp [bigramsOf, this]
  refine ⟨?_, ?_, ?_⟩
  · have := ComputeBigrams_eq (normalize U a)
    rw [e a ha] at this
    exact this
  · have := ComputeBigrams_eq (normalize U b)
    rw [e b hb] at this
    exact this
  · rw [SoftBisimDistance_eq, e a ha, e b hb]
    simp [cell_zero]

theorem C18_short_normalized_witness :
    ComputeBigrams (VowelReduction (ApplyPhoneticTransform sampleTables (lit "a"))) = some [] ∧
    ComputeBigrams (VowelReduction (ApplyPhoneticTransform sampleTables (lit ""))) = some [] ∧
    SoftBisimDistance sampleTables (lit "a") (lit "") ⟨0, 1, 1, 1, 1, 1, 1, 1, 1⟩ = some 0 :=
  C18_short_normalized sampleTables (lit "a") (lit "") ⟨0, 1, 1, 1, 1, 1, 1, 1, 1⟩
    (by decide) (by decide)

/-! ### The generic transform -/

theorem Contains_singleton (x : Nat) : ∀ s : GoString, Contains s [x] = false ↔ x ∉ s := by
  intro s
  induction s with
  | nil => simp [Contains]
  | cons b rest ih =>
    rw [Contains, Bool.or_eq_false_iff, ih]
    simp only [List.isPrefixOf, Bool.and_true, List.mem_cons, not_or]
    constructor
    · intro ⟨h1, h2⟩
      exact ⟨by simpa using h1, h2⟩
    · intro ⟨h1, h2⟩
      exact ⟨by simpa using h1, h2⟩

theorem replaceScan_mem (k v : GoString) :
    ∀ (s : GoString) (n b : Nat), b ∈ replaceScan [(k, v)] s n → b ∈ s ∨ b ∈ v := by
  intro s
  induction s with
  | nil => intro n b h; simp [replaceScan] at h
  | cons c rest ih =>
    intro n b h
    cases n with
    | succ n =>
      rw [replaceScan] at h
      rcases ih n b h with h | h
      · exact Or.inl (List.mem_cons_of_mem _ h)
      · exact Or.inr h
    | zero =>
      by_cases hm : k.isPrefixOf (c :: rest) = true
      · rw [scan1_match k v c rest hm] at h
        rcases List.mem_append.mp h with h | h
        · exact Or.inr h
        · rcases ih _ b h with h | h
          · exact Or.inl (List.mem_cons_of_mem _ h)
          · exact Or.inr h
      · rw [scan1_nomatch k v c rest (Bool.eq_false_iff.mpr hm)] at h
        rcases List.mem_cons.mp h with h | h
        · exact Or.inl (h ▸ List.mem_cons_self _ _)
        · rcases ih _ b h with h | h
          · exact Or.inl (List.mem_cons_of_mem _ h)
          · exact Or.inr h

theorem replaceScan_remove (x : Nat) :
    ∀ (s : GoString), x ∉ replaceScan [([x], [])] s 0 := by
  intro s
  induction s with
  | nil => simp [replaceScan]
  | cons c rest ih =>
    by_cases hm : List.isPrefixOf [x] (c :: rest) = true
    · rw [scan1_match _ _ c rest hm]
      simpa using ih
    · rw [scan1_nomatch _ _ c rest (Bool.eq_false_iff.mpr hm)]
      intro h
      rcases List.mem_cons.mp h with h | h
      · apply hm
        simp [List.isPrefixOf, h]
      · exact ih h

theorem ReplaceAll_keeps_absent (x : Nat) (s old new : GoString) (hold : old ≠ [])
    (hs : x ∉ s) (hn : x ∉ new) : x ∉ ReplaceAll s old new := by
  unfold ReplaceAll
  rw [if_neg hold]
  intro h
  rcases replaceScan_mem old new s 0 x h with h | h
  · exact hs h
  · exact hn h

/-- C19, as stated, fails: `GenericPhoneticTransform` turns "ttt" into `tt`, which
contains the doubled letter `tt`. -/
theorem C19_counterexample :
    GenericPhoneticTransform sampleTables (lit "ttt") = lit "tt" ∧
    Contains (GenericPhoneticTransform sampleTables (lit "ttt")) (lit "tt") = true := by
  refine ⟨by decide, by decide⟩

theorem collapsePass_nil (y : Nat) : collapsePass y [] = [] := by
  simp [collapsePass, replaceScan]

theorem collapsePass_match (y : Nat) (rest : GoString) :
    collapsePass y (y :: y :: rest) = y :: collapsePass y rest := by
  unfold collapsePass
  rw [scan1_match _ _ _ _ (by simp [List.isPrefixOf])]
  simp only [List.length_cons, List.length_nil, Nat.zero_add, Nat.add_sub_cancel]
  rw [replaceScan]
  rfl

theorem collapsePass_copy (y c : Nat) (rest : GoString)
    (h : List.isPrefixOf [y, y] (c :: rest) = false) :
    collapsePass y (c :: rest) = c :: collapsePass y rest := by
  unfold collapsePass
  rw [scan1_nomatch _ _ _ _ h]

/-- The three shapes of a string under a pass: empty, a match at the head, a copied
byte. -/
theorem collapse_cases (y : Nat) (s : GoString) :
    s = [] ∨ (∃ rest, s = y :: y :: rest) ∨
    (∃ c rest, s = c :: rest ∧ List.isPrefixOf [y, y] (c :: rest) = false) := by
  cases s with
  | nil => exact Or.inl rfl
  | cons c rest =>
    by_cases h : List.isPrefixOf [y, y] (c :: rest) = true
    · right; left
      cases rest with
      | nil => simp [List.isPrefixOf] at h
      | cons c2 rest =>
        simp only [List.isPrefixOf, Bool.and_true, Bool.and_eq_true, beq_iff_eq] at h
        exact ⟨rest, by rw [← h.1, ← h.2]⟩
    · right; right
      exact ⟨c, rest, rfl, Bool.eq_false_iff.mpr h⟩

theorem Contains_cons (c : Nat) (rest p : GoString) :
    Contains (c :: rest) p = (p.isPrefixOf (c :: rest) || Contains rest p) := by
  rw [Contains]

theorem Contains_of_tail (c : Nat) (rest p : GoString) (h : Contains rest p = true) :
    Contains (c :: rest) p = true := by
  rw [Contains_cons, h, Bool.or_true]

/-- A pass for `y` does not bring a run of another letter `x` to the head. -/
theorem collapsePass_prefix_other (x y : Nat) (hxy : x ≠ y) :
    ∀ (k : Nat) (s : GoString),
      (List.replicate k x).isPrefixOf (collapsePass y s) = true →
      (List.replicate k x).isPrefixOf s = true := by
  intro k
  induction k with
  | zero => intro s _; simp [List.isPrefixOf]
  | succ k ih =>
    intro s h
    rcases collapse_cases y s with rfl | ⟨rest, rfl⟩ | ⟨c, rest, rfl, hc⟩
    · rw [collapsePass_nil] at h
      simp [List.replicate, List.isPrefixOf] at h
    · rw [collapsePass_match] at h
      simp only [List.replicate, List.isPrefixOf, Bool.and_eq_true, beq_iff_eq] at h
      exact absurd h.1 hxy
    · rw [collapsePass_copy y c rest hc] at h
      simp only [List.replicate, List.isPrefixOf, Bool.and_eq_true, beq_iff_eq] at h ⊢
      exact ⟨h.1, ih rest h.2⟩

/-- A pass for `y` creates no run of another letter `x`. -/
theorem collapsePass_other (x y : Nat) (hxy : x ≠ y) (k : Nat) (hk : 1 ≤ k) :
    ∀ (n : Nat) (s : GoString), s.length ≤ n →
      Contains (collapsePass y s) (List.replicate k x) = true →
      Contains s (List.replicate k x) = true := by
  obtain ⟨k', rfl⟩ : ∃ k', k = k' + 1 := ⟨k - 1, by omega⟩
  intro n
  induction n with
  | zero =>
    intro s hs h
    have : s = [] := List.length_eq_zero.mp (by omega)
    subst this
    rw [collapsePass_nil] at h
    exact h
  | succ n ih =>
    intro s hs h
    rcases collapse_cases y s with rfl | ⟨rest, rfl⟩ | ⟨c, rest, rfl, hc⟩
    · rw [collapsePass_nil] at h
      exact h
    · rw [collapsePass_match, Contains_cons, Bool.or_eq_true] at h
      rcases h with h | h
      · simp only [List.replicate, List.isPrefixOf, Bool.and_eq_true, beq_iff_eq] at h
        exact absurd h.1 hxy
      · apply Contains_of_tail
        apply Contains_of_tail
        exact ih rest (by simp only [List.length_cons] at hs; omega) h
    · rw [collapsePass_copy y c rest hc, Contains_cons, Bool.or_eq_true] at h
      rw [Contains_cons, Bool.or_eq_true]
      rcases h with h | h
      · left
        simp only [List.replicate, List.isPrefixOf, Bool.and_eq_true, beq_iff_eq] at h ⊢
        exact ⟨h.1, collapsePass_prefix_other x y hxy k' rest h.2⟩
      · right
        exact ih rest (by simp only [List.length_cons] at hs; omega) h

/-- When the output of the pass for `x` starts with `x`, so does its input. -/
theorem collapsePass_head_same (x : Nat) (s : GoString)
    (h : List.isPrefixOf [x] (collapsePass x s) = true) : List.isPrefixOf [x] s = true := by
  rcases collapse_cases x s with rfl | ⟨rest, rfl⟩ | ⟨c, rest, rfl, hc⟩
  · rw [collapsePass_nil] at h
    exact h
  · simp [List.isPrefixOf]
  · rw [collapsePass_copy x c rest hc] at h
    simp only [List.isPrefixOf, Bool.and_true, beq_iff_eq] at h ⊢
    exact h

/-- After the pass for `x`, `xx` remains only where `xxx` stood. -/
theorem collapsePass_same (x : Nat) :
    ∀ (n : Nat) (s : GoString), s.length ≤ n →
      Contains (collapsePass x s) [x, x] = true → Contains s [x, x, x] = true := by
  intro n
  induction n with
  | zero =>
    intro s hs h
    have : s = [] := List.length_eq_zero.mp (by omega)
    subst this
    rw [collapsePass_nil] at h
    simp [Contains] at h
  | succ n ih =>
    intro s hs h
    rcases collapse_cases x s with rfl | ⟨rest, rfl⟩ | ⟨c, rest, rfl, hc⟩
    · rw [collapsePass_nil] at h
      simp [Contains] at h
    · rw [collapsePass_match, Contains_cons, Bool.or_eq_true] at h
      rcases h with h | h
      · have h' : List.isPrefixOf [x] (collapsePass x rest) = true := by
          cases hr : collapsePass x rest with
          | nil => rw [hr] at h; simp [List.isPrefixOf] at h
          | cons d t =>
            rw [hr] at h
            simp only [List.isPrefixOf, Bool.and_true, Bool.and_eq_true, beq_iff_eq] at h ⊢
            exact h.2
        have h2 := collapsePass_head_same x rest h'
        rw [Contains_cons, Bool.or_eq_true]
        left
        cases rest with
        | nil => simp [List.isPrefixOf] at h2
        | cons d t =>
          simp only [List.isPrefixOf, Bool.and_true, beq_iff_eq] at h2
          simp [List.isPrefixOf, h2]
      · apply Contains_of_tail
        apply Contains_of_tail
        exact ih rest (by simp only [List.length_cons] at hs; omega) h
    · rw [collapsePass_copy x c rest hc, Contains_cons, Bool.or_eq_true] at h
      rcases h with h | h
      · exfalso
        have h' : c = x ∧ List.isPrefixOf [x] (collapsePass x rest) = true := by
          cases hr : collapsePass x rest with
          | nil => rw [hr] at h; simp [List.isPrefixOf] at h
          | cons d t =>
            rw [hr] at h
            simp only [List.isPrefixOf, Bool.and_true, Bool.and_eq_true, beq_iff_eq] at h ⊢
            exact ⟨h.1.symm, h.2⟩
        have h2 := collapsePass_head_same x rest h'.2
        cases rest with
        | nil => simp [List.isPrefixOf] at h2
        | cons d t =>
          simp only [List.isPrefixOf, Bool.and_true, beq_iff_eq] at h2
          rw [h'.1, ← h2] at hc
          simp [List.isPrefixOf] at hc
      · apply Contains_of_tail
        exact ih rest (by simp only [List.length_cons] at hs; omega) h

theorem collapseAll_other (x : Nat) (k : Nat) (hk : 1 ≤ k) :
    ∀ (ys : List Nat) (s : GoString), x ∉ ys →
      Contains (collapseAll ys s) (List.replicate k x) = true →
      Contains s (List.replicate k x) = true := by
  intro ys
  induction ys with
  | nil => intro s _ h; exact h
  | cons y ys ih =>
    intro s hx h
    have h1 := ih (collapsePass y s) (fun hm => hx (List.mem_cons_of_mem _ hm)) h
    exact collapsePass_other x y (fun e => hx (e ▸ List.mem_cons_self _ _)) k hk _ s
      (le_refl _) h1

theorem collapseAll_same (x : Nat) :
    ∀ (ys : List Nat) (s : GoString), x ∈ ys → ys.Nodup →
      Contains (collapseAll ys s) [x, x] = true → Contains s [x, x, x] = true := by
  intro ys
  induction ys with
  | nil => intro s hx; exact absurd hx (List.not_mem_nil _)
  | cons y ys ih =>
    intro s hx hnd h
    rw [List.nodup_cons] at hnd
    by_cases hxy : x = y
    · subst hxy
      have h1 := collapseAll_other x 2 (by decide) ys (collapsePass x s) hnd.1 h
      exact collapsePass_same x _ s (le_refl _) h1
    · have hx' : x ∈ ys := by
        rcases List.mem_cons.mp hx with e | e
        · exact absurd e hxy
        · exact e
      have h1 := ih (collapsePass y s) hx' hnd.2 h
      exact collapsePass_other x y hxy 3 (by decide) _ s (le_refl _) h1

theorem collapse_loop_eq (t : GoString) :
    [lit "tt", lit "ll", lit "ss", lit "pp", lit "rr", lit "mm"].foldl
      (fun s ch => ReplaceAll s ch (encodeRune (ch.headD 0))) t =
    collapseAll [0x74, 0x6C, 0x73, 0x70, 0x72, 0x6D] t := by
  rfl

/-- C19 (amended): for every input string, the output of `GenericPhoneticTransform`
contains no `h`; and for each of the letters `t`, `l`, `s`, `p`, `r`, `m` the output
contains the doubled letter only if the string reached before the collapse loop
(lower-cased, digraphs rewritten, `h` removed) contains that letter three times in a
row. -/
theorem C19_collapse (U : UnicodeTables) (s : GoString) :
    Contains (GenericPhoneticTransform U s) (lit "h") = false ∧
    GenericPhoneticTransform U s =
      [lit "tt", lit "ll", lit "ss", lit "pp", lit "rr", lit "mm"].foldl
        (fun s ch => ReplaceAll s ch (encodeRune (ch.headD 0))) (genericBeforeCollapse U s) ∧
    ∀ x ∈ [0x74, 0x6C, 0x73, 0x70, 0x72, 0x6D],
      Contains (GenericPhoneticTransform U s) [x, x] = true →
      Contains (genericBeforeCollapse U s) [x, x, x] = true := by
  have hG : GenericPhoneticTransform U s =
      [lit "tt", lit "ll", lit "ss", lit "pp", lit "rr", lit "mm"].foldl
        (fun s ch => ReplaceAll s ch (encodeRune (ch.headD 0))) (genericBeforeCollapse U s) :=
    rfl
  refine ⟨?_, hG, ?_⟩
  · have hl : lit "h" = [0x68] := by decide
    rw [hl, Contains_singleton]
    have key : ∀ (l : List GoString) (t : GoString),
        (∀ ch ∈ l, ch ≠ [] ∧ (0x68 : Nat) ∉ encodeRune (ch.headD 0)) → (0x68 : Nat) ∉ t →
        (0x68 : Nat) ∉ l.foldl (fun s ch => ReplaceAll s ch (encodeRune (ch.headD 0))) t := by
      intro l
      induction l with
      | nil => intro t _ ht; exact ht
      | cons ch l ih =>
        intro t hl ht
        rw [List.foldl_cons]
        apply ih _ (fun c hc => hl c (List.mem_cons_of_mem _ hc))
        exact ReplaceAll_keeps_absent _ _ _ _ (hl ch (List.mem_cons_self _ _)).1 ht
          (hl ch (List.mem_cons_self _ _)).2
    rw [hG]
    apply key
    · decide
    · exact replaceScan_remove _ _
  · intro x hx h
    rw [hG, collapse_loop_eq] at h
    exact collapseAll_same x _ _ hx (by decide) h

/-! ### Determinism of the transliteration -/

theorem ApplyPhoneticTransformIn_perm (r h : List (GoString × GoString))
    (hr : r.Perm cyrillicToLatin) (hh : h.Perm hebrewToLatin) (U : UnicodeTables)
    (name : GoString) :
    ApplyPhoneticTransformIn r h U name = ApplyPhoneticTransform U name := by
  unfold ApplyPhoneticTransformIn ApplyPhoneticTransform
  rw [TransliterateRussianToLatinIn_perm r hr, TransliterateHebrewToLatinIn_perm h hh]

/-- C20: for every input string and all orders of visit of the two transliteration maps
(permutations of the tables), `TransliterateRussianToLatin` and
`TransliterateHebrewToLatin` give the same result; hence `ApplyPhoneticTransform` and
`SoftBisimDistance` do not depend on the orders chosen for either name. -/
theorem C20_determinism (r1 h1 r2 h2 : List (GoString × GoString))
    (hr1 : r1.Perm cyrillicToLatin) (hh1 : h1.Perm hebrewToLatin)
    (hr2 : r2.Perm cyrillicToLatin) (hh2 : h2.Perm hebrewToLatin)
    (U : UnicodeTables) (s1 s2 : GoString) (w : Weights) :
    TransliterateRussianToLatinIn r1 U s1 = TransliterateRussianToLatinIn r2 U s1 ∧
    TransliterateHebrewToLatinIn h1 s1 = TransliterateHebrewToLatinIn h2 s1 ∧
    ApplyPhoneticTransformIn r1 h1 U s1 = ApplyPhoneticTransformIn r2 h2 U s1 ∧
    SoftBisimDistanceIn r1 h1 r2 h2 U s1 s2 w = SoftBisimDistance U s1 s2 w := by
  refine ⟨?_, ?_, ?_, ?_⟩
  · rw [TransliterateRussianToLatinIn_perm r1 hr1, TransliterateRussianToLatinIn_perm r2 hr2]
  · rw [TransliterateHebrewToLatinIn_perm h1 hh1, TransliterateHebrewToLatinIn_perm h2 hh2]
  · rw [ApplyPhoneticTransformIn_perm r1 h1 hr1 hh1, ApplyPhoneticTransformIn_perm r2 h2 hr2 hh2]
  · unfold SoftBisimDistanceIn SoftBisimDistance
    rw [ApplyPhoneticTransformIn_perm r1 h1 hr1 hh1, ApplyPhoneticTransformIn_perm r2 h2 hr2 hh2]

theorem C20_determinism_witness :
    TransliterateRussianToLatinIn cyrillicToLatin.reverse sampleTables (lit "Шварц") =
      TransliterateRussianToLatinIn cyrillicToLatin sampleTables (lit "Шварц") ∧
    TransliterateHebrewToLatinIn hebrewToLatin.reverse (lit "Шварц") =
      TransliterateHebrewToLatinIn hebrewToLatin (lit "Шварц") ∧
    ApplyPhoneticTransformIn cyrillicToLatin.reverse hebrewToLatin.reverse sampleTables
        (lit "Шварц") =
      ApplyPhoneticTransformIn cyrillicToLatin hebrewToLatin sampleTables (lit "Шварц") ∧
    SoftBisimDistanceIn cyrillicToLatin.reverse hebrewToLatin.reverse cyrillicToLatin
        hebrewToLatin sampleTables (lit "Шварц") (lit "Swarz") ⟨0, 1, 1, 1, 1, 1, 1, 1, 1⟩ =
      SoftBisimDistance sampleTables (lit "Шварц") (lit "Swarz") ⟨0, 1, 1, 1, 1, 1, 1, 1, 1⟩ :=
  C20_determinism cyrillicToLatin.reverse hebrewToLatin.reverse cyrillicToLatin hebrewToLatin
    (List.reverse_perm _) (List.reverse_perm _) (List.Perm.refl _) (List.Perm.refl _)
    sampleTables (lit "Шварц") (lit "Swarz") ⟨0, 1, 1, 1, 1, 1, 1, 1, 1⟩

/-! ### The optimizer -/

theorem forLoop_append {σ : Type} (body : Nat → σ → Option σ) :
    ∀ (a b lo : Nat) (s : σ),
      forLoop body lo (a + b) s = (forLoop body lo a s).bind (forLoop body (lo + a) b) := by
  intro a
  induction a with
  | zero => intro b lo s; simp [forLoop]
  | succ a ih =>
    intro b lo s
    have e : a + 1 + b = (a + b) + 1 := by omega
    rw [e, forLoop, forLoop]
    cases h : body lo s with
    | none => rfl
    | some t =>
      simp only [Option.some_bind]
      rw [ih b (lo + 1) t]
      have e2 : lo + 1 + a = lo + (a + 1) := by omega
      rw [e2]

theorem forLoop_one {σ : Type} (body : Nat → σ → Option σ) (lo : Nat) (s : σ) :
    forLoop body lo 1 s = body lo s := by
  rw [forLoop]
  cases body lo s with
  | none => rfl
  | some t => rfl

theorem fitnessLoop_total (U : UnicodeTables) (w : Weights) :
    ∀ (data : List (List GoString)) (acc : ℚ), (∀ pair ∈ data, 2 ≤ pair.length) →
      ∃ t, data.foldlM (fitnessStep U w) acc = some t := by
  intro data
  induction data with
  | nil => intro acc _; exact ⟨acc, rfl⟩
  | cons pair data ih =>
    intro acc h
    have hp := h pair (List.mem_cons_self _ _)
    obtain ⟨n1, n2, rest, rfl⟩ : ∃ n1 n2 rest, pair = n1 :: n2 :: rest := by
      match pair, hp with
      | n1 :: n2 :: rest, _ => exact ⟨n1, n2, rest, rfl⟩
    have hs : ∃ t, fitnessStep U w acc (n1 :: n2 :: rest) = some t := by
      simp only [fitnessStep, List.getElem?_cons_zero, List.getElem?_cons_succ,
        Option.some_bind, SoftBisimDistance_eq, Option.bind_eq_bind]
      exact ⟨_, rfl⟩
    obtain ⟨t, ht⟩ := hs
    obtain ⟨t', ht'⟩ := ih t (fun q hq => h q (List.mem_cons_of_mem _ hq))
    refine ⟨t', ?_⟩
    rw [List.foldlM_cons, ht]
    exact ht'

theorem fitnessLoop_panics (U : UnicodeTables) (w : Weights) :
    ∀ (data : List (List GoString)) (acc : ℚ), (∃ pair ∈ data, pair.length < 2) →
      data.foldlM (fitnessStep U w) acc = none := by
  intro data
  induction data with
  | nil => intro acc ⟨p, hp, _⟩; exact absurd hp (List.not_mem_nil _)
  | cons pair data ih =>
    intro acc h
    rw [List.foldlM_cons]
    by_cases hp : pair.length < 2
    · have : fitnessStep U w acc pair = none := by
        match pair, hp with
        | [], _ => rfl
        | [n1], _ => rfl
      rw [this]; rfl
    · cases hs : fitnessStep U w acc pair with
      | none => rfl
      | some t =>
        obtain ⟨p, hpm, hpl⟩ := h
        rcases List.mem_cons.mp hpm with e | e
        · exact absurd (e ▸ hpl) hp
        · exact ih t ⟨p, e, hpl⟩

theorem FitnessFunction_total (U : UnicodeTables) (w : Weights) (data : List (List GoString))
    (h : ∀ pair ∈ data, 2 ≤ pair.length) : ∃ f, FitnessFunction U data w = some f := by
  obtain ⟨t, ht⟩ := fitnessLoop_total U w data 0 h
  have e : FitnessFunction U data w = (data.foldlM (fitnessStep U w) 0).bind
      (fun totalScore => some (totalScore / (data.length : ℚ))) := rfl
  exact ⟨_, by rw [e, ht]; rfl⟩

theorem FitnessFunction_panics (U : UnicodeTables) (w : Weights) (data : List (List GoString))
    (h : ∃ pair ∈ data, pair.length < 2) : FitnessFunction U data w = none := by
  have e : FitnessFunction U data w = (data.foldlM (fitnessStep U w) 0).bind
      (fun totalScore => some (totalScore / (data.length : ℚ))) := rfl
  rw [e, fitnessLoop_panics U w data 0 h]; rfl

theorem initPopulation_spec (rnd : Nat → ℚ) (populationSize : Int) (h : 0 ≤ populationSize) :
    ∃ pop next, initPopulation rnd populationSize = some (pop, next) ∧
      pop.length = populationSize.toNat := by
  unfold initPopulation
  rw [if_neg (by omega)]
  obtain ⟨st, h1, h2⟩ := forLoop_inv
    (fun i (st : List Weights × Nat) =>
      if i < st.1.length then some (st.1.set i (randWeights rnd st.2), st.2 + 9) else none)
    (fun _ st => st.1.length = populationSize.toNat) populationSize.toNat 0
    (List.replicate populationSize.toNat zeroWeights, 0) (by simp)
    (by
      intro i t _ hi ht
      refine ⟨(t.1.set i (randWeights rnd t.2), t.2 + 9), ?_, ?_⟩
      · simp only []
        rw [if_pos (by omega)]
      · simpa using ht)
  exact ⟨st.1, st.2, h1, h2⟩

theorem gaStep_spec (U : UnicodeTables) (rnd : Nat → ℚ) (data : List (List GoString))
    (hd : ∀ pair ∈ data, 2 ≤ pair.length) (P i : Nat) (hi : i < P) (st : GAState)
    (hinv : GAInv U data P st) :
    ∃ (st' : GAState) (c : Weights) (f : ℚ),
      st.population[i]? = some c ∧ FitnessFunction U data c = some f ∧
      gaStep U rnd data i st = some st' ∧ GAInv U data P st' ∧
      st.bestScore ≤ st'.bestScore ∧ f ≤ st'.bestScore := by
  obtain ⟨hlen, hbest⟩ := hinv
  have hi' : i < st.population.length := by omega
  have hc : st.population[i]? = some st.population[i] := List.getElem?_eq_getElem hi'
  obtain ⟨f, hf⟩ := FitnessFunction_total U st.population[i] data hd
  have hbs : st.bestScore ≤ (if f > st.bestScore then f else st.bestScore) := by
    split
    · rename_i h; exact le_of_lt h
    · exact le_refl _
  have hfs : f ≤ (if f > st.bestScore then f else st.bestScore) := by
    split
    · exact le_refl _
    · rename_i h; exact not_lt.mp h
  have hfit : FitnessFunction U data
      (if f > st.bestScore then st.population[i] else st.bestWeights) =
      some (if f > st.bestScore then f else st.bestScore) := by
    split
    · exact hf
    · exact hbest
  by_cases hm : rnd st.next < 1 / 10
  · refine ⟨⟨st.population.set i (randWeights rnd (st.next + 1)),
      if f > st.bestScore then st.population[i] else st.bestWeights,
      if f > st.bestScore then f else st.bestScore, st.next + 10⟩, st.population[i], f,
      hc, hf, ?_, ⟨by simpa using hlen, hfit⟩, hbs, hfs⟩
    simp only [gaStep, hc, hf, Option.bind_eq_bind, Option.some_bind, if_pos hm, if_pos hi']
  · refine ⟨⟨st.population, if f > st.bestScore then st.population[i] else st.bestWeights,
      if f > st.bestScore then f else st.bestScore, st.next + 1⟩, st.population[i], f,
      hc, hf, ?_, ⟨hlen, hfit⟩, hbs, hfs⟩
    simp only [gaStep, hc, hf, Option.bind_eq_bind, Option.some_bind, if_neg hm]

theorem gaSteps_spec (U : UnicodeTables) (rnd : Nat → ℚ) (data : List (List GoString))
    (hd : ∀ pair ∈ data, 2 ≤ pair.length) (P lo n : Nat) (hn : lo + n ≤ P) (st : GAState)
    (hinv : GAInv U data P st) :
    ∃ st', forLoop (gaStep U rnd data) lo n st = some st' ∧ GAInv U data P st' ∧
      st.bestScore ≤ st'.bestScore := by
  obtain ⟨st', h1, h2, h3⟩ := forLoop_inv (gaStep U rnd data)
    (fun _ s => GAInv U data P s ∧ st.bestScore ≤ s.bestScore) n lo st ⟨hinv, le_refl _⟩
    (by
      intro i t _ hi ⟨ht, hb⟩
      obtain ⟨t', _, _, _, _, g1, g2, g3, _⟩ := gaStep_spec U rnd data hd P i (by omega) t ht
      exact ⟨t', g1, g2, le_trans hb g3⟩)
  exact ⟨st', h1, h2, h3⟩

theorem gaGenerations_spec (U : UnicodeTables) (rnd : Nat → ℚ) (data : List (List GoString))
    (hd : ∀ pair ∈ data, 2 ≤ pair.length) (populationSize : Int) (lo n : Nat) (st : GAState)
    (hinv : GAInv U data populationSize.toNat st) :
    ∃ st', forLoop (fun _ s => gaGeneration U rnd data populationSize s) lo n st = some st' ∧
      GAInv U data populationSize.toNat st' ∧ st.bestScore ≤ st'.bestScore := by
  obtain ⟨st', h1, h2, h3⟩ := forLoop_inv
    (fun _ s => gaGeneration U rnd data populationSize s)
    (fun _ s => GAInv U data populationSize.toNat s ∧ st.bestScore ≤ s.bestScore) n lo st
    ⟨hinv, le_refl _⟩
    (by
      intro i t _ _ ⟨ht, hb⟩
      obtain ⟨t', g1, g2, g3⟩ := gaSteps_spec U rnd data hd populationSize.toNat 0
        populationSize.toNat (by omega) t ht
      exact ⟨t', g1, g2, le_trans hb g3⟩)
  exact ⟨st', h1, h2, h3⟩

theorem gaInit_spec (U : UnicodeTables) (rnd : Nat → ℚ) (data : List (List GoString))
    (hd : ∀ pair ∈ data, 2 ≤ pair.length) (populationSize : Int) (hP : 1 ≤ populationSize) :
    ∃ (st0 : GAState) (w0 : Weights) (f0 : ℚ),
      gaInit U rnd data populationSize = some st0 ∧ st0.population[0]? = some w0 ∧
      FitnessFunction U data w0 = some f0 ∧ st0.bestScore = f0 ∧
      GAInv U data populationSize.toNat st0 := by
  obtain ⟨pop, next, h1, h2⟩ := initPopulation_spec rnd populationSize (by omega)
  have h0 : 0 < pop.length := by omega
  have hc : pop[0]? = some pop[0] := List.getElem?_eq_getElem h0
  obtain ⟨f, hf⟩ := FitnessFunction_total U pop[0] data hd
  refine ⟨⟨pop, pop[0], f, next⟩, pop[0], f, ?_, hc, hf, rfl, ⟨h2, hf⟩⟩
  simp only [gaInit, h1, hc, hf, Option.bind_eq_bind, Option.some_bind]

theorem gaInit_panics (U : UnicodeTables) (rnd : Nat → ℚ) (data : List (List GoString))
    (hd : ∃ pair ∈ data, pair.length < 2) (populationSize : Int) :
    gaInit U rnd data populationSize = none := by
  unfold gaInit
  cases h1 : initPopulation rnd populationSize with
  | none => rfl
  | some r =>
    obtain ⟨pop, next⟩ := r
    simp only [Option.bind_eq_bind, Option.some_bind]
    cases h2 : pop[0]? with
    | none => rfl
    | some w =>
      simp only [Option.some_bind]
      rw [FitnessFunction_panics U w data hd]
      rfl

/-- C11, as stated, fails: on the training set whose only entry holds the single name
"Swarz", with `populationSize = 1`, `GeneticAlgorithm` fails at the read `pair[1]` of the
first fitness evaluation and returns no weights; on the empty training set the fitness is
the quotient of the total `0` by `len(data) = 0`, and on a pair of two empty names the
similarity is `1` less the quotient of the distance `0` by the length `0`, so that no
fitness is a number there. -/
theorem C11_counterexample :
    GeneticAlgorithm sampleTables (fun _ => 1 / 2) [[lit "Swarz"]] 1 1 = none ∧
    (List.foldlM (fitnessStep sampleTables ⟨0, 1, 1, 1, 1, 1, 1, 1, 1⟩) 0
        ([] : List (List GoString)) = some 0 ∧
      (([] : List (List GoString)).length : ℚ) = 0) ∧
    (SoftBisimDistance sampleTables (lit "") (lit "") ⟨0, 1, 1, 1, 1, 1, 1, 1, 1⟩ = some 0 ∧
      ((max (toRunes (lit "")).length (toRunes (lit "")).length : Nat) : ℚ) = 0) := by
  refine ⟨?_, ⟨rfl, by simp⟩, ⟨?_, by simp [lit, fromRunes, toRunes, toRunesAux]⟩⟩
  · simp only [GeneticAlgorithm, gaInit_panics sampleTables (fun _ => 1 / 2) [[lit "Swarz"]]
      ⟨_, List.mem_singleton.mpr rfl, by decide⟩ 1, Option.bind_eq_bind, Option.none_bind]
  · have h : bigramsOf (toRunes (normalize sampleTables (lit ""))) = [] := by decide
    rw [SoftBisimDistance_eq, h]
    simp [cell_zero]

/-- C11 (amended): for every non-empty training set whose entries all hold two names, not
both empty (so that no fitness is a quotient by zero), every iteration count and every
population size at least `1`, with the random source any sequence of draws:
`GeneticAlgorithm` returns weights `best` whose fitness `fbest` is at least the fitness of
the initial `population[0]`; and at every candidate evaluation (generation `it`,
candidate `i`) the recorded best score does not decrease, stays the fitness of the
recorded best weights, and the fitness of the evaluated candidate is at most the recorded
best score, which is at most `fbest`. -/
theorem C11_best_ever (U : UnicodeTables) (rnd : Nat → ℚ) (data : List (List GoString))
    (iterations populationSize : Int) (hP : 1 ≤ populationSize) (hne : data ≠ [])
    (hp : ∀ pair ∈ data, ∃ n1 n2, pair = [n1, n2] ∧ (n1 ≠ [] ∨ n2 ≠ [])) :
    (data.length : ℚ) ≠ 0 ∧
    (∀ pair ∈ data, ∃ n1 n2, pair = [n1, n2] ∧
      ((max (toRunes n1).length (toRunes n2).length : Nat) : ℚ) ≠ 0) ∧
    ∃ (st0 : GAState) (w0 best : Weights) (f0 fbest : ℚ),
      gaInit U rnd data populationSize = some st0 ∧ st0.population[0]? = some w0 ∧
      FitnessFunction U data w0 = some f0 ∧
      GeneticAlgorithm U rnd data iterations populationSize = some best ∧
      FitnessFunction U data best = some fbest ∧ f0 ≤ fbest ∧
      ∀ it i, it < iterations.toNat → i < populationSize.toNat →
        ∃ (s s' : GAState) (c : Weights) (f : ℚ),
          gaAt U rnd data populationSize it i = some s ∧
          gaAt U rnd data populationSize it (i + 1) = some s' ∧
          s.population[i]? = some c ∧ FitnessFunction U data c = some f ∧
          FitnessFunction U data s'.bestWeights = some s'.bestScore ∧
          s.bestScore ≤ s'.bestScore ∧ f ≤ s'.bestScore ∧ s'.bestScore ≤ fbest := by
  have hlen : (data.length : ℚ) ≠ 0 := by
    have : 0 < data.length := List.length_pos.mpr hne
    exact_mod_cast this.ne'
  have hmax : ∀ pair ∈ data, ∃ n1 n2, pair = [n1, n2] ∧
      ((max (toRunes n1).length (toRunes n2).length : Nat) : ℚ) ≠ 0 := by
    intro pair hm
    obtain ⟨n1, n2, e, hn⟩ := hp pair hm
    refine ⟨n1, n2, e, ?_⟩
    have : 0 < max (toRunes n1).length (toRunes n2).length := by
      rcases hn with h1 | h2
      · exact lt_of_lt_of_le (List.length_pos.mpr (toRunes_ne_nil h1)) (le_max_left _ _)
      · exact lt_of_lt_of_le (List.length_pos.mpr (toRunes_ne_nil h2)) (le_max_right _ _)
    exact_mod_cast this.ne'
  have hd : ∀ pair ∈ data, 2 ≤ pair.length := by
    intro pair hm
    obtain ⟨n1, n2, e, _⟩ := hp pair hm
    rw [e]
    exact le_refl _
  obtain ⟨st0, w0, f0, h0, hw0, hf0, hb0, hinv0⟩ := gaInit_spec U rnd data hd populationSize hP
  obtain ⟨fin, hfin, hinvfin, hmono⟩ := gaGenerations_spec U rnd data hd populationSize 0
    iterations.toNat st0 hinv0
  have hGA : GeneticAlgorithm U rnd data iterations populationSize = some fin.bestWeights := by
    simp only [GeneticAlgorithm, h0, hfin, Option.bind_eq_bind, Option.some_bind]
  refine ⟨hlen, hmax, st0, w0, fin.bestWeights, f0, fin.bestScore, h0, hw0, hf0, hGA,
    hinvfin.2, by rw [← hb0]; exact hmono, ?_⟩
  intro it i hit hi
  -- the state after `it` generations
  obtain ⟨sg, hsg, hinvg, _⟩ := gaGenerations_spec U rnd data hd populationSize 0 it st0 hinv0
  -- the first `i` candidates of the next generation
  obtain ⟨s, hs, hinvs, _⟩ := gaSteps_spec U rnd data hd populationSize.toNat 0 i
    (by omega) sg hinvg
  -- the evaluation of candidate `i`
  obtain ⟨s', c, f, hc, hf, hstep, hinvs', hle, hfle⟩ :=
    gaStep_spec U rnd data hd populationSize.toNat i hi s hinvs
  -- the rest of the generation
  obtain ⟨se, hse, hinve, hle2⟩ := gaSteps_spec U rnd data hd populationSize.toNat (i + 1)
    (populationSize.toNat - (i + 1)) (by omega) s' hinvs'
  -- the remaining generations
  obtain ⟨sf, hsf, _, hle3⟩ := gaGenerations_spec U rnd data hd populationSize (it + 1)
    (iterations.toNat - (it + 1)) se hinve
  have hsteps : forLoop (gaStep U rnd data) 0 (i + 1) sg = some s' := by
    rw [forLoop_append, hs, Option.some_bind, Nat.zero_add, forLoop_one, hstep]
  have hgen : gaGeneration U rnd data populationSize sg = some se := by
    unfold gaGeneration
    have e : populationSize.toNat = (i + 1) + (populationSize.toNat - (i + 1)) := by omega
    rw [e, forLoop_append, hsteps, Option.some_bind, Nat.zero_add]
    exact hse
  have hfin' : forLoop (fun _ st => gaGeneration U rnd data populationSize st) 0
      iterations.toNat st0 = some sf := by
    have e : iterations.toNat = (it + 1) + (iterations.toNat - (it + 1)) := by omega
    rw [e, forLoop_append, forLoop_append, hsg, Option.some_bind, Nat.zero_add, forLoop_one,
      hgen, Option.some_bind, Nat.zero_add]
    exact hsf
  have hsf_eq : sf = fin := by
    rw [hfin] at hfin'
    exact (Option.some.inj hfin').symm
  refine ⟨s, s', c, f, ?_, ?_, hc, hf, hinvs'.2, hle, hfle, ?_⟩
  · simp only [gaAt, h0, hsg, Option.bind_eq_bind, Option.some_bind]
    exact hs
  · simp only [gaAt, h0, hsg, Option.bind_eq_bind, Option.some_bind]
    exact hsteps
  · rw [← hsf_eq]
    exact le_trans hle2 hle3

theorem C11_best_ever_witness :
    ((([[lit "Schwarz", lit "Swarz"]] : List (List GoString)).length : ℚ) ≠ 0) ∧
    (∀ pair ∈ ([[lit "Schwarz", lit "Swarz"]] : List (List GoString)),
      ∃ n1 n2, pair = [n1, n2] ∧
        ((max (toRunes n1).length (toRunes n2).length : Nat) : ℚ) ≠ 0) ∧
    ∃ (st0 : GAState) (w0 best : Weights) (f0 fbest : ℚ),
      gaInit sampleTables (fun _ => 1 / 2) [[lit "Schwarz", lit "Swarz"]] 2 = some st0 ∧
      st0.population[0]? = some w0 ∧
      FitnessFunction sampleTables [[lit "Schwarz", lit "Swarz"]] w0 = some f0 ∧
      GeneticAlgorithm sampleTables (fun _ => 1 / 2) [[lit "Schwarz", lit "Swarz"]] 2 2 =
        some best ∧
      FitnessFunction sampleTables [[lit "Schwarz", lit "Swarz"]] best = some fbest ∧
      f0 ≤ fbest ∧
      ∀ it i, it < (2 : Int).toNat → i < (2 : Int).toNat →
        ∃ (s s' : GAState) (c : Weights) (f : ℚ),
          gaAt sampleTables (fun _ => 1 / 2) [[lit "Schwarz", lit "Swarz"]] 2 it i = some s ∧
          gaAt sampleTables (fun _ => 1 / 2) [[lit "Schwarz", lit "Swarz"]] 2 it (i + 1) =
            some s' ∧
          s.population[i]? = some c ∧
          FitnessFunction sampleTables [[lit "Schwarz", lit "Swarz"]] c = some f ∧
          FitnessFunction sampleTables [[lit "Schwarz", lit "Swarz"]] s'.bestWeights =
            some s'.bestScore ∧
          s.bestScore ≤ s'.bestScore ∧ f ≤ s'.bestScore ∧ s'.bestScore ≤ fbest :=
  C11_best_ever sampleTables (fun _ => 1 / 2) [[lit "Schwarz", lit "Swarz"]] 2 2 (by decide)
    (by simp) (by
      intro pair h
      rw [List.mem_singleton.mp h]
      exact ⟨_, _, rfl, Or.inl (by decide)⟩)

/-- C12: the code departs from the claim.  With `populationSize = 0` the read
`population[0]` of `GeneticAlgorithm` is out of range, for every training set and
iteration count; a negative `populationSize` fails in `make`; and `FitnessFunction` fails
on a list holding a pair with a single name, as does `GeneticAlgorithm` then. -/
theorem C12_panics (U : UnicodeTables) (rnd : Nat → ℚ) (data : List (List GoString))
    (iterations : Int) (w : Weights) :
    GeneticAlgorithm U rnd data iterations 0 = none ∧
    GeneticAlgorithm U rnd data iterations (-1) = none ∧
    FitnessFunction U [[lit "Schwarz"]] w = none ∧
    GeneticAlgorithm U rnd [[lit "Schwarz"]] iterations 1 = none := by
  refine ⟨by rfl, by rfl, by rfl, ?_⟩
  simp only [GeneticAlgorithm, gaInit_panics U rnd [[lit "Schwarz"]] ⟨_, List.mem_singleton.mpr rfl,
    by decide⟩ 1, Option.bind_eq_bind, Option.none_bind]

/-! ### ASCII names -/

theorem ToLower_ascii (U : UnicodeTables) (s : GoString) (h : ∀ c ∈ s, c < 0x80) :
    ToLower U s = s.map (fun c => if 0x41 ≤ c ∧ c ≤ 0x5A then c + 32 else c) := by
  unfold ToLower
  rw [if_pos]
  simpa [List.all_eq_true] using h

theorem ToLower_lowerAscii (U : UnicodeTables) (s : GoString) (h : ∀ c ∈ s, c < 0x80) :
    LowerAscii (ToLower U s) := by
  rw [ToLower_ascii U s h]
  intro c hc
  obtain ⟨x, hx, rfl⟩ := List.mem_map.mp hc
  have hx' := h x hx
  by_cases hu : 0x41 ≤ x ∧ x ≤ 0x5A
  · rw [if_pos hu]; omega
  · rw [if_neg hu]; exact ⟨hx', hu⟩

theorem ToLower_id (U : UnicodeTables) (s : GoString) (h : LowerAscii s) : ToLower U s = s := by
  rw [ToLower_ascii U s (fun c hc => (h c hc).1)]
  conv_rhs => rw [← List.map_id s]
  apply List.map_congr_left
  intro c hc
  rw [if_neg (h c hc).2]
  rfl

theorem replaceScan_lowerAscii (pairs : List (GoString × GoString))
    (hp : ∀ p ∈ pairs, LowerAscii p.2) :
    ∀ (s : GoString) (n : Nat), LowerAscii s → LowerAscii (replaceScan pairs s n) := by
  intro s
  induction s with
  | nil =>
    intro n _ c hc
    simp [replaceScan] at hc
  | cons b rest ih =>
    intro n hs
    have hrest : LowerAscii rest := fun c hc => hs c (List.mem_cons_of_mem _ hc)
    cases n with
    | succ n =>
      rw [replaceScan]
      exact ih n hrest
    | zero =>
      rw [replaceScan]
      cases hf : pairs.find? (fun p => p.1.isPrefixOf (b :: rest)) with
      | some p =>
        intro c hc
        rcases List.mem_append.mp hc with h | h
        · exact hp p (List.mem_of_find?_eq_some hf) c h
        · exact ih _ hrest c h
      | none =>
        intro c hc
        rcases List.mem_cons.mp hc with h | h
        · exact h ▸ hs b (List.mem_cons_self _ _)
        · exact ih _ hrest c h

theorem ReplaceAll_lowerAscii (s old new : GoString) (ho : old ≠ []) (hn : LowerAscii new)
    (hs : LowerAscii s) : LowerAscii (ReplaceAll s old new) := by
  unfold ReplaceAll
  rw [if_neg ho]
  apply replaceScan_lowerAscii _ _ _ _ hs
  intro p hp
  rw [List.mem_singleton.mp hp]
  exact hn

theorem replaceEach_lowerAscii (order : List (GoString × GoString))
    (ho : ∀ kv ∈ order, kv.1 ≠ [] ∧ LowerAscii kv.2) :
    ∀ s : GoString, LowerAscii s → LowerAscii (replaceEach order s) := by
  induction order with
  | nil => intro s hs; exact hs
  | cons kv order ih =>
    intro s hs
    have h1 := ho kv (List.mem_cons_self _ _)
    exact ih (fun x hx => ho x (List.mem_cons_of_mem _ hx)) _
      (ReplaceAll_lowerAscii s kv.1 kv.2 h1.1 h1.2 hs)

theorem toRunes_ascii (s : GoString) (h : ∀ c ∈ s, c < 0x80) : toRunes s = s := by
  unfold toRunes
  induction s with
  | nil => rfl
  | cons b rest ih =>
    have hb : b < 0x80 := h b (List.mem_cons_self _ _)
    have e : decodeRune (b :: rest) = (b, 1) := by
      unfold decodeRune
      exact if_pos hb
    rw [toRunesAux, e]
    show b :: toRunesAux rest 0 = b :: rest
    rw [ih (fun c hc => h c (List.mem_cons_of_mem _ hc))]

theorem vowelLoop_lowerAscii (rs : List Nat) (hrs : LowerAscii rs) :
    ∀ acc : GoString, LowerAscii acc →
      LowerAscii (rs.foldl (fun reduced char =>
        if char ∈ [0x61, 0x65, 0x69, 0x6F, 0x75] then reduced
        else reduced ++ encodeRune char) acc) := by
  induction rs with
  | nil => intro acc h; exact h
  | cons r rs ih =>
    intro acc hacc
    rw [List.foldl_cons]
    apply ih (fun c hc => hrs c (List.mem_cons_of_mem _ hc))
    have hr := hrs r (List.mem_cons_self _ _)
    split
    · exact hacc
    · intro c hc
      rcases List.mem_append.mp hc with h | h
      · exact hacc c h
      · have e : encodeRune r = [r] := by
          unfold encodeRune; rw [if_pos (by omega)]
        rw [e, List.mem_singleton] at h
        exact h ▸ hr

theorem VowelReduction_lowerAscii (s : GoString) (h : LowerAscii s) :
    LowerAscii (VowelReduction s) := by
  cases s with
  | nil => exact h
  | cons b0 rest =>
    have hb := h b0 (List.mem_cons_self _ _)
    have hrest : LowerAscii rest := fun c hc => h c (List.mem_cons_of_mem _ hc)
    unfold VowelReduction
    simp only
    split
    · rw [toRunes_ascii rest (fun c hc => (hrest c hc).1)]
      apply vowelLoop_lowerAscii rest hrest
      have e : encodeRune b0 = [b0] := by
        unfold encodeRune; rw [if_pos (by omega)]
      rw [e]
      intro c hc
      rw [List.mem_singleton] at hc
      exact hc ▸ hb
    · exact h

theorem DetectLanguage_ascii (U : UnicodeTables) (hH : ∀ r, r < 0x80 → U.isHebrew r = false)
    (a : GoString) (ha : ∀ c ∈ a, c < 0x80) : DetectLanguage U a ≠ "hebrew" := by
  have hl := ToLower_lowerAscii U a ha
  have hc : containsHebrew U (ToLower U a) = false := by
    unfold containsHebrew
    rw [toRunes_ascii _ (fun c hc => (hl c hc).1), List.any_eq_false]
    intro c hc
    rw [hH c (hl c hc).1]
    exact Bool.false_ne_true
  unfold DetectLanguage
  simp only [hc]
  split_ifs <;> first | decide | contradiction

theorem ApplyPhoneticTransform_lowerAscii (U : UnicodeTables)
    (hH : ∀ r, r < 0x80 → U.isHebrew r = false) (a : GoString) (ha : ∀ c ∈ a, c < 0x80) :
    LowerAscii (ApplyPhoneticTransform U a) := by
  have hl := ToLower_lowerAscii U a ha
  unfold ApplyPhoneticTransform
  simp only [if_neg (DetectLanguage_ascii U hH a ha)]
  split_ifs
  · exact replaceScan_lowerAscii _ (by unfold LowerAscii; decide) _ _ hl
  · exact replaceScan_lowerAscii _ (by unfold LowerAscii; decide) _ _ hl
  · exact replaceScan_lowerAscii _ (by unfold LowerAscii; decide) _ _ hl
  · exact replaceEach_lowerAscii _ (by unfold LowerAscii; decide) _ hl
  · unfold GenericPhoneticTransform
    simp only
    apply replaceEach_lowerAscii
      [(lit "tt", lit "t"), (lit "ll", lit "l"), (lit "ss", lit "s"), (lit "pp", lit "p"),
        (lit "rr", lit "r"), (lit "mm", lit "m")] (by unfold LowerAscii; decide)
    exact ReplaceAll_lowerAscii _ _ _ (by decide) (by unfold LowerAscii; decide)
      (replaceScan_lowerAscii _ (by unfold LowerAscii; decide) _ _ hl)

theorem normalize_lowerAscii (U : UnicodeTables)
    (hH : ∀ r, r < 0x80 → U.isHebrew r = false) (a : GoString) (ha : ∀ c ∈ a, c < 0x80) :
    LowerAscii (normalize U a) :=
  VowelReduction_lowerAscii _ (ApplyPhoneticTransform_lowerAscii U hH a ha)

theorem bigramsOf_lowerAscii (s : GoString) (h : LowerAscii s) :
    ∀ x ∈ bigramsOf (toRunes s), LowerAscii x := by
  intro x hx
  rw [toRunes_ascii s (fun c hc => (h c hc).1)] at hx
  unfold bigramsOf at hx
  obtain ⟨k, _, rfl⟩ := List.mem_map.mp hx
  have hsub : ∀ c ∈ (s.drop k).take 2, c ∈ s :=
    fun c hc => List.mem_of_mem_drop (List.mem_of_mem_take hc)
  rw [fromRunes_ascii _ (fun c hc => (h c (hsub c hc)).1)]
  exact fun c hc => h c (hsub c hc)

theorem nth_lowerAscii (A : List GoString) (hA : ∀ x ∈ A, LowerAscii x) (i : Nat) :
    LowerAscii (nth A i) := by
  unfold nth
  cases h : A[i]? with
  | none => intro c hc; simp at hc
  | some x => exact hA x (List.getElem?_mem h)

theorem cell_caseChange_dead (lower : GoString → GoString) (w w' : Weights)
    (hM : w.Match = w'.Match) (hR : w.Replace = w'.Replace) (hI : w.Insert = w'.Insert)
    (hD : w.Delete = w'.Delete) (hT : w.Transposition = w'.Transposition)
    (A B : List GoString)
    (hinj : ∀ i j, lower (nth A i) = lower (nth B j) → nth A i = nth B j) :
    ∀ i j, cell lower w A B i j = cell lower w' A B i j := by
  apply cell_induction
  · intro j; rw [cell_zero, cell_zero, hI]
  · intro i; rw [cell_succ_zero, cell_succ_zero, hD]
  · intro i j h1 h2 h3 h4
    rw [cell_succ_succ, cell_succ_succ, h1, h2, h3, h4, hM, hI, hD, hT]
    by_cases e : nth A i = nth B j
    · simp only [if_pos e]
    · have e' : ¬ lower (nth A i) = lower (nth B j) := fun h => e (hinj i j h)
      simp only [if_neg e, if_neg e', hR]

/-- C21: with Unicode tables in which no ASCII character is in the Hebrew script (as in
Go's `unicode.Hebrew`), for all names `a` and `b` made of ASCII characters and all weights
`w`, `w'` that agree on `Match`, `Replace`, `Insert`, `Delete` and `Transposition` (they
may differ in `CaseChange`, `Merge`, `Split`, `PhoneticChange`): the normalized names are
ASCII without uppercase letters, two bigrams of theirs that are equal after
`strings.ToLower` are equal, and `SoftBisimDistance(a, b, w)` returns the same value as
`SoftBisimDistance(a, b, w')`. -/
theorem C21_case_change_dead (U : UnicodeTables) (hH : ∀ r, r < 0x80 → U.isHebrew r = false)
    (a b : GoString) (ha : ∀ c ∈ a, c < 0x80) (hb : ∀ c ∈ b, c < 0x80) (w w' : Weights)
    (hM : w.Match = w'.Match) (hR : w.Replace = w'.Replace) (hI : w.Insert = w'.Insert)
    (hD : w.Delete = w'.Delete) (hT : w.Transposition = w'.Transposition) :
    (∀ c ∈ normalize U a, c < 0x80 ∧ ¬ (0x41 ≤ c ∧ c ≤ 0x5A)) ∧
    (∀ c ∈ normalize U b, c < 0x80 ∧ ¬ (0x41 ≤ c ∧ c ≤ 0x5A)) ∧
    (∃ A B, ComputeBigrams (normalize U a) = some A ∧
      ComputeBigrams (normalize U b) = some B ∧
      ∀ x ∈ A, ∀ y ∈ B, ToLower U x = ToLower U y → x = y) ∧
    (∃ d, SoftBisimDistance U a b w = some d ∧ SoftBisimDistance U a b w' = some d) := by
  have na := normalize_lowerAscii U hH a ha
  have nb := normalize_lowerAscii U hH b hb
  have hA := bigramsOf_lowerAscii _ na
  have hB := bigramsOf_lowerAscii _ nb
  refine ⟨na, nb, ⟨_, _, ComputeBigrams_eq _, ComputeBigrams_eq _, ?_⟩,
    ⟨_, SoftBisimDistance_eq U a b w, ?_⟩⟩
  · intro x hx y hy h
    rwa [ToLower_id U x (hA x hx), ToLower_id U y (hB y hy)] at h
  · rw [SoftBisimDistance_eq U a b w']
    refine congrArg some (cell_caseChange_dead _ w w' hM hR hI hD hT _ _ ?_ _ _).symm
    intro i j h
    rwa [ToLower_id U _ (nth_lowerAscii _ hA i), ToLower_id U _ (nth_lowerAscii _ hB j)] at h

theorem C21_case_change_dead_witness :
    (∀ c ∈ normalize sampleTables (lit "McDonald"), c < 0x80 ∧ ¬ (0x41 ≤ c ∧ c ≤ 0x5A)) ∧
    (∀ c ∈ normalize sampleTables (lit "MACDONALD"), c < 0x80 ∧ ¬ (0x41 ≤ c ∧ c ≤ 0x5A)) ∧
    (∃ A B, ComputeBigrams (normalize sampleTables (lit "McDonald")) = some A ∧
      ComputeBigrams (normalize sampleTables (lit "MACDONALD")) = some B ∧
      ∀ x ∈ A, ∀ y ∈ B, ToLower sampleTables x = ToLower sampleTables y → x = y) ∧
    (∃ d, SoftBisimDistance sampleTables (lit "McDonald") (lit "MACDONALD")
        ⟨0, 1, 1, 1, 1, 1, 1, 1, 1⟩ = some d ∧
      SoftBisimDistance sampleTables (lit "McDonald") (lit "MACDONALD")
        ⟨0, 1, 1, 1, 1, 5, 6, 7, 8⟩ = some d) :=
  C21_case_change_dead sampleTables (by decide) (lit "McDonald") (lit "MACDONALD")
    (by decide) (by decide) ⟨0, 1, 1, 1, 1, 1, 1, 1, 1⟩ ⟨0, 1, 1, 1, 1, 5, 6, 7, 8⟩
    rfl rfl rfl rfl rfl

end SoftBisim
